import Mathlib

/-!
# Tasks and executors: a shallow embedding

Embedding of `Tasks/priority_queue_threadsafe.h`, `Tasks/TaskFuture.h`,
`Tasks/TaskExecutor.h` and `Tasks/Task.h`.

* Heap objects held through `shared_ptr` (the shared states) and the executors live in a
  `World`; handles (`TaskPromise`, `TaskFuture`, the executor back-reference) are indices.
* Every operation is one atomic step on the `World` (the mutexes of the source make the
  queue operations and `set_ready` atomic); a blocking `wait()` on a state that is not
  ready, and a dereference of a null handle, have no result (`none`).
* `std::function` callables are Lean functions on the bound argument values.
-/

namespace Tasks

/-! ## Data model -/

/-- Priority is `enum Priority : unsigned char` (TaskExecutor.h 13-23); higher runs sooner. -/
abbrev Priority := Nat

def LAST_TO_EXECUTE : Priority := 0
def LOW : Priority := 40
def MEDIUM_LOW : Priority := 80
def MEDIUM : Priority := 120
def MEDIUM_HIGH : Priority := 160
def HIGH : Priority := 200
def CRITICAL : Priority := 240
def FIRST_TO_EXECUTE : Priority := 255

/-- TaskPromise holds `m_state`, the shared pointer to its state (an index into the world). -/
structure TaskPromise where
  m_state : Nat
  deriving DecidableEq

/-- TaskFuture (and SharedTaskFuture) hold `m_state_ptr`; `none` is the moved-from handle. -/
structure TaskFuture where
  m_state_ptr : Option Nat
  deriving DecidableEq

/-- Values that tasks take and return. `unit` stands for the absent result of a `void`
callable; `future` is a bound argument of type `TaskFuture<Res2>`. -/
inductive Value where
  | unit
  | int (i : Int)
  | str (s : String)
  | future (f : TaskFuture)
  deriving DecidableEq

/-- The content a value is left with after it has been moved from (the move constructor of
its type): scalars are copied, a string is left empty, a future handle is left null. -/
def Value.moved_from : Value → Value
  | Value.unit => Value.unit
  | Value.int i => Value.int i
  | Value.str _ => Value.str ""
  | Value.future _ => Value.future ⟨none⟩

/-- The `std::function` stored in `task_data::task`.
* `fn f`: a callable applied to the bound argument values (`move_apply`).
* `unwrap f`: the wrapper built by `schedule_continuation` (TaskExecutor.h 215),
  `[task](TaskFuture<Res2> future) { return task(future.get()); }`. -/
inductive Callable where
  | fn (f : List Value → Value)
  | unwrap (f : Value → Value)

/-- The struct `task_data<Res, Args...>` (Task.h 81-98). `res_void` records `Res = void`. -/
structure task_data where
  res_void : Bool
  task : Callable
  arguments : List Value
  promise : TaskPromise

/-- A work item: `Executable` with its only implementation `TaskExe<Res, Args...>`
(TaskExecutor.h 33-128): the priority and the owned task data. -/
structure Executable where
  m_priority : Priority
  m_task_data_ptr : task_data

/-- The member `Executable::operator<` (TaskExecutor.h 45-48):
`return rhs.m_priority < this->m_priority;`. -/
def Executable.lt (self rhs : Executable) : Bool :=
  decide (rhs.m_priority < self.m_priority)

/-- The free `operator<` on `unique_ptr<Executable>` (TaskExecutor.h 53-57):
`return (*rhs.get() < *lhs.get());`. -/
def unique_ptr_lt (lhs rhs : Executable) : Bool :=
  Executable.lt rhs lhs

/-- What `std::greater<>()` computes on two `unique_ptr<Executable>`: `x > y`, which the
library defines as `y < x`, where `<` is the overload above (found by argument-dependent
lookup, a non-template and so preferred). -/
def greater (x y : Executable) : Bool :=
  unique_ptr_lt y x

/-! ## priority_queue_threadsafe.h -/

/-- The class `concurrent_priority_queue<T>`: the deque `m_queue`, front first. -/
structure concurrent_priority_queue (T : Type) where
  m_queue : List T

/-- Insertion step of `stable_sort`: `x` stood before every element of the (sorted) list, so
it passes exactly the elements that `comp` puts strictly before it. -/
def stable_insert {T : Type} (comp : T → T → Bool) (x : T) : List T → List T
  | [] => [x]
  | y :: ys => if comp y x then y :: stable_insert comp x ys else x :: y :: ys

/-- The library routine `std::stable_sort(first, last, comp)`: the result is ordered by
`comp` and elements that `comp` does not order keep their relative order. -/
def stable_sort {T : Type} (comp : T → T → Bool) : List T → List T
  | [] => []
  | x :: xs => stable_insert comp x (stable_sort comp xs)

namespace concurrent_priority_queue

variable {T : Type}

/-- A default-constructed queue. -/
def new : concurrent_priority_queue T := ⟨[]⟩

/-- Member `dequeue()` (lines 36-45): moves out `m_queue.front()` and pops it. On an empty
deque `front()` has no defined result. -/
def dequeue (q : concurrent_priority_queue T) : Option (T × concurrent_priority_queue T) :=
  match q.m_queue with
  | [] => none
  | x :: rest => some (x, ⟨rest⟩)

/-- Member `enqueue(T&&)` (lines 53-58): `push_back` then
`std::stable_sort(begin, end, std::greater<>())`; `gt` is `operator>` of `T`. -/
def enqueue (gt : T → T → Bool) (q : concurrent_priority_queue T) (value : T) :
    concurrent_priority_queue T :=
  ⟨stable_sort gt (q.m_queue ++ [value])⟩

/-- Member `size()` (lines 60-64). -/
def size (q : concurrent_priority_queue T) : Nat := q.m_queue.length

/-- Member `empty()` (lines 66-69). -/
def empty (q : concurrent_priority_queue T) : Bool := q.size == 0

/-- Enqueue the items of a list one after the other. -/
def enqueue_all (gt : T → T → Bool) (q : concurrent_priority_queue T) :
    List T → concurrent_priority_queue T
  | [] => q
  | x :: xs => enqueue_all gt (q.enqueue gt x) xs

/-- The items returned by `n` successive calls of `dequeue` (fewer when the queue runs
empty), in the order they are returned. -/
def dequeue_n : Nat → concurrent_priority_queue T → List T
  | 0, _ => []
  | n + 1, q =>
    match q.dequeue with
    | none => []
    | some (x, q1) => x :: dequeue_n n q1

end concurrent_priority_queue

/-- Queue states reachable from the empty queue by `enqueue` and by `dequeue` on a
non-empty queue. -/
inductive QueueReachable : concurrent_priority_queue Executable → Prop where
  | init : QueueReachable concurrent_priority_queue.new
  | enqueue (q : concurrent_priority_queue Executable) (x : Executable) :
      QueueReachable q → QueueReachable (q.enqueue greater x)
  | dequeue (q q1 : concurrent_priority_queue Executable) (x : Executable) :
      QueueReachable q → q.dequeue = some (x, q1) → QueueReachable q1

/-- The property "stable descending-priority sort", in the words of the specification:
`ys` is in descending priority order, and for every priority the items of that priority
are those of `xs`, in the order they have in `xs`. -/
def IsStableDescendingSort (xs ys : List Executable) : Prop :=
  ys.Pairwise (fun a b => b.m_priority ≤ a.m_priority) ∧
  ∀ p : Priority, ys.filter (fun a => a.m_priority == p) = xs.filter (fun a => a.m_priority == p)

/-! ## TaskFuture.h: the shared state -/

/-- The classes `shared_state_base<T>` and `shared_state<T>` (TaskFuture.h 13-164).
`res_void` tells the specialization `shared_state<void>`, which has no `m_value` and no
`m_is_retrieved` (they keep their initial content). The mutex and the condition variable
are not represented. `m_task_executor_base` is an index into the executors of the world. -/
structure shared_state where
  res_void : Bool
  m_is_ready : Bool := false
  m_continuation : Option Executable := none
  m_task_executor_base : Option Nat := none
  m_value : Option Value := none
  m_is_retrieved : Bool := false

/-- The class `Executor_base` (TaskExecutor.h 132-256): the queue `m_queue`. -/
structure Executor_base where
  m_queue : concurrent_priority_queue Executable

/-- The heap: the shared states and the executors, addressed by index. -/
structure World where
  states : List shared_state
  executors : List Executor_base

namespace World

/-- The world before anything has been constructed. -/
def init : World := ⟨[], []⟩

/-- Overwrite the state at index `s`. -/
def set_state (w : World) (s : Nat) (st : shared_state) : World :=
  { w with states := w.states.set s st }

/-- Allocate a state (`std::make_shared<shared_state<Res>>()`); its index is returned. -/
def alloc_state (w : World) (st : shared_state) : Nat × World :=
  (w.states.length, { w with states := w.states ++ [st] })

/-- Overwrite the executor at index `e`. -/
def set_executor (w : World) (e : Nat) (ex : Executor_base) : World :=
  { w with executors := w.executors.set e ex }

/-- Construct an executor (its queue is empty); its index is returned. -/
def new_executor (w : World) : Nat × World :=
  (w.executors.length, { w with executors := w.executors ++ [⟨concurrent_priority_queue.new⟩] })

/-- The content of the queue of executor `e`. -/
def queue (w : World) (e : Nat) : Option (List Executable) :=
  match w.executors[e]? with
  | none => none
  | some ex => some ex.m_queue.m_queue

end World

/-- Member `Executor_base::m_schedule_continuation` (TaskExecutor.h 234-237):
`m_queue.enqueue(std::move(executable))`. -/
def Executor_base.m_schedule_continuation (w : World) (e : Nat) (executable : Executable) :
    Option World :=
  match w.executors[e]? with
  | none => none
  | some ex => some (w.set_executor e ⟨ex.m_queue.enqueue greater executable⟩)

namespace shared_state_base

/-- Member `is_ready()` (TaskFuture.h 17-20). -/
def is_ready (st : shared_state) : Bool := st.m_is_ready

/-- Member `wait()` (22-27): returns once the state is ready; on a state that is not ready
the caller stays blocked (no result). -/
def wait (st : shared_state) : Option Unit :=
  if is_ready st then some () else none

/-- Member `set_ready()` (44-57): sets `m_is_ready`, then, if `m_continuation` is not
null, moves it into `m_task_executor_base->m_schedule_continuation`. A null
`m_task_executor_base` cannot be dereferenced. -/
def set_ready (w : World) (s : Nat) : Option World :=
  match w.states[s]? with
  | none => none
  | some st =>
    match st.m_continuation with
    | none => some (w.set_state s { st with m_is_ready := true })
    | some c =>
      match st.m_task_executor_base with
      | none => none
      | some e =>
        Executor_base.m_schedule_continuation
          (w.set_state s { st with m_is_ready := true, m_continuation := none }) e c

/-- Member `set_executor_base(e)` (66). -/
def set_executor_base (w : World) (s : Nat) (e : Option Nat) : Option World :=
  match w.states[s]? with
  | none => none
  | some st => some (w.set_state s { st with m_task_executor_base := e })

/-- Member `executor_base()` (67-70). -/
def executor_base (st : shared_state) : Option Nat := st.m_task_executor_base

/-- Member `set_continuation(exe)` (72-75). -/
def set_continuation (w : World) (s : Nat) (exe : Option Executable) : Option World :=
  match w.states[s]? with
  | none => none
  | some st => some (w.set_state s { st with m_continuation := exe })

end shared_state_base

namespace shared_state

/-- Member `already_retrieved()` (101). -/
def already_retrieved (st : shared_state) : Bool := st.m_is_retrieved

/-- Member `get_move_value_or_void()` (107-112, and 155-158 for void): waits, marks the
state as retrieved and moves the value out of the storage. -/
def get_move_value_or_void (w : World) (s : Nat) : Option (Value × World) :=
  match w.states[s]? with
  | none => none
  | some st =>
    match shared_state_base.wait st with
    | none => none
    | some _ =>
      if st.res_void then some (Value.unit, w)
      else
        match st.m_value with
        | none => none
        | some v =>
          some (v, w.set_state s
            { st with m_is_retrieved := true, m_value := some v.moved_from })

/-- Member `get_copy_value()` (114-118). -/
def get_copy_value (w : World) (s : Nat) : Option Value :=
  match w.states[s]? with
  | none => none
  | some st =>
    match shared_state_base.wait st with
    | none => none
    | some _ => st.m_value

/-- Member `get_const_ref_value_or_void()` (120-124, and 160-163 for void). -/
def get_const_ref_value_or_void (w : World) (s : Nat) : Option Value :=
  match w.states[s]? with
  | none => none
  | some st =>
    match shared_state_base.wait st with
    | none => none
    | some _ => if st.res_void then some Value.unit else st.m_value

/-- Member `set_value(res)` of `shared_state<T>` (128-138):
`if (m_is_ready) return;`, placement new of the value, `set_ready()`. -/
def set_value (w : World) (s : Nat) (res : Value) : Option World :=
  match w.states[s]? with
  | none => none
  | some st =>
    if st.m_is_ready then some w
    else shared_state_base.set_ready (w.set_state s { st with m_value := some res }) s

end shared_state

/-! ## TaskFuture.h: promise and future -/

namespace TaskPromise

/-- The constructor `TaskPromise()` (322): `std::make_shared<shared_state<Res>>()`. -/
def new (w : World) (res_void : Bool) : TaskPromise × World :=
  let r := w.alloc_state { res_void := res_void }
  (⟨r.1⟩, r.2)

/-- Member `get_future()` (323-326). -/
def get_future (p : TaskPromise) : TaskFuture := ⟨some p.m_state⟩

/-- Member `set_value(t)` of `TaskPromise<Res>`, `Res` not void (328-334). -/
def set_value (w : World) (p : TaskPromise) (t : Value) : Option World :=
  shared_state.set_value w p.m_state t

/-- Member `set_value()` of `TaskPromise<void>` (336-342): `m_state->set_ready()`. -/
def set_value_void (w : World) (p : TaskPromise) : Option World :=
  shared_state_base.set_ready w p.m_state

end TaskPromise

namespace TaskFuture

/-- Member `TaskFuture_Base::is_ready()` (173-176). -/
def is_ready (w : World) (f : TaskFuture) : Option Bool :=
  match f.m_state_ptr with
  | none => none
  | some s =>
    match w.states[s]? with
    | none => none
    | some st => some (shared_state_base.is_ready st)

/-- Member `TaskFuture_Base::set_executor_base(e)` (207-210). -/
def set_executor_base (w : World) (f : TaskFuture) (e : Option Nat) : Option World :=
  match f.m_state_ptr with
  | none => none
  | some s => shared_state_base.set_executor_base w s e

/-- Member `TaskFuture::get()` (294-297). -/
def get (w : World) (f : TaskFuture) : Option (Value × World) :=
  match f.m_state_ptr with
  | none => none
  | some s => shared_state.get_move_value_or_void w s

/-- Member `SharedTaskFuture::get()` (251-254). -/
def shared_get (w : World) (f : TaskFuture) : Option Value :=
  match f.m_state_ptr with
  | none => none
  | some s => shared_state.get_const_ref_value_or_void w s

/-- Member `TaskFuture::share()` (299-302): the shared future takes `m_state_ptr`, the
exclusive handle is left null. Returns the shared future and the handle left behind. -/
def share (f : TaskFuture) : TaskFuture × TaskFuture :=
  (⟨f.m_state_ptr⟩, ⟨none⟩)

end TaskFuture

/-! ## Task.h -/

/-- The class `Task_data_impl<Ret, Args...>` (Task.h 111-131), base of `Task` and of
`PackagedTask`: the handle to the task data and the moved flag. -/
structure Task_data_impl where
  m_task_data_ptr : Option task_data
  m_task_data_moved : Bool := false

/-- Member `get_data_handle()` (118-122): sets `m_task_data_moved` and moves the handle
out. Returns the handle and the object left behind. -/
def Task_data_impl.get_data_handle (t : Task_data_impl) : Option task_data × Task_data_impl :=
  (t.m_task_data_ptr, { m_task_data_ptr := none, m_task_data_moved := true })

/-- The constructor `PackagedTask(fn, args...)` (164-176), also `make_packaged_task`
(215-220): a fresh `task_data` holding the callable, the bound arguments and a
default-constructed promise. -/
def make_packaged_task (w : World) (res_void : Bool) (fn : List Value → Value)
    (args : List Value) : Task_data_impl × World :=
  let r := TaskPromise.new w res_void
  let td : task_data :=
    { res_void := res_void, task := Callable.fn fn, arguments := args, promise := r.1 }
  (⟨some td, false⟩, r.2)

/-- The constructor `Task(fn)` for a callable taking a `TaskFuture<Res2>` (142-145, and
`make_task`, 227-231): a fresh `task_data` holding the callable, a default-constructed
argument and a default-constructed promise. The default-constructed future of the argument
tuple is written `⟨none⟩`: the state it owns is released when `schedule_continuation`
overwrites the argument, and is not allocated here. -/
def make_task (w : World) (res_void : Bool) (fn : Callable) : Task_data_impl × World :=
  let r := TaskPromise.new w res_void
  let td : task_data :=
    { res_void := res_void, task := fn, arguments := [Value.future ⟨none⟩], promise := r.1 }
  (⟨some td, false⟩, r.2)

/-- The function `move_apply(task, arguments)` (Task.h 71-77) on the callables of the
model: a plain callable is applied to the bound values; the callable of a continuation
receives the bound future, calls `get()` on it and is applied to what `get()` returns. -/
def move_apply (w : World) (task : Callable) (arguments : List Value) :
    Option (Value × World) :=
  match task, arguments with
  | Callable.fn f, args => some (f args, w)
  | Callable.unwrap f, [Value.future fut] =>
    match TaskFuture.get w fut with
    | none => none
    | some r => some (f r.1, r.2)
  | Callable.unwrap _, _ => none

/-! ## TaskExecutor.h -/

/-- Member `TaskExe<Res, Args...>::execute()` (101-109) and its specialization for
`Res = void` (120-126). -/
def Executable.execute (w : World) (x : Executable) : Option World :=
  match move_apply w x.m_task_data_ptr.task x.m_task_data_ptr.arguments with
  | none => none
  | some r =>
    if x.m_task_data_ptr.res_void then
      TaskPromise.set_value_void r.2 x.m_task_data_ptr.promise
    else
      TaskPromise.set_value r.2 x.m_task_data_ptr.promise r.1

/-- The state a continuation work item is bound to: the future that
`schedule_continuation` stores as its only argument. A work item built by `schedule`
has none. -/
def Executable.trigger (x : Executable) : Option Nat :=
  match x.m_task_data_ptr.task, x.m_task_data_ptr.arguments with
  | Callable.unwrap _, [Value.future fut] => fut.m_state_ptr
  | _, _ => none

namespace Executor_base

/-- Member `schedule(PackagedTask&&, Priority)` (TaskExecutor.h 135-153), on the executor
with index `this`. Returns the future, the task object left behind and the new world. -/
def schedule (w : World) (this : Nat) (task : Task_data_impl) (p : Priority) :
    Option (TaskFuture × Task_data_impl × World) :=
  let h := task.get_data_handle
  match h.1 with
  | none => none
  | some task_data_ptr =>
    let future := task_data_ptr.promise.get_future
    match w.executors[this]? with
    | none => none
    | some ex =>
      let w1 := w.set_executor this ⟨ex.m_queue.enqueue greater ⟨p, task_data_ptr⟩⟩
      match TaskFuture.set_executor_base w1 future (some this) with
      | none => none
      | some w2 => some (future, h.2, w2)

/-- Member `schedule(Fn&&, Priority p)` (166-170):
`return schedule(std::move(make_packaged_task(std::forward<Fn>(fn))));`. -/
def schedule_fn (w : World) (this : Nat) (res_void : Bool) (fn : List Value → Value)
    (_p : Priority) : Option (TaskFuture × World) :=
  let t := make_packaged_task w res_void fn []
  match schedule t.2 this t.1 MEDIUM with
  | none => none
  | some r => some (r.1, r.2.2)

/-- Member `schedule_continuation(TaskFuture<Res2>&, Task<ContRes(TaskFuture<Res2>)>&&,
Priority)` (173-194). The assignment at line 183 uses `TaskFuture::operator=(TaskFuture&&)`,
which copies `m_state_ptr`, so `task` keeps its state. Returns the future of the
continuation, the task object left behind and the new world. -/
def schedule_continuation (w : World) (this : Nat) (task : TaskFuture)
    (continuation : Task_data_impl) (p : Priority) :
    Option (TaskFuture × Task_data_impl × World) :=
  let h := continuation.get_data_handle
  match h.1 with
  | none => none
  | some task_data_ptr =>
    let future := task_data_ptr.promise.get_future
    let td := { task_data_ptr with arguments := task_data_ptr.arguments.set 0 (Value.future task) }
    match task.m_state_ptr with
    | none => none
    | some s =>
      match shared_state_base.set_continuation w s (some ⟨p, td⟩) with
      | none => none
      | some w1 =>
        match TaskFuture.set_executor_base w1 future (some this) with
        | none => none
        | some w2 => some (future, h.2, w2)

/-- Members `schedule_continuation(TaskFuture<Res>&, Fn&&, Priority)` (223-227) and
`schedule_continuation(TaskFuture<Res2>&, Task<ContRes(Res2)>&&, Priority)` (207-218): a
callable that takes the plain value is wrapped into
`[task](TaskFuture<Res2> future) { return task(future.get()); }`; one that takes the future
is passed on as it is. The Task built at line 226 for a value-taking callable only hands
over its callable and is released at line 214; its state is not allocated here. -/
def schedule_continuation_fn (w : World) (this : Nat) (task : TaskFuture) (res_void : Bool)
    (fn : Callable) (p : Priority) : Option (TaskFuture × World) :=
  let wrapper : Callable :=
    match fn with
    | Callable.fn f => Callable.unwrap (fun v => f [v])
    | Callable.unwrap g => Callable.unwrap g
  let t := make_task w res_void wrapper
  match schedule_continuation t.2 this task t.1 p with
  | none => none
  | some r => some (r.1, r.2.2)

end Executor_base

/-- Member `TaskFuture::then(task, p)` (TaskFuture.h 304-309):
`m_state_ptr->executor_base()->schedule_continuation(*this, task, p)`. -/
def TaskFuture.then_ (w : World) (f : TaskFuture) (res_void : Bool) (task : Callable)
    (p : Priority) : Option (TaskFuture × World) :=
  match f.m_state_ptr with
  | none => none
  | some s =>
    match w.states[s]? with
    | none => none
    | some st =>
      match shared_state_base.executor_base st with
      | none => none
      | some e => Executor_base.schedule_continuation_fn w e f res_void task p

/-- What one pass through the body of the loop of `Executor_base::run` does. -/
inductive RunStep where
  | waiting
  | exited
  | executed (w : World)

/-- One pass through the loop of `Executor_base::run(owner, alive)` (TaskExecutor.h
317-338): wait while the queue is empty and `alive`; leave the loop if not `alive`;
otherwise dequeue a task and execute it. -/
def Executor_base.run_step (w : World) (owner : Nat) (alive : Bool) : Option RunStep :=
  match w.executors[owner]? with
  | none => none
  | some ex =>
    if ex.m_queue.empty && alive then some RunStep.waiting
    else if !alive then some RunStep.exited
    else
      match ex.m_queue.dequeue with
      | none => none
      | some r =>
        match Executable.execute (w.set_executor owner ⟨r.2⟩) r.1 with
        | none => none
        | some w1 => some (RunStep.executed w1)

/-- The loop of `Executor_base::run` with `alive` true throughout, for at most `n` passes;
it stops when the worker has to wait (the queue is empty). -/
def Executor_base.run_n : Nat → World → Nat → Option World
  | 0, w, _ => some w
  | n + 1, w, owner =>
    match Executor_base.run_step w owner true with
    | none => none
    | some RunStep.waiting => some w
    | some RunStep.exited => some w
    | some (RunStep.executed w1) => Executor_base.run_n n w1 owner

/-- The scenario of two submissions before the worker runs: `schedule(ta, pa)`, then
`schedule(tb, pb)`, then one pass of the worker loop of executor `E`. Returns the two
futures and the world after the pass. -/
def schedule_two_then_run (w : World) (E : Nat) (ta : Task_data_impl) (pa : Priority)
    (tb : Task_data_impl) (pb : Priority) : Option (TaskFuture × TaskFuture × World) :=
  match Executor_base.schedule w E ta pa with
  | none => none
  | some ra =>
    match Executor_base.schedule ra.2.2 E tb pb with
    | none => none
    | some rb =>
      match Executor_base.run_step rb.2.2 E true with
      | some (RunStep.executed w1) => some (ra.1, rb.1, w1)
      | _ => none

/-- The scenario `fut = schedule(t).then(f1, p1).then(f2, p2)` on executor `E`, built
before the worker runs, followed by at most `n` passes of the worker loop (the loop stops
when the queue is empty). Returns `fut` and the world after the run. -/
def chain_then_run (w : World) (E : Nat) (t f1 f2 : List Value → Value) (p0 p1 p2 : Priority)
    (n : Nat) : Option (TaskFuture × World) :=
  match Executor_base.schedule_fn w E false t p0 with
  | none => none
  | some r0 =>
    match TaskFuture.then_ r0.2 r0.1 false (Callable.fn f1) p1 with
    | none => none
    | some r1 =>
      match TaskFuture.then_ r1.2 r1.1 false (Callable.fn f2) p2 with
      | none => none
      | some r2 =>
        match Executor_base.run_n n r2.2 E with
        | none => none
        | some w1 => some (r2.1, w1)

/-! ## Runs of the system -/

/-- The operations a client and the worker threads perform on the world. -/
inductive Op where
  | new_executor
  | new_promise (res_void : Bool)
  | set_value (p : TaskPromise) (v : Value)
  | set_value_void (p : TaskPromise)
  | schedule (E : Nat) (res_void : Bool) (fn : List Value → Value) (args : List Value)
      (p : Priority)
  | schedule_fn (E : Nat) (res_void : Bool) (fn : List Value → Value) (p : Priority)
  | schedule_continuation (E : Nat) (task : TaskFuture) (res_void : Bool) (fn : Callable)
      (p : Priority)
  | then_ (task : TaskFuture) (res_void : Bool) (fn : Callable) (p : Priority)
  | get (f : TaskFuture)
  | run (E : Nat)

/-- The effect of one operation. `set_value(v)` exists on `TaskPromise<Res>` for `Res` not
void only, `set_value()` on `TaskPromise<void>` only; `schedule` is given a PackagedTask
built by `make_packaged_task`; `run E` is one pass of the loop of a live worker of `E` that
finds a task. -/
def step (w : World) : Op → Option World
  | Op.new_executor => some w.new_executor.2
  | Op.new_promise res_void => some (TaskPromise.new w res_void).2
  | Op.set_value p v =>
    match w.states[p.m_state]? with
    | none => none
    | some st => if st.res_void then none else TaskPromise.set_value w p v
  | Op.set_value_void p =>
    match w.states[p.m_state]? with
    | none => none
    | some st => if st.res_void then TaskPromise.set_value_void w p else none
  | Op.schedule E res_void fn args p =>
    let t := make_packaged_task w res_void fn args
    match Executor_base.schedule t.2 E t.1 p with
    | none => none
    | some r => some r.2.2
  | Op.schedule_fn E res_void fn p =>
    match Executor_base.schedule_fn w E res_void fn p with
    | none => none
    | some r => some r.2
  | Op.schedule_continuation E task res_void fn p =>
    match Executor_base.schedule_continuation_fn w E task res_void fn p with
    | none => none
    | some r => some r.2
  | Op.then_ task res_void fn p =>
    match TaskFuture.then_ w task res_void fn p with
    | none => none
    | some r => some r.2
  | Op.get f =>
    match TaskFuture.get w f with
    | none => none
    | some r => some r.2
  | Op.run E =>
    match Executor_base.run_step w E true with
    | some (RunStep.executed w1) => some w1
    | _ => none

/-- The worlds reachable from the initial world by operations. -/
inductive Reachable : World → Prop where
  | init : Reachable World.init
  | step (w w1 : World) (op : Op) : Reachable w → step w op = some w1 → Reachable w1

/-- Whether the state with index `s` exists and is Ready. -/
def World.is_ready (w : World) (s : Nat) : Bool :=
  match w.states[s]? with
  | none => false
  | some st => st.m_is_ready

/-- A work item is bound to no other state than `s`. -/
def bound_to (c : Executable) (s : Nat) : Prop :=
  ∀ u : Nat, c.trigger = some u → u = s

/-- One elementary change of the world, as far as the invariant is concerned: Ready states
stay Ready; an attached continuation was attached before or is bound to its state; a queued
item was queued before, or was attached to a state that is now Ready, or is no
continuation. -/
structure Ext (w w1 : World) : Prop where
  ready_mono : ∀ t : Nat, w.is_ready t = true → w1.is_ready t = true
  slots : ∀ (t : Nat) (st1 : shared_state) (c : Executable),
    w1.states[t]? = some st1 → st1.m_continuation = some c →
      (∃ st : shared_state, w.states[t]? = some st ∧ st.m_continuation = some c) ∨ bound_to c t
  queues : ∀ (E : Nat) (ex1 : Executor_base) (x : Executable),
    w1.executors[E]? = some ex1 → x ∈ ex1.m_queue.m_queue →
      (∃ (E0 : Nat) (ex : Executor_base), w.executors[E0]? = some ex ∧ x ∈ ex.m_queue.m_queue) ∨
      (∃ (t : Nat) (st : shared_state), w.states[t]? = some st ∧ st.m_continuation = some x ∧
        w1.is_ready t = true) ∨
      x.trigger = none

/-- The effect of a sequence of operations, performed one after the other. -/
def run_ops : World → List Op → Option World
  | w, [] => some w
  | w, op :: ops =>
    match step w op with
    | none => none
    | some w1 => run_ops w1 ops

/-! ## Concrete objects used to instantiate the theorems -/

/-- A callable that adds its two integer arguments. -/
def add_ints : List Value → Value
  | [Value.int a, Value.int b] => Value.int (a + b)
  | _ => Value.unit

/-- A callable without arguments that returns the string hello. -/
def say_hello : List Value → Value := fun _ => Value.str "hello"

/-- A callable that appends the string world, after a blank, to its string argument. -/
def append_world : List Value → Value
  | [Value.str s] => Value.str (s ++ " world")
  | _ => Value.unit

/-- A callable that returns the length of its string argument. -/
def string_length : List Value → Value
  | [Value.str s] => Value.int s.length
  | _ => Value.unit

/-- A callable that returns nothing (a task that prints a greeting). -/
def greet : List Value → Value := fun _ => Value.unit

/-- The data of a packaged task computing `2 + 3`, with promise state 0. -/
def sum_task : task_data :=
  { res_void := false, task := Callable.fn add_ints, arguments := [Value.int 2, Value.int 3],
    promise := ⟨0⟩ }

/-- The data of a packaged task printing a greeting, with promise state 1. -/
def greet_task : task_data :=
  { res_void := true, task := Callable.fn greet, arguments := [], promise := ⟨1⟩ }

/-- Work items of priorities HIGH and LOW. -/
def high_item : Executable := ⟨HIGH, sum_task⟩
def low_item : Executable := ⟨LOW, greet_task⟩

/-- The queue after `enqueue(low_item)` and `enqueue(high_item)`. -/
def two_item_queue : concurrent_priority_queue Executable :=
  (concurrent_priority_queue.new.enqueue greater low_item).enqueue greater high_item

/-- A world with one executor, whose queue is empty, and the two fresh promise states of
`sum_task` and `greet_task`. -/
def two_task_world : World :=
  ⟨[{ res_void := false }, { res_void := true }], [⟨concurrent_priority_queue.new⟩]⟩

/-- A continuation work item bound to state 0, with promise state 1. -/
def hello_continuation : Executable :=
  ⟨LOW, ⟨false, Callable.unwrap (fun v => append_world [v]), [Value.future ⟨some 0⟩], ⟨1⟩⟩⟩

/-- A world in which the Pending state 0 has `hello_continuation` attached and remembers
executor 0, whose queue holds `high_item`. -/
def attached_world : World :=
  ⟨[{ res_void := false, m_continuation := some hello_continuation,
      m_task_executor_base := some 0 }, { res_void := false }],
    [⟨⟨[high_item]⟩⟩]⟩

/-- Operations after which a continuation is in the queue: a task is scheduled, a
continuation is attached with `then`, and the worker runs the task. -/
def hello_ops : List Op :=
  [Op.new_executor, Op.schedule_fn 0 false say_hello MEDIUM,
    Op.then_ ⟨some 0⟩ false (Callable.fn append_world) LOW, Op.run 0]

/-- The world after `hello_ops`. -/
def hello_world : World :=
  ⟨[{ res_void := false, m_is_ready := true, m_task_executor_base := some 0,
      m_value := some (Value.str "hello") },
    { res_void := false, m_task_executor_base := some 0 }],
    [⟨⟨[hello_continuation]⟩⟩]⟩

/-- Operations that lead to a Ready void state with a continuation attached: a void task is
scheduled and run, then a continuation is attached to its future with `then`. -/
def void_ops : List Op :=
  [Op.new_executor, Op.schedule 0 true greet [] MEDIUM, Op.run 0,
    Op.then_ ⟨some 0⟩ true (Callable.unwrap (fun _ => Value.unit)) LOW]

/-- What is observed of state 0 and of the queue of executor 0: whether the state is the
void specialization, whether it is Ready, whether its continuation slot is occupied, and
the priorities of the queued items. -/
def observe (w : World) : Option (Bool × Bool × Bool × List Priority) :=
  match w.states[0]?, w.queue 0 with
  | some st, some q =>
    some (st.res_void, st.m_is_ready, st.m_continuation.isSome, q.map Executable.m_priority)
  | _, _ => none

/-! ## Further members: waits with a time limit, copies of a shared future -/

/-- Member `shared_state_base::wait_for(dur_time)` (TaskFuture.h 29-34): the value of
`m_is_ready` when the wait ends (Ready reached, or the time is over). -/
def shared_state_base.wait_for (st : shared_state) : Bool := st.m_is_ready

/-- Member `shared_state_base::wait_until(end_time)` (TaskFuture.h 36-41). -/
def shared_state_base.wait_until (st : shared_state) : Bool := st.m_is_ready

/-- The copy constructor of `SharedTaskFuture` (TaskFuture.h 228-229): the copy holds the
same `m_state_ptr`. -/
def SharedTaskFuture.copy (other_future : TaskFuture) : TaskFuture :=
  ⟨other_future.m_state_ptr⟩

/-- Member `SharedTaskFuture::get_copy()` (TaskFuture.h 256-261). -/
def SharedTaskFuture.get_copy (w : World) (f : TaskFuture) : Option Value :=
  match f.m_state_ptr with
  | none => none
  | some s => shared_state.get_copy_value w s

/-- One pass through the loop of `Executor_base::run(owner, alive)` (TaskExecutor.h
317-338) with the two reads of the atomic flag kept apart: `alive_loop` is what the
condition of the inner `while` reads when the wait ends, `alive_exit` what
`if (!alive) break;` reads. The flag is only ever set to false after the thread has
started, so `alive_exit` can be true only if `alive_loop` is. -/
def Executor_base.run_pass (w : World) (owner : Nat) (alive_loop alive_exit : Bool) :
    Option RunStep :=
  match w.executors[owner]? with
  | none => none
  | some ex =>
    if ex.m_queue.empty && alive_loop then some RunStep.waiting
    else if !alive_exit then some RunStep.exited
    else
      match ex.m_queue.dequeue with
      | none => none
      | some r =>
        match Executable.execute (w.set_executor owner ⟨r.2⟩) r.1 with
        | none => none
        | some w1 => some (RunStep.executed w1)

/-- Every executor queue of the world is in descending priority order. -/
def QueuesSorted (w : World) : Prop :=
  ∀ (E : Nat) (ex : Executor_base), w.executors[E]? = some ex →
    ex.m_queue.m_queue.Pairwise (fun a b => b.m_priority ≤ a.m_priority)

/-! ## Operations on one shared state -/

/-- The operations on a shared state through its promise and its futures: the members of
`shared_state_base` and `shared_state`, `share` and `then`. -/
inductive StateOp where
  | set_value (v : Value)
  | set_value_void
  | set_continuation (exe : Option Executable)
  | set_executor_base (e : Option Nat)
  | is_ready
  | wait
  | wait_for
  | wait_until
  | get
  | shared_get
  | get_copy
  | share
  | then_ (res_void : Bool) (task : Callable) (p : Priority)

/-- The effect on the world of one operation on the state with index `s`. The value read
by a wait or a get is not kept here; a wait or get that blocks has no result. -/
def state_step (w : World) (s : Nat) : StateOp → Option World
  | StateOp.set_value v =>
    match w.states[s]? with
    | none => none
    | some st => if st.res_void then none else TaskPromise.set_value w ⟨s⟩ v
  | StateOp.set_value_void =>
    match w.states[s]? with
    | none => none
    | some st => if st.res_void then TaskPromise.set_value_void w ⟨s⟩ else none
  | StateOp.set_continuation exe => shared_state_base.set_continuation w s exe
  | StateOp.set_executor_base e => shared_state_base.set_executor_base w s e
  | StateOp.is_ready =>
    match TaskFuture.is_ready w ⟨some s⟩ with
    | none => none
    | some _ => some w
  | StateOp.wait =>
    match w.states[s]? with
    | none => none
    | some st =>
      match shared_state_base.wait st with
      | none => none
      | some _ => some w
  | StateOp.wait_for =>
    match w.states[s]? with
    | none => none
    | some st => if shared_state_base.wait_for st then some w else some w
  | StateOp.wait_until =>
    match w.states[s]? with
    | none => none
    | some st => if shared_state_base.wait_until st then some w else some w
  | StateOp.get =>
    match TaskFuture.get w ⟨some s⟩ with
    | none => none
    | some r => some r.2
  | StateOp.shared_get =>
    match TaskFuture.shared_get w ⟨some s⟩ with
    | none => none
    | some _ => some w
  | StateOp.get_copy =>
    match SharedTaskFuture.get_copy w ⟨some s⟩ with
    | none => none
    | some _ => some w
  | StateOp.share => some w
  | StateOp.then_ res_void task p =>
    match TaskFuture.then_ w ⟨some s⟩ res_void task p with
    | none => none
    | some r => some r.2

/-- The effect of a sequence of operations on the state with index `s`. -/
def run_state_ops (w : World) (s : Nat) : List StateOp → Option World
  | [] => some w
  | op :: ops =>
    match state_step w s op with
    | none => none
    | some w1 => run_state_ops w1 s ops

/-- The content of the continuation slot of state `s`, as a list of at most one item. -/
def World.slot (w : World) (s : Nat) : List Executable :=
  match w.states[s]? with
  | none => []
  | some st => st.m_continuation.toList

/-- All the work items that are in some executor queue. -/
def World.all_queued (w : World) : List Executable :=
  w.executors.flatMap (fun ex => ex.m_queue.m_queue)

/-- The work item that an operation attaches to state `s`: what `set_continuation` is
given, and what `then` has put into the slot of the world `w1` it produces. -/
def attached_by (w1 : World) (s : Nat) : StateOp → List Executable
  | StateOp.set_continuation exe => exe.toList
  | StateOp.then_ _ _ _ => w1.slot s
  | _ => []

/-- The work items attached to state `s` in the course of a sequence of operations, in the
order of their attachment. -/
def attached_all (w : World) (s : Nat) : List StateOp → List Executable
  | [] => []
  | op :: ops =>
    match state_step w s op with
    | none => []
    | some w1 => attached_by w1 s op ++ attached_all w1 s ops

/-! ## A continuation attached to a state that is already Ready -/

/-- The operation is a `set_value` through a promise of the state with index `n`. -/
def Op.writes (n : Nat) : Op → Prop
  | Op.set_value p _ => p.m_state = n
  | Op.set_value_void p => p.m_state = n
  | _ => False

/-- A property `P` of all queued work items and a property `A` of all attached
continuations, with the state each is attached to. -/
structure Items (P : Executable → Prop) (A : Nat → Executable → Prop) (w : World) : Prop where
  queued : ∀ (E : Nat) (ex : Executor_base) (x : Executable),
    w.executors[E]? = some ex → x ∈ ex.m_queue.m_queue → P x
  attached : ∀ (t : Nat) (st : shared_state) (c : Executable),
    w.states[t]? = some st → st.m_continuation = some c → A t c

/-- The promise of the work item refers to a state of the world, and a work item whose
promise refers to state `s` is not of the void kind. -/
def promise_in (bound s : Nat) (x : Executable) : Prop :=
  x.m_task_data_ptr.promise.m_state < bound ∧
  (x.m_task_data_ptr.promise.m_state = s → x.m_task_data_ptr.res_void = false)

/-- The promise of the work item is not that of state `n`, and a work item whose promise
refers to state `s` is not of the void kind. -/
def not_for (s n : Nat) (x : Executable) : Prop :=
  x.m_task_data_ptr.promise.m_state ≠ n ∧
  (x.m_task_data_ptr.promise.m_state = s → x.m_task_data_ptr.res_void = false)

/-- A continuation whose promise is that of state `n` is attached to state `s` only, and a
continuation whose promise refers to state `s` is not of the void kind. -/
def only_at (s n t : Nat) (c : Executable) : Prop :=
  (c.m_task_data_ptr.promise.m_state = n → t = s) ∧
  (c.m_task_data_ptr.promise.m_state = s → c.m_task_data_ptr.res_void = false)

/-- The situation after a continuation with promise state `n` has been attached to the
Ready value-carrying state `s`: `s` is Ready and value-carrying, `n` is Pending, no queued
work item has the promise of `n`, and only `s` has a continuation with that promise
attached. -/
structure Late (s n : Nat) (w : World) : Prop where
  trigger : ∃ st : shared_state, w.states[s]? = some st ∧ st.m_is_ready = true ∧
    st.res_void = false
  pending : ∃ st : shared_state, w.states[n]? = some st ∧ st.m_is_ready = false
  items : Items (not_for s n) (only_at s n) w

/-- The state with index `s` exists, is Ready and is value-carrying. -/
def ReadyValue (s : Nat) (w : World) : Prop :=
  ∃ st : shared_state, w.states[s]? = some st ∧ st.m_is_ready = true ∧ st.res_void = false

/-- The promise of the work item `x` is a state of `w` of the same kind (void or
value-carrying) as the task of `x`. -/
def tagged (w : World) (x : Executable) : Prop :=
  ∃ st : shared_state, w.states[x.m_task_data_ptr.promise.m_state]? = some st ∧
    st.res_void = x.m_task_data_ptr.res_void

/-- Every queued and every attached work item fulfils the promise of a state of its kind. -/
def WellTagged (w : World) : Prop := Items (tagged w) (fun _ => tagged w) w

/-- Operations on a state: two writes of a value, then a query. -/
def handover_ops : List StateOp :=
  [StateOp.set_value (Value.str "hello"), StateOp.set_value (Value.str "again"),
    StateOp.is_ready]

theorem greater_iff (x y : Executable) : greater x y = true ↔ y.m_priority < x.m_priority := by
  simp [greater, unique_ptr_lt, Executable.lt]

theorem stable_insert_length {T : Type} (comp : T → T → Bool) (x : T) (l : List T) :
    (stable_insert comp x l).length = l.length + 1 := by
  induction l with
  | nil => rfl
  | cons y ys ih =>
    unfold stable_insert
    by_cases h : comp y x = true <;> simp [h, ih]

theorem stable_sort_length {T : Type} (comp : T → T → Bool) (l : List T) :
    (stable_sort comp l).length = l.length := by
  induction l with
  | nil => rfl
  | cons y ys ih => simp [stable_sort, stable_insert_length, ih]

theorem not_greater_iff (x y : Executable) :
    ¬ greater x y = true ↔ x.m_priority ≤ y.m_priority := by
  rw [greater_iff]
  exact Nat.not_lt

theorem stable_insert_pos {T : Type} (comp : T → T → Bool) (x y : T) (ys : List T)
    (h : comp y x = true) :
    stable_insert comp x (y :: ys) = y :: stable_insert comp x ys := by
  simp [stable_insert, h]

theorem stable_insert_neg {T : Type} (comp : T → T → Bool) (x y : T) (ys : List T)
    (h : ¬ comp y x = true) :
    stable_insert comp x (y :: ys) = x :: y :: ys := by
  simp [stable_insert, h]

theorem stable_insert_mem (x y : Executable) (l : List Executable) :
    y ∈ stable_insert greater x l ↔ y = x ∨ y ∈ l := by
  induction l with
  | nil => simp [stable_insert]
  | cons z zs ih =>
    by_cases h : greater z x = true
    · rw [stable_insert_pos _ _ _ _ h, List.mem_cons, ih, List.mem_cons]
      tauto
    · rw [stable_insert_neg _ _ _ _ h]
      simp

theorem stable_insert_sorted (x : Executable) (l : List Executable)
    (hl : l.Pairwise (fun a b => b.m_priority ≤ a.m_priority)) :
    (stable_insert greater x l).Pairwise (fun a b => b.m_priority ≤ a.m_priority) := by
  induction l with
  | nil => simp [stable_insert]
  | cons z zs ih =>
    rw [List.pairwise_cons] at hl
    by_cases h : greater z x = true
    · rw [stable_insert_pos _ _ _ _ h, List.pairwise_cons]
      refine ⟨?_, ih hl.2⟩
      intro b hb
      rw [stable_insert_mem] at hb
      rcases hb with rfl | hb
      · exact Nat.le_of_lt ((greater_iff _ _).1 h)
      · exact hl.1 b hb
    · have hzx : z.m_priority ≤ x.m_priority := (not_greater_iff _ _).1 h
      rw [stable_insert_neg _ _ _ _ h, List.pairwise_cons, List.pairwise_cons]
      refine ⟨?_, hl.1, hl.2⟩
      intro b hb
      rcases List.mem_cons.1 hb with rfl | hb
      · exact hzx
      · exact Nat.le_trans (hl.1 b hb) hzx

theorem stable_insert_filter (x : Executable) (p : Priority) (l : List Executable) :
    (stable_insert greater x l).filter (fun a => a.m_priority == p) =
      [x].filter (fun a => a.m_priority == p) ++ l.filter (fun a => a.m_priority == p) := by
  induction l with
  | nil => simp [stable_insert]
  | cons z zs ih =>
    by_cases h : greater z x = true
    · have hlt := (greater_iff _ _).1 h
      rw [stable_insert_pos _ _ _ _ h]
      by_cases hz : z.m_priority = p
      · have hx : ¬ x.m_priority = p := by
          intro hx
          rw [hx, hz] at hlt
          exact Nat.lt_irrefl p hlt
        simp [List.filter_cons, hz, hx, ih]
      · by_cases hx : x.m_priority = p <;> simp [List.filter_cons, hz, hx, ih]
    · rw [stable_insert_neg _ _ _ _ h]
      by_cases hx : x.m_priority = p <;> simp [List.filter_cons, hx]

/-- The model of `std::stable_sort` with the comparator of the queue computes the stable
descending-priority sort of its input. -/
theorem stable_sort_spec (xs : List Executable) :
    IsStableDescendingSort xs (stable_sort greater xs) := by
  induction xs with
  | nil => exact ⟨List.Pairwise.nil, fun _ => rfl⟩
  | cons x xs ih =>
    refine ⟨stable_insert_sorted x _ ih.1, fun p => ?_⟩
    show (stable_insert greater x (stable_sort greater xs)).filter _ = _
    rw [stable_insert_filter, ih.2 p]
    by_cases hx : x.m_priority = p <;> simp [List.filter_cons, hx]

/-- A list has at most one stable descending-priority sort. -/
theorem IsStableDescendingSort.unique (xs : List Executable) :
    ∀ ys zs : List Executable, IsStableDescendingSort xs ys → IsStableDescendingSort xs zs →
      ys = zs := by
  intro ys zs hy hz
  have key : ∀ ys zs : List Executable,
      ys.Pairwise (fun a b => b.m_priority ≤ a.m_priority) →
      zs.Pairwise (fun a b => b.m_priority ≤ a.m_priority) →
      (∀ p : Priority, ys.filter (fun a => a.m_priority == p) =
        zs.filter (fun a => a.m_priority == p)) → ys = zs := by
    intro ys
    induction ys with
    | nil =>
      intro zs _ _ hf
      cases zs with
      | nil => rfl
      | cons b t =>
        have := hf b.m_priority
        simp [List.filter_cons] at this
    | cons a s ih =>
      intro zs hs hzs hf
      cases zs with
      | nil =>
        have := hf a.m_priority
        simp [List.filter_cons] at this
      | cons b t =>
        rw [List.pairwise_cons] at hs hzs
        have hba : b.m_priority ≤ a.m_priority := by
          have h1 : b ∈ (b :: t).filter (fun c => c.m_priority == b.m_priority) := by
            simp [List.filter_cons]
          rw [← hf] at h1
          rcases List.mem_cons.1 (List.mem_filter.1 h1).1 with h | h
          · rw [h]
          · exact hs.1 b h
        have hab : a.m_priority ≤ b.m_priority := by
          have h1 : a ∈ (a :: s).filter (fun c => c.m_priority == a.m_priority) := by
            simp [List.filter_cons]
          rw [hf] at h1
          rcases List.mem_cons.1 (List.mem_filter.1 h1).1 with h | h
          · rw [h]
          · exact hzs.1 a h
        have hpe : a.m_priority = b.m_priority := Nat.le_antisymm hab hba
        have hhead := hf a.m_priority
        simp only [List.filter_cons, beq_self_eq_true, if_true, hpe] at hhead
        have hab2 : a = b := (List.cons.inj hhead).1
        subst hab2
        congr 1
        apply ih t hs.2 hzs.2
        intro p
        have := hf p
        by_cases hp : a.m_priority = p
        · simp only [List.filter_cons, hp, beq_self_eq_true, if_true] at this
          exact (List.cons.inj this).2
        · simpa [List.filter_cons, hp] using this
  exact key ys zs hy.1 hz.1 (fun p => (hy.2 p).trans (hz.2 p).symm)

/-! ### The queue -/

theorem enqueue_spec (q : concurrent_priority_queue Executable) (x : Executable) :
    IsStableDescendingSort (q.m_queue ++ [x]) (q.enqueue greater x).m_queue :=
  stable_sort_spec (q.m_queue ++ [x])

theorem enqueue_size (q : concurrent_priority_queue Executable) (x : Executable) :
    (q.enqueue greater x).size = q.size + 1 := by
  simp [concurrent_priority_queue.enqueue, concurrent_priority_queue.size, stable_sort_length]

theorem dequeue_eq_some {T : Type} (q q1 : concurrent_priority_queue T) (x : T) :
    q.dequeue = some (x, q1) ↔ q.m_queue = x :: q1.m_queue := by
  cases q with
  | mk l =>
    cases q1 with
    | mk l1 =>
      cases l with
      | nil => simp [concurrent_priority_queue.dequeue]
      | cons y ys => simp [concurrent_priority_queue.dequeue]

theorem reachable_sorted (q : concurrent_priority_queue Executable) (hq : QueueReachable q) :
    q.m_queue.Pairwise (fun a b => b.m_priority ≤ a.m_priority) := by
  induction hq with
  | init => exact List.Pairwise.nil
  | enqueue q x _ _ => exact (enqueue_spec q x).1
  | dequeue q q1 x _ hd ih =>
    rw [dequeue_eq_some] at hd
    rw [hd, List.pairwise_cons] at ih
    exact ih.2

theorem dequeue_n_eq_take {T : Type} (n : Nat) (q : concurrent_priority_queue T) :
    q.dequeue_n n = q.m_queue.take n := by
  induction n generalizing q with
  | zero => simp [concurrent_priority_queue.dequeue_n]
  | succ n ih =>
    cases q with
    | mk l =>
      cases l with
      | nil => simp [concurrent_priority_queue.dequeue_n, concurrent_priority_queue.dequeue]
      | cons y ys =>
        simp [concurrent_priority_queue.dequeue_n, concurrent_priority_queue.dequeue, ih]

theorem dequeue_n_size {T : Type} (q : concurrent_priority_queue T) :
    q.dequeue_n q.size = q.m_queue := by
  rw [dequeue_n_eq_take, concurrent_priority_queue.size, List.take_length]

theorem mem_of_filter_eq (xs ys : List Executable)
    (h : ∀ p : Priority, ys.filter (fun a => a.m_priority == p) =
      xs.filter (fun a => a.m_priority == p)) (a : Executable) : a ∈ ys ↔ a ∈ xs := by
  have h1 : ∀ l : List Executable,
      a ∈ l ↔ a ∈ l.filter (fun c => c.m_priority == a.m_priority) := by
    intro l
    simp [List.mem_filter]
  rw [h1 ys, h1 xs, h]

theorem enqueue_mem (q : concurrent_priority_queue Executable) (x a : Executable) :
    a ∈ (q.enqueue greater x).m_queue ↔ a ∈ q.m_queue ∨ a = x := by
  rw [mem_of_filter_eq _ _ (enqueue_spec q x).2]
  simp

/-- On a queue in descending priority order, `enqueue` places the new item behind every item
of greater or equal priority and in front of every item of smaller priority, and leaves
the order of the others as it was. -/
theorem enqueue_position (q : concurrent_priority_queue Executable) (x : Executable)
    (hs : q.m_queue.Pairwise (fun a b => b.m_priority ≤ a.m_priority)) :
    ∃ l1 l2 : List Executable, q.m_queue = l1 ++ l2 ∧
      (q.enqueue greater x).m_queue = l1 ++ x :: l2 ∧
      (∀ y ∈ l1, x.m_priority ≤ y.m_priority) ∧ (∀ y ∈ l2, y.m_priority < x.m_priority) := by
  let P : Executable → Bool := fun y => decide (x.m_priority ≤ y.m_priority)
  have happ : q.m_queue.takeWhile P ++ q.m_queue.dropWhile P = q.m_queue :=
    List.takeWhile_append_dropWhile P q.m_queue
  have h1 : ∀ y ∈ q.m_queue.takeWhile P, x.m_priority ≤ y.m_priority := by
    intro y hy
    have := List.mem_takeWhile_imp hy
    simpa [P] using this
  have h2 : ∀ y ∈ q.m_queue.dropWhile P, y.m_priority < x.m_priority := by
    have hs2 : (q.m_queue.dropWhile P).Pairwise (fun a b => b.m_priority ≤ a.m_priority) :=
      hs.sublist (List.dropWhile_sublist P)
    intro y hy
    cases hdw : q.m_queue.dropWhile P with
    | nil => rw [hdw] at hy; cases hy
    | cons z zs =>
      have hz : ¬ P z = true := by
        have hne : q.m_queue.dropWhile P ≠ [] := by rw [hdw]; exact List.cons_ne_nil _ _
        have := List.head_dropWhile_not P q.m_queue hne
        simp only [hdw, List.head_cons] at this
        simp [this]
      have hzlt : z.m_priority < x.m_priority := by
        simpa [P] using hz
      rw [hdw] at hy hs2
      rcases List.mem_cons.1 hy with rfl | hy
      · exact hzlt
      · exact Nat.lt_of_le_of_lt ((List.pairwise_cons.1 hs2).1 y hy) hzlt
  refine ⟨q.m_queue.takeWhile P, q.m_queue.dropWhile P, happ.symm, ?_, h1, h2⟩
  apply IsStableDescendingSort.unique (q.m_queue ++ [x]) _ _ (enqueue_spec q x)
  constructor
  · rw [← happ] at hs
    rw [List.pairwise_append] at hs ⊢
    refine ⟨hs.1, ?_, ?_⟩
    · rw [List.pairwise_cons]
      exact ⟨fun b hb => Nat.le_of_lt (h2 b hb), hs.2.1⟩
    · intro a ha b hb
      rcases List.mem_cons.1 hb with rfl | hb
      · exact h1 a ha
      · exact hs.2.2 a ha b hb
  · intro p
    have hq : q.m_queue.filter (fun a => a.m_priority == p) =
        (q.m_queue.takeWhile P).filter (fun a => a.m_priority == p) ++
          (q.m_queue.dropWhile P).filter (fun a => a.m_priority == p) := by
      rw [← List.filter_append, happ]
    rw [List.filter_append, List.filter_append, hq, List.filter_cons]
    by_cases hx : x.m_priority = p
    · have hnil : (q.m_queue.dropWhile P).filter (fun a => a.m_priority == p) = [] := by
        rw [List.filter_eq_nil_iff]
        intro a ha
        have := h2 a ha
        simp only [beq_iff_eq]
        intro hap
        rw [hap, hx] at this
        exact Nat.lt_irrefl p this
      simp [hx, hnil]
    · simp [hx]

theorem enqueue_all_spec (xs : List Executable) :
    ∀ q : concurrent_priority_queue Executable,
      q.m_queue.Pairwise (fun a b => b.m_priority ≤ a.m_priority) →
      IsStableDescendingSort (q.m_queue ++ xs)
        (concurrent_priority_queue.enqueue_all greater q xs).m_queue := by
  induction xs with
  | nil =>
    intro q hs
    simpa [concurrent_priority_queue.enqueue_all, IsStableDescendingSort] using hs
  | cons x xs ih =>
    intro q hs
    have hx := enqueue_spec q x
    have := ih (q.enqueue greater x) hx.1
    refine ⟨this.1, fun p => ?_⟩
    have h2 := this.2 p
    rw [List.filter_append, hx.2 p] at h2
    simp only [concurrent_priority_queue.enqueue_all]
    rw [h2, List.filter_append, List.append_assoc, ← List.filter_append,
      ← List.filter_append]
    rfl

theorem enqueue_all_size (xs : List Executable) :
    ∀ q : concurrent_priority_queue Executable,
      (concurrent_priority_queue.enqueue_all greater q xs).size = q.size + xs.length := by
  induction xs with
  | nil => intro q; rfl
  | cons x xs ih =>
    intro q
    simp only [concurrent_priority_queue.enqueue_all, ih, enqueue_size, List.length_cons]
    omega

/-- C1: in every queue state reachable from the empty queue, `dequeue` returns an item whose
priority is at least that of every item left in the queue; and when two items of
priorities p1 > p2 are both enqueued (in either order) before the next dequeue, every
position of the p1 item in the dequeue order comes before every position of the p2 item. -/
theorem C1_dequeue_highest_priority_first (q : concurrent_priority_queue Executable)
    (hq : QueueReachable q) :
    (∀ (x : Executable) (q1 : concurrent_priority_queue Executable),
        q.dequeue = some (x, q1) → ∀ y ∈ q1.m_queue, y.m_priority ≤ x.m_priority) ∧
    (∀ a b : Executable, b.m_priority < a.m_priority →
      ∀ q2 : concurrent_priority_queue Executable,
        (q2 = (q.enqueue greater a).enqueue greater b ∨
          q2 = (q.enqueue greater b).enqueue greater a) →
        a ∈ q2.dequeue_n q2.size ∧ b ∈ q2.dequeue_n q2.size ∧
        ∀ i j : Nat, (q2.dequeue_n q2.size)[i]? = some a →
          (q2.dequeue_n q2.size)[j]? = some b → i < j) := by
  constructor
  · intro x q1 hd y hy
    have hs := reachable_sorted q hq
    rw [dequeue_eq_some] at hd
    rw [hd, List.pairwise_cons] at hs
    exact hs.1 y hy
  · intro a b hab q2 hq2
    have hr : QueueReachable q2 := by
      rcases hq2 with h | h <;> rw [h]
      · exact QueueReachable.enqueue _ _ (QueueReachable.enqueue _ _ hq)
      · exact QueueReachable.enqueue _ _ (QueueReachable.enqueue _ _ hq)
    have hs := reachable_sorted q2 hr
    rw [dequeue_n_size]
    refine ⟨?_, ?_, ?_⟩
    · rcases hq2 with h | h <;> rw [h] <;> simp [enqueue_mem]
    · rcases hq2 with h | h <;> rw [h] <;> simp [enqueue_mem]
    · intro i j hi hj
      rcases Nat.lt_trichotomy i j with h | h | h
      · exact h
      · exfalso
        rw [h, hj] at hi
        have : b = a := Option.some.inj hi
        rw [this] at hab
        exact Nat.lt_irrefl _ hab
      · exfalso
        obtain ⟨hj1, hj2⟩ := List.getElem?_eq_some.1 hj
        obtain ⟨hi1, hi2⟩ := List.getElem?_eq_some.1 hi
        have := List.pairwise_iff_getElem.1 hs j i hj1 hi1 h
        rw [hj2, hi2] at this
        exact Nat.lt_irrefl _ (Nat.lt_of_lt_of_le hab this)

/-- C2: in every reachable queue state, `enqueue` places the new item behind every queued
item of greater or equal priority (so behind every item of equal priority enqueued before
it), in front of every item of smaller priority, and keeps the order of the queued items;
`dequeue` removes the front item and keeps the order of the rest; and enqueuing x1..xn
into the empty queue and dequeuing n times yields the stable descending-priority sort of
x1..xn. -/
theorem C2_fifo_among_equal_priorities (q : concurrent_priority_queue Executable)
    (hq : QueueReachable q) (x : Executable) :
    (∃ l1 l2 : List Executable, q.m_queue = l1 ++ l2 ∧
      (q.enqueue greater x).m_queue = l1 ++ x :: l2 ∧
      (∀ y ∈ l1, x.m_priority ≤ y.m_priority) ∧ (∀ y ∈ l2, y.m_priority < x.m_priority)) ∧
    (∀ (y : Executable) (q1 : concurrent_priority_queue Executable),
      q.dequeue = some (y, q1) → q.m_queue = y :: q1.m_queue) ∧
    (∀ xs : List Executable,
      IsStableDescendingSort xs
        ((concurrent_priority_queue.enqueue_all greater concurrent_priority_queue.new
          xs).dequeue_n xs.length)) := by
  refine ⟨enqueue_position q x (reachable_sorted q hq), ?_, ?_⟩
  · intro y q1 hd
    exact (dequeue_eq_some q q1 y).1 hd
  · intro xs
    have hsz := enqueue_all_size xs concurrent_priority_queue.new
    have hspec := enqueue_all_spec xs concurrent_priority_queue.new List.Pairwise.nil
    have hlen : xs.length =
        (concurrent_priority_queue.enqueue_all greater concurrent_priority_queue.new
          xs).size := by
      rw [hsz]
      simp [concurrent_priority_queue.size, concurrent_priority_queue.new]
    rw [hlen, dequeue_n_size]
    simpa [concurrent_priority_queue.new] using hspec

/-! ### The world -/

@[simp] theorem World.set_state_executors (w : World) (s : Nat) (st : shared_state) :
    (w.set_state s st).executors = w.executors := rfl

@[simp] theorem World.set_state_states (w : World) (s : Nat) (st : shared_state) :
    (w.set_state s st).states = w.states.set s st := rfl

@[simp] theorem World.set_executor_states (w : World) (e : Nat) (ex : Executor_base) :
    (w.set_executor e ex).states = w.states := rfl

@[simp] theorem World.set_executor_executors (w : World) (e : Nat) (ex : Executor_base) :
    (w.set_executor e ex).executors = w.executors.set e ex := rfl

theorem World.set_state_set_state (w : World) (s : Nat) (st st1 : shared_state) :
    (w.set_state s st).set_state s st1 = w.set_state s st1 := by
  simp [World.set_state]

theorem getElem?_lt {α : Type} (l : List α) (i : Nat) (a : α) (h : l[i]? = some a) :
    i < l.length := (List.getElem?_eq_some.1 h).1

theorem stable_insert_perm {T : Type} (comp : T → T → Bool) (x : T) (l : List T) :
    (stable_insert comp x l).Perm (x :: l) := by
  induction l with
  | nil => exact List.Perm.refl _
  | cons y ys ih =>
    by_cases h : comp y x = true
    · rw [stable_insert_pos _ _ _ _ h]
      exact ((List.Perm.cons y ih).trans (List.Perm.swap x y ys))
    · rw [stable_insert_neg _ _ _ _ h]

theorem stable_sort_perm {T : Type} (comp : T → T → Bool) (l : List T) :
    (stable_sort comp l).Perm l := by
  induction l with
  | nil => exact List.Perm.refl _
  | cons y ys ih =>
    exact (stable_insert_perm comp y _).trans (List.Perm.cons y ih)

theorem enqueue_perm {T : Type} (gt : T → T → Bool) (q : concurrent_priority_queue T) (x : T) :
    (q.enqueue gt x).m_queue.Perm (x :: q.m_queue) := by
  refine (stable_sort_perm gt _).trans ?_
  exact List.perm_append_comm



theorem set_value_of_ready (w : World) (s : Nat) (v : Value) (st : shared_state)
    (hst : w.states[s]? = some st) (hr : st.m_is_ready = true) :
    shared_state.set_value w s v = some w := by
  simp [shared_state.set_value, hst, hr]

theorem set_value_pending_no_continuation (w : World) (s : Nat) (v : Value)
    (st : shared_state) (hst : w.states[s]? = some st) (hp : st.m_is_ready = false)
    (hc : st.m_continuation = none) :
    shared_state.set_value w s v =
      some (w.set_state s { st with m_value := some v, m_is_ready := true }) := by
  have hlt := getElem?_lt _ _ _ hst
  simp [shared_state.set_value, hst, hp, shared_state_base.set_ready, List.getElem?_set, hlt,
    hc, World.set_state_set_state]

theorem set_value_pending_continuation (w : World) (s : Nat) (v : Value)
    (st : shared_state) (c : Executable) (e : Nat) (ex : Executor_base)
    (hst : w.states[s]? = some st) (hp : st.m_is_ready = false)
    (hc : st.m_continuation = some c) (he : st.m_task_executor_base = some e)
    (hex : w.executors[e]? = some ex) :
    shared_state.set_value w s v =
      some ((w.set_state s
        { st with m_value := some v, m_is_ready := true, m_continuation := none }).set_executor
          e ⟨ex.m_queue.enqueue greater c⟩) := by
  have hlt := getElem?_lt _ _ _ hst
  simp [shared_state.set_value, hst, hp, shared_state_base.set_ready, List.getElem?_set, hlt,
    hc, he, World.set_state_set_state, Executor_base.m_schedule_continuation, hex]

theorem set_value_pending_null_executor (w : World) (s : Nat) (v : Value)
    (st : shared_state) (c : Executable)
    (hst : w.states[s]? = some st) (hp : st.m_is_ready = false)
    (hc : st.m_continuation = some c)
    (he : ∀ e : Nat, st.m_task_executor_base = some e → w.executors[e]? = none) :
    shared_state.set_value w s v = none := by
  have hlt := getElem?_lt _ _ _ hst
  cases hb : st.m_task_executor_base with
  | none =>
    simp [shared_state.set_value, hst, hp, shared_state_base.set_ready, List.getElem?_set,
      hlt, hc, hb]
  | some e =>
    simp [shared_state.set_value, hst, hp, shared_state_base.set_ready, List.getElem?_set,
      hlt, hc, hb, Executor_base.m_schedule_continuation, he e hb]

/-- What a successful `set_value` on a state that is not ready does to the world. -/
theorem set_value_pending_cases (w w1 : World) (s : Nat) (v : Value) (st : shared_state)
    (hst : w.states[s]? = some st) (hp : st.m_is_ready = false)
    (h : shared_state.set_value w s v = some w1) :
    (st.m_continuation = none ∧
      w1 = w.set_state s { st with m_value := some v, m_is_ready := true }) ∨
    (∃ (c : Executable) (e : Nat) (ex : Executor_base), st.m_continuation = some c ∧
      st.m_task_executor_base = some e ∧ w.executors[e]? = some ex ∧
      w1 = (w.set_state s
        { st with m_value := some v, m_is_ready := true, m_continuation := none }).set_executor
          e ⟨ex.m_queue.enqueue greater c⟩) := by
  rcases Option.eq_none_or_eq_some st.m_continuation with hc | ⟨c, hc⟩
  · rw [set_value_pending_no_continuation w s v st hst hp hc] at h
    exact Or.inl ⟨hc, (Option.some.inj h).symm⟩
  · right
    rcases Option.eq_none_or_eq_some st.m_task_executor_base with he | ⟨e, he⟩
    · rw [set_value_pending_null_executor w s v st c hst hp hc (by simp [he])] at h
      cases h
    · rcases Option.eq_none_or_eq_some w.executors[e]? with hex | ⟨ex, hex⟩
      · rw [set_value_pending_null_executor w s v st c hst hp hc
          (by intro e1 h1; rw [he] at h1; cases h1; exact hex)] at h
        cases h
      · rw [set_value_pending_continuation w s v st c e ex hst hp hc he hex] at h
        exact ⟨c, e, ex, hc, he, hex, (Option.some.inj h).symm⟩

theorem set_value_makes_ready (w w1 : World) (s : Nat) (v : Value)
    (h : shared_state.set_value w s v = some w1) :
    ∃ st1 : shared_state, w1.states[s]? = some st1 ∧ st1.m_is_ready = true := by
  cases hst : w.states[s]? with
  | none => simp [shared_state.set_value, hst] at h
  | some st =>
    have hlt := getElem?_lt _ _ _ hst
    cases hr : st.m_is_ready with
    | true =>
      rw [set_value_of_ready w s v st hst hr] at h
      cases h
      exact ⟨st, hst, hr⟩
    | false =>
      rcases set_value_pending_cases w w1 s v st hst hr h with ⟨_, hw⟩ | ⟨c, e, ex, _, _, _, hw⟩
      · rw [hw]
        simp [List.getElem?_set, hlt]
      · rw [hw]
        simp [List.getElem?_set, hlt]

/-- C3: after `set_value(v)` has been called on a promise, a second call `set_value(v2)`
changes nothing: the world (stored value, readiness flag, continuation slot, every
executor queue) is the same; and when the first call was made on a Pending value-carrying
state, `get()` on the future returns `v`, also after the second call. -/
theorem C3_second_set_value_is_noop (w w1 : World) (p : TaskPromise) (v v2 : Value)
    (h1 : TaskPromise.set_value w p v = some w1) :
    TaskPromise.set_value w1 p v2 = some w1 ∧
    (∀ st : shared_state, w.states[p.m_state]? = some st → st.m_is_ready = false →
      st.res_void = false →
      ∃ w2 w3 : World, TaskPromise.set_value w1 p v2 = some w2 ∧
        TaskFuture.get w2 p.get_future = some (v, w3)) := by
  have hnoop : TaskPromise.set_value w1 p v2 = some w1 := by
    obtain ⟨st1, hst1, hr1⟩ := set_value_makes_ready w w1 p.m_state v h1
    exact set_value_of_ready w1 p.m_state v2 st1 hst1 hr1
  refine ⟨hnoop, ?_⟩
  intro st hst hp hv
  refine ⟨w1, ?_⟩
  simp only [hnoop, true_and]
  have hlt := getElem?_lt _ _ _ hst
  rcases set_value_pending_cases w w1 p.m_state v st hst hp h1 with
    ⟨_, hw⟩ | ⟨c, e, ex, _, _, _, hw⟩
  · rw [hw]
    simp [TaskFuture.get, TaskPromise.get_future, shared_state.get_move_value_or_void,
      List.getElem?_set, hlt, shared_state_base.wait, shared_state_base.is_ready, hv]
  · rw [hw]
    simp [TaskFuture.get, TaskPromise.get_future, shared_state.get_move_value_or_void,
      List.getElem?_set, hlt, shared_state_base.wait, shared_state_base.is_ready, hv]

theorem enqueue_at_position (q : concurrent_priority_queue Executable) (x : Executable)
    (w1 : World) (e : Nat)
    (h : w1.executors[e]? = some ⟨q.enqueue greater x⟩) :
    (∃ l : List Executable, w1.queue e = some l ∧ l.Perm (x :: q.m_queue)) ∧
    (q.m_queue.Pairwise (fun a b => b.m_priority ≤ a.m_priority) →
      ∃ l1 l2 : List Executable, q.m_queue = l1 ++ l2 ∧ w1.queue e = some (l1 ++ x :: l2) ∧
        (∀ y ∈ l1, x.m_priority ≤ y.m_priority) ∧ (∀ y ∈ l2, y.m_priority < x.m_priority)) := by
  constructor
  · exact ⟨_, by simp [World.queue, h], enqueue_perm greater q x⟩
  · intro hs
    obtain ⟨l1, l2, h1, h2, h3, h4⟩ := enqueue_position q x hs
    exact ⟨l1, l2, h1, by simp [World.queue, h, h2], h3, h4⟩

/-- C4: on a Pending value-carrying state, `set_value(v)` stores `v` and makes the state
Ready. With no continuation registered, nothing else changes (every executor queue is as
before). With a continuation `c` registered and executor `e` remembered, the slot becomes
empty and `c` is inserted into the queue of `e` (one more item; at its priority position
when the queue is in priority order); no other state of the world changes, so the body of
`c` has not run: the state of its promise and the retrieved flag of this state are as
before, and `c` itself is in the queue. -/
theorem C4_set_value_on_pending (w : World) (p : TaskPromise) (v : Value) (st : shared_state)
    (hst : w.states[p.m_state]? = some st) (hp : st.m_is_ready = false) :
    (st.m_continuation = none →
      ∃ w1 : World, TaskPromise.set_value w p v = some w1 ∧
        w1.states[p.m_state]? = some { st with m_value := some v, m_is_ready := true } ∧
        w1.executors = w.executors ∧
        (∀ t : Nat, t ≠ p.m_state → w1.states[t]? = w.states[t]?)) ∧
    (∀ (c : Executable) (e : Nat) (ex : Executor_base), st.m_continuation = some c →
      st.m_task_executor_base = some e → w.executors[e]? = some ex →
      ∃ w1 : World, TaskPromise.set_value w p v = some w1 ∧
        w1.states[p.m_state]? =
          some { st with m_value := some v, m_is_ready := true, m_continuation := none } ∧
        w1.executors[e]? = some ⟨ex.m_queue.enqueue greater c⟩ ∧
        (∃ l : List Executable, w1.queue e = some l ∧ l.Perm (c :: ex.m_queue.m_queue)) ∧
        (ex.m_queue.m_queue.Pairwise (fun a b => b.m_priority ≤ a.m_priority) →
          ∃ l1 l2 : List Executable, ex.m_queue.m_queue = l1 ++ l2 ∧
            w1.queue e = some (l1 ++ c :: l2) ∧
            (∀ y ∈ l1, c.m_priority ≤ y.m_priority) ∧
            (∀ y ∈ l2, y.m_priority < c.m_priority)) ∧
        (∀ t : Nat, t ≠ p.m_state → w1.states[t]? = w.states[t]?) ∧
        (∀ e1 : Nat, e1 ≠ e → w1.executors[e1]? = w.executors[e1]?)) := by
  have hlt := getElem?_lt _ _ _ hst
  constructor
  · intro hc
    refine ⟨_, set_value_pending_no_continuation w p.m_state v st hst hp hc, ?_, rfl, ?_⟩
    · simp [List.getElem?_set, hlt]
    · intro t ht
      simp [List.getElem?_set, Ne.symm ht]
  · intro c e ex hc he hex
    have hlte := getElem?_lt _ _ _ hex
    have hq : ((w.set_state p.m_state
        { st with m_value := some v, m_is_ready := true, m_continuation := none }).set_executor
          e ⟨ex.m_queue.enqueue greater c⟩).executors[e]? =
        some ⟨ex.m_queue.enqueue greater c⟩ := by
      simp [List.getElem?_set, hlte]
    refine ⟨_, set_value_pending_continuation w p.m_state v st c e ex hst hp hc he hex, ?_,
      hq, (enqueue_at_position _ _ _ _ hq).1, (enqueue_at_position _ _ _ _ hq).2, ?_, ?_⟩
    · simp [List.getElem?_set, hlt]
    · intro t ht
      simp [List.getElem?_set, Ne.symm ht]
    · intro e1 he1
      simp [List.getElem?_set, Ne.symm he1]

/-- C5: for a PackagedTask that has not been scheduled (its data handle `td` is in place)
and any priority `p`, `schedule(task, p)` on executor `E` returns; the queue of `E` gains
exactly one work item, of priority `p`, owning `td` (callable, bound arguments, promise);
the returned future refers to the state of the promise of `td`; that state has `E` as its
executor back-reference and is otherwise as before; the task object is left with an empty
data handle and the moved flag set; no other state or executor changes. -/
theorem C5_schedule_packaged_task (w : World) (E : Nat) (ex : Executor_base)
    (td : task_data) (moved : Bool) (st : shared_state) (p : Priority)
    (hex : w.executors[E]? = some ex) (hst : w.states[td.promise.m_state]? = some st) :
    ∃ (future : TaskFuture) (task1 : Task_data_impl) (w1 : World),
      Executor_base.schedule w E ⟨some td, moved⟩ p = some (future, task1, w1) ∧
      w1.executors[E]? = some ⟨ex.m_queue.enqueue greater ⟨p, td⟩⟩ ∧
      (∃ l : List Executable, w1.queue E = some l ∧
        l.Perm ((⟨p, td⟩ : Executable) :: ex.m_queue.m_queue) ∧
        l.length = ex.m_queue.m_queue.length + 1) ∧
      (⟨p, td⟩ : Executable).m_priority = p ∧
      (⟨p, td⟩ : Executable).m_task_data_ptr = td ∧
      future.m_state_ptr = some td.promise.m_state ∧
      w1.states[td.promise.m_state]? = some { st with m_task_executor_base := some E } ∧
      task1.m_task_data_ptr = none ∧ task1.m_task_data_moved = true ∧
      (∀ t : Nat, t ≠ td.promise.m_state → w1.states[t]? = w.states[t]?) ∧
      (∀ e1 : Nat, e1 ≠ E → w1.executors[e1]? = w.executors[e1]?) := by
  have hlt := getElem?_lt _ _ _ hst
  have hlte := getElem?_lt _ _ _ hex
  refine ⟨⟨some td.promise.m_state⟩, ⟨none, true⟩,
    (w.set_executor E ⟨ex.m_queue.enqueue greater ⟨p, td⟩⟩).set_state td.promise.m_state
      { st with m_task_executor_base := some E }, ?_, ?_, ?_, rfl, rfl, rfl, ?_, rfl, rfl, ?_, ?_⟩
  · simp [Executor_base.schedule, Task_data_impl.get_data_handle, hex,
      TaskFuture.set_executor_base, TaskPromise.get_future,
      shared_state_base.set_executor_base, hst]
  · simp [List.getElem?_set, hlte]
  · have hq : ((w.set_executor E ⟨ex.m_queue.enqueue greater ⟨p, td⟩⟩).set_state
        td.promise.m_state { st with m_task_executor_base := some E }).executors[E]? =
        some ⟨ex.m_queue.enqueue greater ⟨p, td⟩⟩ := by
      simp [List.getElem?_set, hlte]
    obtain ⟨l, hl1, hl2⟩ := (enqueue_at_position _ _ _ _ hq).1
    exact ⟨l, hl1, hl2, by rw [hl2.length_eq]; rfl⟩
  · simp [List.getElem?_set, hlt]
  · intro t ht
    simp [List.getElem?_set, Ne.symm ht]
  · intro e1 he1
    simp [List.getElem?_set, Ne.symm he1]

theorem schedule_eq (w : World) (E : Nat) (ex : Executor_base) (td : task_data)
    (moved : Bool) (st : shared_state) (p : Priority)
    (hex : w.executors[E]? = some ex) (hst : w.states[td.promise.m_state]? = some st) :
    Executor_base.schedule w E ⟨some td, moved⟩ p =
      some (⟨some td.promise.m_state⟩, ⟨none, true⟩,
        (w.set_executor E ⟨ex.m_queue.enqueue greater ⟨p, td⟩⟩).set_state td.promise.m_state
          { st with m_task_executor_base := some E }) := by
  simp [Executor_base.schedule, Task_data_impl.get_data_handle, hex,
    TaskFuture.set_executor_base, TaskPromise.get_future,
    shared_state_base.set_executor_base, hst]

theorem run_step_eq (w : World) (E : Nat) (x : Executable) (rest : List Executable)
    (hex : w.executors[E]? = some ⟨⟨x :: rest⟩⟩) :
    Executor_base.run_step w E true =
      match Executable.execute (w.set_executor E ⟨⟨rest⟩⟩) x with
      | none => none
      | some w1 => some (RunStep.executed w1) := by
  simp [Executor_base.run_step, hex, concurrent_priority_queue.empty,
    concurrent_priority_queue.size, concurrent_priority_queue.dequeue]

theorem execute_fn_eq (w : World) (x : Executable) (f : List Value → Value)
    (hf : x.m_task_data_ptr.task = Callable.fn f) (hv : x.m_task_data_ptr.res_void = false) :
    Executable.execute w x =
      shared_state.set_value w x.m_task_data_ptr.promise.m_state
        (f x.m_task_data_ptr.arguments) := by
  simp [Executable.execute, move_apply, TaskPromise.set_value, hf, hv]

theorem enqueue_new (x : Executable) :
    (concurrent_priority_queue.new.enqueue greater x) = ⟨[x]⟩ := by
  simp [concurrent_priority_queue.enqueue, concurrent_priority_queue.new, stable_sort,
    stable_insert]

theorem enqueue_singleton_lower (a b : Executable) (h : b.m_priority < a.m_priority) :
    (concurrent_priority_queue.enqueue greater ⟨[a]⟩ b) = ⟨[a, b]⟩ := by
  have hg : greater a b = true := (greater_iff a b).2 h
  show (⟨stable_insert greater a (stable_insert greater b [])⟩ :
    concurrent_priority_queue Executable) = _
  have h1 : stable_insert greater b [] = [b] := rfl
  rw [h1, stable_insert_neg greater a b [] ?_]
  rw [not_greater_iff]
  exact Nat.le_of_lt h

theorem enqueue_singleton_higher (a b : Executable) (h : b.m_priority < a.m_priority) :
    (concurrent_priority_queue.enqueue greater ⟨[b]⟩ a) = ⟨[a, b]⟩ := by
  have hg : greater a b = true := (greater_iff a b).2 h
  show (⟨stable_insert greater b (stable_insert greater a [])⟩ :
    concurrent_priority_queue Executable) = _
  have h1 : stable_insert greater a [] = [a] := rfl
  rw [h1, stable_insert_pos greater b a [] hg]
  rfl

theorem schedule_two_then_run_high_first (w : World) (E : Nat) (td1 td2 : task_data)
    (fn1 : List Value → Value) (p1 p2 : Priority)
    (hp : p2 < p1) (hE : w.executors[E]? = some ⟨concurrent_priority_queue.new⟩)
    (hf1 : td1.task = Callable.fn fn1) (hv1 : td1.res_void = false)
    (hs1 : w.states[td1.promise.m_state]? = some { res_void := false })
    (hs2 : w.states[td2.promise.m_state]? = some { res_void := td2.res_void })
    (hne : td1.promise.m_state ≠ td2.promise.m_state) :
    schedule_two_then_run w E ⟨some td1, false⟩ p1 ⟨some td2, false⟩ p2 =
      some (td1.promise.get_future, td2.promise.get_future,
        (((((w.set_executor E ⟨⟨[⟨p1, td1⟩]⟩⟩).set_state td1.promise.m_state
          { res_void := false, m_task_executor_base := some E }).set_executor E
            ⟨⟨[⟨p1, td1⟩, ⟨p2, td2⟩]⟩⟩).set_state td2.promise.m_state
              { res_void := td2.res_void, m_task_executor_base := some E }).set_executor E
                ⟨⟨[⟨p2, td2⟩]⟩⟩).set_state td1.promise.m_state
                  { res_void := false, m_task_executor_base := some E,
                    m_value := some (fn1 td1.arguments), m_is_ready := true }) := by
  have hlt1 := getElem?_lt _ _ _ hs1
  have hlt2 := getElem?_lt _ _ _ hs2
  have hlte := getElem?_lt _ _ _ hE
  unfold schedule_two_then_run
  rw [schedule_eq w E _ td1 false _ p1 hE hs1]
  simp only []
  rw [enqueue_new]
  rw [schedule_eq _ E ⟨⟨[⟨p1, td1⟩]⟩⟩ td2 false { res_void := td2.res_void } p2
    (by simp [List.getElem?_set, hlte]) (by simp [List.getElem?_set, hne, hs2])]
  simp only []
  rw [enqueue_singleton_lower ⟨p1, td1⟩ ⟨p2, td2⟩ hp]
  rw [run_step_eq _ E ⟨p1, td1⟩ [⟨p2, td2⟩] (by simp [List.getElem?_set, hlte])]
  rw [execute_fn_eq _ ⟨p1, td1⟩ fn1 hf1 hv1]
  rw [set_value_pending_no_continuation _ _ _
    { res_void := false, m_task_executor_base := some E }
    (by simp [List.getElem?_set, hne, hlt1, Ne.symm hne]) rfl rfl]
  rfl

theorem schedule_two_then_run_low_first (w : World) (E : Nat) (td1 td2 : task_data)
    (fn1 : List Value → Value) (p1 p2 : Priority)
    (hp : p2 < p1) (hE : w.executors[E]? = some ⟨concurrent_priority_queue.new⟩)
    (hf1 : td1.task = Callable.fn fn1) (hv1 : td1.res_void = false)
    (hs1 : w.states[td1.promise.m_state]? = some { res_void := false })
    (hs2 : w.states[td2.promise.m_state]? = some { res_void := td2.res_void })
    (hne : td1.promise.m_state ≠ td2.promise.m_state) :
    schedule_two_then_run w E ⟨some td2, false⟩ p2 ⟨some td1, false⟩ p1 =
      some (td2.promise.get_future, td1.promise.get_future,
        (((((w.set_executor E ⟨⟨[⟨p2, td2⟩]⟩⟩).set_state td2.promise.m_state
          { res_void := td2.res_void, m_task_executor_base := some E }).set_executor E
            ⟨⟨[⟨p1, td1⟩, ⟨p2, td2⟩]⟩⟩).set_state td1.promise.m_state
              { res_void := false, m_task_executor_base := some E }).set_executor E
                ⟨⟨[⟨p2, td2⟩]⟩⟩).set_state td1.promise.m_state
                  { res_void := false, m_task_executor_base := some E,
                    m_value := some (fn1 td1.arguments), m_is_ready := true }) := by
  have hlt1 := getElem?_lt _ _ _ hs1
  have hlt2 := getElem?_lt _ _ _ hs2
  have hlte := getElem?_lt _ _ _ hE
  unfold schedule_two_then_run
  rw [schedule_eq w E _ td2 false _ p2 hE hs2]
  simp only []
  rw [enqueue_new]
  rw [schedule_eq _ E ⟨⟨[⟨p2, td2⟩]⟩⟩ td1 false { res_void := false } p1
    (by simp [List.getElem?_set, hlte]) (by simp [List.getElem?_set, Ne.symm hne, hs1])]
  simp only []
  rw [enqueue_singleton_higher ⟨p1, td1⟩ ⟨p2, td2⟩ hp]
  rw [run_step_eq _ E ⟨p1, td1⟩ [⟨p2, td2⟩] (by simp [List.getElem?_set, hlte])]
  rw [execute_fn_eq _ ⟨p1, td1⟩ fn1 hf1 hv1]
  rw [set_value_pending_no_continuation _ _ _
    { res_void := false, m_task_executor_base := some E }
    (by simp [List.getElem?_set, hne, hlt1, Ne.symm hne]) rfl rfl]
  rfl

/-- C7: two packaged tasks (data `td1` with a value-returning callable `fn1`, data `td2`),
not yet scheduled, are scheduled with priorities p1 > p2, in either order, on an executor
whose queue is empty, before the worker runs. After the first pass of the worker loop the
future of the p1 task is Ready and holds `fn1` applied to the bound arguments; the p2 task
has not run: its work item is the only one in the queue and its state is Pending. -/
theorem C7_high_priority_task_runs_first (w : World) (E : Nat) (td1 td2 : task_data)
    (fn1 : List Value → Value) (p1 p2 : Priority)
    (hp : p2 < p1) (hE : w.executors[E]? = some ⟨concurrent_priority_queue.new⟩)
    (hf1 : td1.task = Callable.fn fn1) (hv1 : td1.res_void = false)
    (hs1 : w.states[td1.promise.m_state]? = some { res_void := false })
    (hs2 : w.states[td2.promise.m_state]? = some { res_void := td2.res_void })
    (hne : td1.promise.m_state ≠ td2.promise.m_state) :
    (∃ (fut1 fut2 : TaskFuture) (w5 : World),
      schedule_two_then_run w E ⟨some td1, false⟩ p1 ⟨some td2, false⟩ p2 =
        some (fut1, fut2, w5) ∧
      TaskFuture.is_ready w5 fut1 = some true ∧
      TaskFuture.shared_get w5 fut1 = some (fn1 td1.arguments) ∧
      TaskFuture.is_ready w5 fut2 = some false ∧
      w5.states[td2.promise.m_state]? =
        some { res_void := td2.res_void, m_task_executor_base := some E } ∧
      w5.executors[E]? = some ⟨⟨[⟨p2, td2⟩]⟩⟩) ∧
    (∃ (fut1 fut2 : TaskFuture) (w5 : World),
      schedule_two_then_run w E ⟨some td2, false⟩ p2 ⟨some td1, false⟩ p1 =
        some (fut2, fut1, w5) ∧
      TaskFuture.is_ready w5 fut1 = some true ∧
      TaskFuture.shared_get w5 fut1 = some (fn1 td1.arguments) ∧
      TaskFuture.is_ready w5 fut2 = some false ∧
      w5.states[td2.promise.m_state]? =
        some { res_void := td2.res_void, m_task_executor_base := some E } ∧
      w5.executors[E]? = some ⟨⟨[⟨p2, td2⟩]⟩⟩) := by
  have hlt1 := getElem?_lt _ _ _ hs1
  have hlt2 := getElem?_lt _ _ _ hs2
  have hlte := getElem?_lt _ _ _ hE
  constructor
  · refine ⟨_, _, _, schedule_two_then_run_high_first w E td1 td2 fn1 p1 p2 hp hE hf1 hv1 hs1
      hs2 hne, ?_, ?_, ?_, ?_, ?_⟩
    · simp [TaskFuture.is_ready, TaskPromise.get_future, List.getElem?_set, hlt1,
        shared_state_base.is_ready]
    · simp [TaskFuture.shared_get, TaskPromise.get_future, List.getElem?_set, hlt1,
        shared_state.get_const_ref_value_or_void, shared_state_base.wait,
        shared_state_base.is_ready]
    · simp [TaskFuture.is_ready, TaskPromise.get_future, List.getElem?_set, hlt2, hne,
        Ne.symm hne, shared_state_base.is_ready]
    · simp [List.getElem?_set, hlt2, hne, Ne.symm hne]
    · simp [List.getElem?_set, hlte]
  · refine ⟨_, _, _, schedule_two_then_run_low_first w E td1 td2 fn1 p1 p2 hp hE hf1 hv1 hs1
      hs2 hne, ?_, ?_, ?_, ?_, ?_⟩
    · simp [TaskFuture.is_ready, TaskPromise.get_future, List.getElem?_set, hlt1,
        shared_state_base.is_ready]
    · simp [TaskFuture.shared_get, TaskPromise.get_future, List.getElem?_set, hlt1,
        shared_state.get_const_ref_value_or_void, shared_state_base.wait,
        shared_state_base.is_ready]
    · simp [TaskFuture.is_ready, TaskPromise.get_future, List.getElem?_set, hlt2, hne,
        Ne.symm hne, shared_state_base.is_ready]
    · simp [List.getElem?_set, hlt2, hne, Ne.symm hne]
    · simp [List.getElem?_set, hlte]

theorem list_set_append_left {α : Type} (l ys : List α) (i : Nat) (a : α)
    (h : i < l.length) : (l ++ ys).set i a = l.set i a ++ ys := by
  induction l generalizing i with
  | nil => cases h
  | cons x xs ih =>
    cases i with
    | zero => rfl
    | succ i =>
      simp only [List.cons_append, List.set_cons_succ]
      rw [ih i (Nat.lt_of_succ_lt_succ h)]

theorem list_set_append_right {α : Type} (l ys : List α) (k : Nat) (a : α) :
    (l ++ ys).set (l.length + k) a = l ++ ys.set k a := by
  induction l with
  | nil => simp
  | cons x xs ih =>
    have : (x :: xs).length + k = (xs.length + k) + 1 := by simp; omega
    rw [this]
    simp only [List.cons_append, List.set_cons_succ, ih]

theorem list_getElem?_append_right {α : Type} (l ys : List α) (k : Nat) :
    (l ++ ys)[l.length + k]? = ys[k]? := by
  rw [List.getElem?_append_right (Nat.le_add_right _ _)]
  simp

theorem schedule_fn_eq (w : World) (E : Nat) (ex : Executor_base) (rv : Bool)
    (fn : List Value → Value) (p : Priority) (hex : w.executors[E]? = some ex) :
    Executor_base.schedule_fn w E rv fn p =
      some (⟨some w.states.length⟩,
        ⟨w.states ++ [{ res_void := rv, m_task_executor_base := some E }],
          w.executors.set E ⟨ex.m_queue.enqueue greater
            ⟨MEDIUM, ⟨rv, Callable.fn fn, [], ⟨w.states.length⟩⟩⟩⟩⟩) := by
  have h0 := list_set_append_right w.states [({ res_void := rv } : shared_state)] 0
    { res_void := rv, m_task_executor_base := some E }
  simp only [Nat.add_zero] at h0
  simp [Executor_base.schedule_fn, make_packaged_task, TaskPromise.new, World.alloc_state,
    Executor_base.schedule, Task_data_impl.get_data_handle, hex,
    TaskFuture.set_executor_base, TaskPromise.get_future,
    shared_state_base.set_executor_base, World.set_state, World.set_executor, h0]

theorem then_eq (w : World) (s e : Nat) (st : shared_state) (rv : Bool)
    (f : List Value → Value) (p : Priority) (c : Executable)
    (hst : w.states[s]? = some st) (he : st.m_task_executor_base = some e)
    (hc : c = ⟨p, ⟨rv, Callable.unwrap (fun v => f [v]), [Value.future ⟨some s⟩],
      ⟨w.states.length⟩⟩⟩) :
    TaskFuture.then_ w ⟨some s⟩ rv (Callable.fn f) p =
      some (⟨some w.states.length⟩,
        ⟨w.states.set s { st with m_continuation := some c } ++
            [{ res_void := rv, m_task_executor_base := some e }],
          w.executors⟩) := by
  have hlt := getElem?_lt _ _ _ hst
  have h0 := list_set_append_right
    (w.states.set s { st with m_continuation := some c })
    [({ res_void := rv } : shared_state)] 0
    { res_void := rv, m_task_executor_base := some e }
  simp only [Nat.add_zero, List.length_set] at h0
  have h1 : (w.states ++ [({ res_void := rv } : shared_state)])[s]? = some st := by
    rw [List.getElem?_append_left hlt]
    exact hst
  subst hc
  simp [TaskFuture.then_, hst, shared_state_base.executor_base, he,
    Executor_base.schedule_continuation_fn, make_task, TaskPromise.new, World.alloc_state,
    Executor_base.schedule_continuation, Task_data_impl.get_data_handle,
    shared_state_base.set_continuation, h1,
    TaskFuture.set_executor_base, TaskPromise.get_future,
    shared_state_base.set_executor_base, World.set_state, list_set_append_left _ _ _ _ hlt,
    h0]

theorem list_set_append_length {α : Type} (l ys : List α) (a : α) :
    (l ++ ys).set l.length a = l ++ ys.set 0 a :=
  list_set_append_right l ys 0 a

theorem list_getElem?_append_length {α : Type} (l ys : List α) :
    (l ++ ys)[l.length]? = ys[0]? :=
  list_getElem?_append_right l ys 0

theorem run_n_waiting (n : Nat) (w : World) (E : Nat)
    (hE : w.executors[E]? = some ⟨⟨[]⟩⟩) : Executor_base.run_n n w E = some w := by
  cases n with
  | zero => rfl
  | succ n =>
    simp [Executor_base.run_n, Executor_base.run_step, hE, concurrent_priority_queue.empty,
      concurrent_priority_queue.size]

theorem run_n_succ (n : Nat) (w w1 : World) (E : Nat)
    (h : Executor_base.run_step w E true = some (RunStep.executed w1)) :
    Executor_base.run_n (n + 1) w E = Executor_base.run_n n w1 E := by
  simp [Executor_base.run_n, h]

theorem execute_unwrap_eq (w w1 : World) (x : Executable) (f : Value → Value)
    (fut : TaskFuture) (v : Value)
    (hf : x.m_task_data_ptr.task = Callable.unwrap f)
    (ha : x.m_task_data_ptr.arguments = [Value.future fut])
    (hv : x.m_task_data_ptr.res_void = false)
    (hg : TaskFuture.get w fut = some (v, w1)) :
    Executable.execute w x =
      shared_state.set_value w1 x.m_task_data_ptr.promise.m_state (f v) := by
  simp [Executable.execute, move_apply, TaskPromise.set_value, hf, ha, hv, hg]

theorem get_eq (w : World) (s : Nat) (st : shared_state) (v : Value)
    (hst : w.states[s]? = some st) (hr : st.m_is_ready = true) (hv : st.res_void = false)
    (hval : st.m_value = some v) :
    TaskFuture.get w ⟨some s⟩ =
      some (v, w.set_state s { st with m_is_retrieved := true, m_value := some v.moved_from }) := by
  simp [TaskFuture.get, shared_state.get_move_value_or_void, hst, shared_state_base.wait,
    shared_state_base.is_ready, hr, hv, hval]

theorem chain_build (w : World) (E : Nat) (t f1 f2 : List Value → Value)
    (p0 p1 p2 : Priority) (hE : w.executors[E]? = some ⟨concurrent_priority_queue.new⟩)
    (i0 c1 c2 : Executable)
    (hi0 : i0 = ⟨MEDIUM, ⟨false, Callable.fn t, [], ⟨w.states.length⟩⟩⟩)
    (hc1 : c1 = ⟨p1, ⟨false, Callable.unwrap (fun v => f1 [v]),
      [Value.future ⟨some w.states.length⟩], ⟨w.states.length + 1⟩⟩⟩)
    (hc2 : c2 = ⟨p2, ⟨false, Callable.unwrap (fun v => f2 [v]),
      [Value.future ⟨some (w.states.length + 1)⟩], ⟨w.states.length + 2⟩⟩⟩) (n : Nat) :
    chain_then_run w E t f1 f2 p0 p1 p2 n =
      match Executor_base.run_n n
        ⟨w.states ++ [
            { res_void := false, m_task_executor_base := some E, m_continuation := some c1 },
            { res_void := false, m_task_executor_base := some E, m_continuation := some c2 },
            { res_void := false, m_task_executor_base := some E }],
          w.executors.set E ⟨⟨[i0]⟩⟩⟩ E with
      | none => none
      | some w1 => some (⟨some (w.states.length + 2)⟩, w1) := by
  unfold chain_then_run
  rw [schedule_fn_eq w E _ false t p0 hE]
  simp only []
  rw [then_eq _ w.states.length E { res_void := false, m_task_executor_base := some E } false
    f1 p1 c1 (by simp) rfl (by simp [hc1])]
  simp only [List.length_append, List.length_cons, List.length_nil, list_set_append_length,
    List.set_cons_zero, List.append_assoc, List.singleton_append, Nat.zero_add]
  rw [then_eq _ (w.states.length + 1) E { res_void := false, m_task_executor_base := some E }
    false f2 p2 c2 (by rw [list_getElem?_append_right]; rfl) rfl (by simp [hc2])]
  simp only [List.length_append, List.length_cons, List.length_nil, list_set_append_right,
    List.set_cons_zero, List.set_cons_succ, List.append_assoc, List.cons_append,
    List.nil_append, Nat.zero_add, enqueue_new, hi0]

theorem enqueue_nil (x : Executable) :
    concurrent_priority_queue.enqueue greater ⟨[]⟩ x = ⟨[x]⟩ :=
  enqueue_new x

theorem chain_pass1 (l : List shared_state) (xs : List Executor_base) (E : Nat)
    (t : List Value → Value) (c1 : Executable) (A1 A2 : shared_state) (hE : E < xs.length) :
    Executor_base.run_step
      ⟨l ++ [{ res_void := false, m_task_executor_base := some E, m_continuation := some c1 },
          A1, A2],
        xs.set E ⟨⟨[⟨MEDIUM, ⟨false, Callable.fn t, [], ⟨l.length⟩⟩⟩]⟩⟩⟩ E true =
      some (RunStep.executed
        ⟨l ++ [{ res_void := false, m_task_executor_base := some E, m_value := some (t []),
                 m_is_ready := true }, A1, A2],
          xs.set E ⟨⟨[c1]⟩⟩⟩) := by
  rw [run_step_eq _ E ⟨MEDIUM, ⟨false, Callable.fn t, [], ⟨l.length⟩⟩⟩ []
    (by simp [List.getElem?_set, hE])]
  rw [execute_fn_eq _ _ t rfl rfl]
  rw [set_value_pending_continuation _ _ _
    { res_void := false, m_task_executor_base := some E, m_continuation := some c1 } c1 E
    ⟨⟨[]⟩⟩ (by rw [World.set_executor_states, list_getElem?_append_length]; rfl) rfl rfl rfl
    (by simp [List.getElem?_set, hE])]
  simp [World.set_state, World.set_executor, list_set_append_length, enqueue_nil]

theorem chain_pass2 (l : List shared_state) (xs : List Executor_base) (E : Nat)
    (f : Value → Value) (v : Value) (p : Priority) (c2 : Executable) (A2 : shared_state)
    (hE : E < xs.length) :
    Executor_base.run_step
      ⟨l ++ [{ res_void := false, m_task_executor_base := some E, m_value := some v,
               m_is_ready := true },
             { res_void := false, m_task_executor_base := some E, m_continuation := some c2 },
             A2],
        xs.set E ⟨⟨[⟨p, ⟨false, Callable.unwrap f, [Value.future ⟨some l.length⟩],
          ⟨l.length + 1⟩⟩⟩]⟩⟩⟩ E true =
      some (RunStep.executed
        ⟨l ++ [{ res_void := false, m_task_executor_base := some E,
                 m_value := some v.moved_from, m_is_ready := true, m_is_retrieved := true },
               { res_void := false, m_task_executor_base := some E, m_value := some (f v),
                 m_is_ready := true },
               A2],
          xs.set E ⟨⟨[c2]⟩⟩⟩) := by
  rw [run_step_eq _ E ⟨p, ⟨false, Callable.unwrap f, [Value.future ⟨some l.length⟩],
    ⟨l.length + 1⟩⟩⟩ [] (by simp [List.getElem?_set, hE])]
  have hget := get_eq
    ((⟨l ++ [{ res_void := false, m_task_executor_base := some E, m_value := some v,
               m_is_ready := true },
             { res_void := false, m_task_executor_base := some E, m_continuation := some c2 },
             A2],
        xs.set E ⟨⟨[⟨p, ⟨false, Callable.unwrap f, [Value.future ⟨some l.length⟩],
          ⟨l.length + 1⟩⟩⟩]⟩⟩⟩ : World).set_executor E ⟨⟨[]⟩⟩)
    l.length
    { res_void := false, m_task_executor_base := some E, m_value := some v, m_is_ready := true }
    v (by rw [World.set_executor_states, list_getElem?_append_length]; rfl) rfl rfl rfl
  rw [execute_unwrap_eq _ _ _ f ⟨some l.length⟩ v rfl rfl rfl hget]
  rw [set_value_pending_continuation _ _ _
    { res_void := false, m_task_executor_base := some E, m_continuation := some c2 } c2 E
    ⟨⟨[]⟩⟩
    (by
      rw [World.set_state_states, World.set_executor_states, list_set_append_length,
        list_getElem?_append_right]
      rfl)
    rfl rfl rfl (by simp [List.getElem?_set, hE])]
  simp [World.set_state, World.set_executor, list_set_append_length, list_set_append_right,
    enqueue_nil]

theorem chain_pass3 (l : List shared_state) (xs : List Executor_base) (E : Nat)
    (f : Value → Value) (v : Value) (p : Priority) (A0 : shared_state)
    (hE : E < xs.length) :
    Executor_base.run_step
      ⟨l ++ [A0,
             { res_void := false, m_task_executor_base := some E, m_value := some v,
               m_is_ready := true },
             { res_void := false, m_task_executor_base := some E }],
        xs.set E ⟨⟨[⟨p, ⟨false, Callable.unwrap f, [Value.future ⟨some (l.length + 1)⟩],
          ⟨l.length + 2⟩⟩⟩]⟩⟩⟩ E true =
      some (RunStep.executed
        ⟨l ++ [A0,
               { res_void := false, m_task_executor_base := some E,
                 m_value := some v.moved_from, m_is_ready := true, m_is_retrieved := true },
               { res_void := false, m_task_executor_base := some E, m_value := some (f v),
                 m_is_ready := true }],
          xs.set E ⟨⟨[]⟩⟩⟩) := by
  rw [run_step_eq _ E ⟨p, ⟨false, Callable.unwrap f, [Value.future ⟨some (l.length + 1)⟩],
    ⟨l.length + 2⟩⟩⟩ [] (by simp [List.getElem?_set, hE])]
  have hget := get_eq
    ((⟨l ++ [A0,
             { res_void := false, m_task_executor_base := some E, m_value := some v,
               m_is_ready := true },
             { res_void := false, m_task_executor_base := some E }],
        xs.set E ⟨⟨[⟨p, ⟨false, Callable.unwrap f, [Value.future ⟨some (l.length + 1)⟩],
          ⟨l.length + 2⟩⟩⟩]⟩⟩⟩ : World).set_executor E ⟨⟨[]⟩⟩)
    (l.length + 1)
    { res_void := false, m_task_executor_base := some E, m_value := some v, m_is_ready := true }
    v (by rw [World.set_executor_states, list_getElem?_append_right]; rfl) rfl rfl rfl
  rw [execute_unwrap_eq _ _ _ f ⟨some (l.length + 1)⟩ v rfl rfl rfl hget]
  rw [set_value_pending_no_continuation _ _ _
    { res_void := false, m_task_executor_base := some E }
    (by
      rw [World.set_state_states, World.set_executor_states, list_set_append_right,
        list_getElem?_append_right]
      rfl)
    rfl rfl]
  simp [World.set_state, World.set_executor, list_set_append_right]

/-- C8: for a zero-argument task `t` and value-taking callables `f1`, `f2`, when
`fut = schedule(t).then(f1).then(f2)` is built on an executor whose queue is empty before
the worker runs, the worker loop, run until the queue is empty (any number of passes from
three on), returns, leaves the queue empty and leaves `fut` Ready with value
`f2(f1(t()))`. -/
theorem C8_then_chain_result (w : World) (E : Nat) (t f1 f2 : List Value → Value)
    (p0 p1 p2 : Priority) (k : Nat)
    (hE : w.executors[E]? = some ⟨concurrent_priority_queue.new⟩) :
    ∃ (fut : TaskFuture) (w1 : World),
      chain_then_run w E t f1 f2 p0 p1 p2 (k + 3) = some (fut, w1) ∧
      TaskFuture.is_ready w1 fut = some true ∧
      TaskFuture.shared_get w1 fut = some (f2 [f1 [t []]]) ∧
      w1.queue E = some [] := by
  have hlte := getElem?_lt _ _ _ hE
  have hlen : E < (w.executors.set E ⟨⟨[]⟩⟩).length := by simpa using hlte
  have hs : ∀ ex1 ex2 : Executor_base,
      (w.executors.set E ex1).set E ex2 = w.executors.set E ex2 := by
    intro ex1 ex2
    simp
  rw [chain_build w E t f1 f2 p0 p1 p2 hE _ _ _ rfl rfl rfl (k + 3)]
  rw [run_n_succ _ _ _ _ (chain_pass1 w.states w.executors E t _ _ _ hlte)]
  rw [run_n_succ _ _ _ _
    (chain_pass2 w.states w.executors E (fun v => f1 [v]) (t []) p1 _ _ hlte)]
  rw [run_n_succ _ _ _ _
    (chain_pass3 w.states w.executors E (fun v => f2 [v]) (f1 [t []]) p2 _ hlte)]
  rw [run_n_waiting k _ E (by simp [List.getElem?_set, hlte])]
  refine ⟨_, _, rfl, ?_, ?_, ?_⟩
  · simp only [TaskFuture.is_ready]
    rw [list_getElem?_append_right]
    rfl
  · simp only [TaskFuture.shared_get, shared_state.get_const_ref_value_or_void]
    rw [list_getElem?_append_right]
    rfl
  · simp [World.queue, List.getElem?_set, hlte]

/-! ### The invariant of the runs -/

theorem ext_refl (w : World) : Ext w w := by
  constructor
  · intro t h
    exact h
  · intro t st1 c h1 h2
    exact Or.inl ⟨st1, h1, h2⟩
  · intro E ex1 x h1 h2
    exact Or.inl ⟨E, ex1, h1, h2⟩

theorem ext_alloc_state (w : World) (st0 : shared_state) (h0 : st0.m_continuation = none) :
    Ext w (w.alloc_state st0).2 := by
  constructor
  · intro t h
    unfold World.is_ready at h ⊢
    cases hst : w.states[t]? with
    | none => simp [hst] at h
    | some st =>
      have hlt := getElem?_lt _ _ _ hst
      simp only [World.alloc_state, List.getElem?_append_left hlt, hst]
      simpa [hst] using h
  · intro t st1 c h1 h2
    left
    simp only [World.alloc_state] at h1
    by_cases hlt : t < w.states.length
    · rw [List.getElem?_append_left hlt] at h1
      exact ⟨st1, h1, h2⟩
    · rw [List.getElem?_append_right (Nat.le_of_not_lt hlt)] at h1
      have : st1 = st0 := by
        cases hk : t - w.states.length with
        | zero =>
          rw [hk] at h1
          exact (Option.some.inj h1).symm
        | succ k =>
          rw [hk] at h1
          cases h1
      rw [this, h0] at h2
      cases h2
  · intro E ex1 x h1 h2
    exact Or.inl ⟨E, ex1, h1, h2⟩

theorem set_ready_no_continuation (w : World) (s : Nat) (st : shared_state)
    (hst : w.states[s]? = some st) (hc : st.m_continuation = none) :
    shared_state_base.set_ready w s = some (w.set_state s { st with m_is_ready := true }) := by
  simp [shared_state_base.set_ready, hst, hc]

theorem set_ready_continuation (w : World) (s : Nat) (st : shared_state) (c : Executable)
    (e : Nat) (ex : Executor_base) (hst : w.states[s]? = some st)
    (hc : st.m_continuation = some c) (he : st.m_task_executor_base = some e)
    (hex : w.executors[e]? = some ex) :
    shared_state_base.set_ready w s =
      some ((w.set_state s { st with m_is_ready := true, m_continuation := none }).set_executor
        e ⟨ex.m_queue.enqueue greater c⟩) := by
  simp [shared_state_base.set_ready, hst, hc, he, Executor_base.m_schedule_continuation, hex]

theorem set_ready_null_executor (w : World) (s : Nat) (st : shared_state) (c : Executable)
    (hst : w.states[s]? = some st) (hc : st.m_continuation = some c)
    (he : ∀ e : Nat, st.m_task_executor_base = some e → w.executors[e]? = none) :
    shared_state_base.set_ready w s = none := by
  cases hb : st.m_task_executor_base with
  | none => simp [shared_state_base.set_ready, hst, hc, hb]
  | some e =>
    simp [shared_state_base.set_ready, hst, hc, hb, Executor_base.m_schedule_continuation,
      he e hb]

theorem set_ready_cases (w w1 : World) (s : Nat)
    (h : shared_state_base.set_ready w s = some w1) :
    ∃ st : shared_state, w.states[s]? = some st ∧
      ((st.m_continuation = none ∧ w1 = w.set_state s { st with m_is_ready := true }) ∨
        (∃ (c : Executable) (e : Nat) (ex : Executor_base), st.m_continuation = some c ∧
          st.m_task_executor_base = some e ∧ w.executors[e]? = some ex ∧
          w1 = (w.set_state s { st with m_is_ready := true, m_continuation := none }).set_executor
            e ⟨ex.m_queue.enqueue greater c⟩)) := by
  rcases Option.eq_none_or_eq_some w.states[s]? with hst | ⟨st, hst⟩
  · simp [shared_state_base.set_ready, hst] at h
  · refine ⟨st, hst, ?_⟩
    rcases Option.eq_none_or_eq_some st.m_continuation with hc | ⟨c, hc⟩
    · left
      rw [set_ready_no_continuation w s st hst hc] at h
      exact ⟨hc, (Option.some.inj h).symm⟩
    · right
      rcases Option.eq_none_or_eq_some st.m_task_executor_base with he | ⟨e, he⟩
      · rw [set_ready_null_executor w s st c hst hc (by simp [he])] at h
        cases h
      · rcases Option.eq_none_or_eq_some w.executors[e]? with hex | ⟨ex, hex⟩
        · rw [set_ready_null_executor w s st c hst hc
            (by intro e1 h1; rw [he] at h1; cases h1; exact hex)] at h
          cases h
        · rw [set_ready_continuation w s st c e ex hst hc he hex] at h
          exact ⟨c, e, ex, hc, he, hex, (Option.some.inj h).symm⟩

theorem set_value_of_pending (w : World) (s : Nat) (v : Value) (st : shared_state)
    (hst : w.states[s]? = some st) (hp : st.m_is_ready = false) :
    shared_state.set_value w s v =
      shared_state_base.set_ready (w.set_state s { st with m_value := some v }) s := by
  simp [shared_state.set_value, hst, hp]

theorem set_executor_base_spec (w w1 : World) (f : TaskFuture) (e : Option Nat)
    (h : TaskFuture.set_executor_base w f e = some w1) :
    w1.executors = w.executors ∧
    ∀ (s : Nat) (st : shared_state), w.states[s]? = some st →
      ∃ st1 : shared_state, w1.states[s]? = some st1 ∧
        st1.m_continuation = st.m_continuation := by
  unfold TaskFuture.set_executor_base at h
  cases hf : f.m_state_ptr with
  | none => simp [hf] at h
  | some t =>
    simp only [hf, shared_state_base.set_executor_base] at h
    rcases Option.eq_none_or_eq_some w.states[t]? with hst | ⟨st0, hst⟩
    · simp [hst] at h
    · simp only [hst] at h
      cases h
      refine ⟨rfl, ?_⟩
      intro s st hs
      have hlt := getElem?_lt _ _ _ hst
      by_cases hts : t = s
      · subst hts
        rw [hst] at hs
        cases hs
        exact ⟨{ st0 with m_task_executor_base := e }, by simp [List.getElem?_set, hlt], rfl⟩
      · exact ⟨st, by simp [List.getElem?_set, hts, hs], rfl⟩

theorem set_continuation_spec (w w1 : World) (s : Nat) (c : Executable)
    (h : shared_state_base.set_continuation w s (some c) = some w1) :
    w1.executors = w.executors ∧
    ∃ st1 : shared_state, w1.states[s]? = some st1 ∧ st1.m_continuation = some c := by
  rcases Option.eq_none_or_eq_some w.states[s]? with hst | ⟨st, hst⟩
  · simp [shared_state_base.set_continuation, hst] at h
  · simp only [shared_state_base.set_continuation, hst] at h
    cases h
    have hlt := getElem?_lt _ _ _ hst
    exact ⟨rfl, { st with m_continuation := some c }, by simp [List.getElem?_set, hlt], rfl⟩

theorem schedule_continuation_spec (w : World) (E : Nat) (task : TaskFuture)
    (continuation : Task_data_impl) (p : Priority)
    (r : TaskFuture × Task_data_impl × World)
    (h : Executor_base.schedule_continuation w E task continuation p = some r) :
    r.2.2.executors = w.executors ∧
    ∃ (s : Nat) (td : task_data) (st1 : shared_state), task.m_state_ptr = some s ∧
      continuation.m_task_data_ptr = some td ∧ r.2.2.states[s]? = some st1 ∧
      st1.m_continuation =
        some ⟨p, { td with arguments := td.arguments.set 0 (Value.future task) }⟩ := by
  simp only [Executor_base.schedule_continuation, Task_data_impl.get_data_handle] at h
  cases hd : continuation.m_task_data_ptr with
  | none => simp [hd] at h
  | some td =>
    simp only [hd] at h
    cases hf : task.m_state_ptr with
    | none => simp [hf] at h
    | some s =>
      simp only [hf] at h
      split at h
      · cases h
      · rename_i w1 hw1
        split at h
        · cases h
        · rename_i w2 hw2
          cases h
          obtain ⟨hex1, st0, h0, hc0⟩ := set_continuation_spec _ _ _ _ hw1
          obtain ⟨hex, hstates⟩ := set_executor_base_spec _ _ _ _ hw2
          obtain ⟨st1, h1, h2⟩ := hstates s st0 h0
          exact ⟨hex.trans hex1, s, td, st1, rfl, rfl, h1, h2.trans hc0⟩

theorem then_spec (w : World) (task : TaskFuture) (rv : Bool) (fn : Callable) (p : Priority)
    (r : TaskFuture × World) (h : TaskFuture.then_ w task rv fn p = some r) :
    r.2.executors = w.executors ∧
    ∃ (s : Nat) (st1 : shared_state) (c : Executable), task.m_state_ptr = some s ∧
      r.2.states[s]? = some st1 ∧ st1.m_continuation = some c ∧ c.trigger = some s ∧
      c.m_priority = p := by
  unfold TaskFuture.then_ at h
  split at h
  · cases h
  · rename_i s hs
    split at h
    · cases h
    · split at h
      · cases h
      · simp only [Executor_base.schedule_continuation_fn, make_task] at h
        split at h
        · cases h
        · rename_i r1 hr1
          cases h
          obtain ⟨hex, s1, td, st1, h1, h2, h3, h4⟩ := schedule_continuation_spec _ _ _ _ _ _ hr1
          rw [hs] at h1
          cases h1
          cases h2
          refine ⟨hex, s, st1, _, hs, h3, h4, ?_, rfl⟩
          cases fn <;> simp [Executable.trigger, hs]

theorem reachable_run_ops (ops : List Op) :
    ∀ w w1 : World, Reachable w → run_ops w ops = some w1 → Reachable w1 := by
  induction ops with
  | nil =>
    intro w w1 hw h
    simp only [run_ops] at h
    cases h
    exact hw
  | cons op ops ih =>
    intro w w1 hw h
    simp only [run_ops] at h
    split at h
    · cases h
    · rename_i w2 hw2
      exact ih w2 w1 (Reachable.step w w2 op hw hw2) h

/-! ### Instances -/

/-- Instance of C1: the queue after enqueuing a LOW and a HIGH item is reachable; dequeue returns the HIGH item and leaves the LOW one. -/
theorem C1_witness :
    QueueReachable two_item_queue ∧
    two_item_queue.dequeue = some (high_item, ⟨[low_item]⟩) ∧
    low_item.m_priority ≤ high_item.m_priority :=
  ⟨QueueReachable.enqueue _ _ (QueueReachable.enqueue _ _ QueueReachable.init), rfl,
    (C1_dequeue_highest_priority_first two_item_queue
      (QueueReachable.enqueue _ _ (QueueReachable.enqueue _ _ QueueReachable.init))).1
      high_item ⟨[low_item]⟩ rfl low_item (List.mem_singleton.2 rfl)⟩

/-- Instance of C2: the queue after enqueuing a LOW and a HIGH item is reachable and holds the HIGH item in front of the LOW one. -/
theorem C2_witness :
    QueueReachable two_item_queue ∧ two_item_queue.m_queue = [high_item, low_item] :=
  ⟨QueueReachable.enqueue _ _ (QueueReachable.enqueue _ _ QueueReachable.init),
    (C2_fifo_among_equal_priorities two_item_queue
      (QueueReachable.enqueue _ _ (QueueReachable.enqueue _ _ QueueReachable.init))
      low_item).2.1 high_item ⟨[low_item]⟩ rfl⟩

/-- Instance of C3: on a fresh state, `set_value(5)` makes the state Ready with value 5 and a following `set_value(7)` leaves that world as it is. -/
theorem C3_witness :
    TaskPromise.set_value two_task_world ⟨0⟩ (Value.int 5) =
      some (two_task_world.set_state 0
        { res_void := false, m_value := some (Value.int 5), m_is_ready := true }) ∧
    TaskPromise.set_value (two_task_world.set_state 0
        { res_void := false, m_value := some (Value.int 5), m_is_ready := true }) ⟨0⟩
        (Value.int 7) =
      some (two_task_world.set_state 0
        { res_void := false, m_value := some (Value.int 5), m_is_ready := true }) :=
  ⟨rfl, (C3_second_set_value_is_noop two_task_world _ ⟨0⟩ (Value.int 5) (Value.int 7) rfl).1⟩

/-- Instance of C4: `set_value` on the Pending state 0 with an attached continuation puts the continuation into the queue of executor 0, behind the HIGH item. -/
theorem C4_witness :
    attached_world.states[0]? =
      some ⟨false, false, some hello_continuation, some 0, none, false⟩ ∧
    ∃ w1 : World, TaskPromise.set_value attached_world ⟨0⟩ (Value.str "hello") = some w1 ∧
      w1.executors[0]? = some ⟨⟨[high_item, hello_continuation]⟩⟩ := by
  refine ⟨rfl, ?_⟩
  obtain ⟨w1, h1, _, h3, _⟩ :=
    (C4_set_value_on_pending attached_world ⟨0⟩ (Value.str "hello") _ rfl rfl).2
      hello_continuation 0 ⟨⟨[high_item]⟩⟩ rfl rfl rfl
  exact ⟨w1, h1, h3⟩

/-- Instance of C5: scheduling the task computing `2 + 3` at HIGH on an executor with an empty queue. -/
theorem C5_witness :
    two_task_world.executors[0]? = some ⟨concurrent_priority_queue.new⟩ ∧
    two_task_world.states[0]? = some { res_void := false } ∧
    ∃ (future : TaskFuture) (task1 : Task_data_impl) (w1 : World),
      Executor_base.schedule two_task_world 0 ⟨some sum_task, false⟩ HIGH =
        some (future, task1, w1) ∧
      w1.executors[0]? = some ⟨⟨[high_item]⟩⟩ ∧ future.m_state_ptr = some 0 ∧
      task1.m_task_data_ptr = none ∧ task1.m_task_data_moved = true := by
  refine ⟨rfl, rfl, ?_⟩
  obtain ⟨future, task1, w1, h1, h2, _, _, _, h6, _, h8, h9, _⟩ :=
    C5_schedule_packaged_task two_task_world 0 ⟨concurrent_priority_queue.new⟩ sum_task false
      { res_void := false } HIGH rfl rfl
  exact ⟨future, task1, w1, h1, h2, h6, h8, h9⟩

/-- Instance of C7: the greeting at LOW is scheduled first, `2 + 3` at HIGH second; after one worker pass the HIGH future holds 5 and the LOW future is Pending. -/
theorem C7_witness :
    LOW < HIGH ∧ two_task_world.executors[0]? = some ⟨concurrent_priority_queue.new⟩ ∧
    ∃ (fut1 fut2 : TaskFuture) (w5 : World),
      schedule_two_then_run two_task_world 0 ⟨some greet_task, false⟩ LOW
        ⟨some sum_task, false⟩ HIGH = some (fut2, fut1, w5) ∧
      TaskFuture.is_ready w5 fut1 = some true ∧
      TaskFuture.shared_get w5 fut1 = some (Value.int 5) ∧
      TaskFuture.is_ready w5 fut2 = some false := by
  refine ⟨by decide, rfl, ?_⟩
  obtain ⟨fut1, fut2, w5, h1, h2, h3, h4, _⟩ :=
    (C7_high_priority_task_runs_first two_task_world 0 sum_task greet_task add_ints HIGH LOW
      (by decide) rfl rfl rfl rfl rfl (by decide)).2
  exact ⟨fut1, fut2, w5, h1, h2, h3, h4⟩

/-- Instance of C8: the task returns hello, the first continuation appends world, the second takes the length; the final future holds 11. -/
theorem C8_witness :
    World.init.new_executor.2.executors[0]? = some ⟨concurrent_priority_queue.new⟩ ∧
    ∃ (fut : TaskFuture) (w1 : World),
      chain_then_run World.init.new_executor.2 0 say_hello append_world string_length
        MEDIUM MEDIUM MEDIUM 3 = some (fut, w1) ∧
      TaskFuture.is_ready w1 fut = some true ∧
      TaskFuture.shared_get w1 fut = some (Value.int 11) := by
  refine ⟨rfl, ?_⟩
  obtain ⟨fut, w1, h1, h2, h3, _⟩ :=
    C8_then_chain_result World.init.new_executor.2 0 say_hello append_world string_length
      MEDIUM MEDIUM MEDIUM 0 rfl
  exact ⟨fut, w1, h1, h2, h3⟩

/-- C6: `schedule(fn, HIGH)` on a fresh executor enqueues a work item of priority MEDIUM,
not HIGH: the priority argument is not passed on. -/
theorem C6_schedule_fn_drops_priority :
    ((Executor_base.schedule_fn World.init.new_executor.2 0 false say_hello HIGH).bind
      (fun r => r.2.queue 0)).map (List.map Executable.m_priority) = some [MEDIUM] ∧
    MEDIUM ≠ HIGH :=
  ⟨rfl, by decide⟩

/-- C10: after a void task has run and a continuation has been attached to its Ready state,
state 0 is void, Ready, its slot is occupied and the queue is empty; `set_value()` on the
promise of that state then empties the slot and puts the continuation into the queue. -/
theorem C10_void_set_value_on_ready_enqueues :
    (run_ops World.init void_ops).bind observe = some (true, true, true, []) ∧
    ((run_ops World.init void_ops).bind (fun w => TaskPromise.set_value_void w ⟨0⟩)).bind
      observe = some (true, true, false, [LOW]) :=
  ⟨rfl, rfl⟩

/-! ### Shared and exclusive reads -/

/-- C12: on a Ready value-carrying state holding `v`, `share()` gives a shared future over
the same state and leaves the exclusive handle null; `get()` on the shared future, and on
every copy of it, returns `v` (as does `get_copy()`), and it takes and returns no state, so
that the state, with its retrieved flag, is as before and every later `get()` returns `v`
again. The exclusive `get()` returns `v` too, but sets the retrieved flag and leaves the
storage moved-from, so that a shared read after it returns the moved-from value. -/
theorem C12_shared_get_keeps_value (w : World) (s : Nat) (st : shared_state) (v : Value)
    (hst : w.states[s]? = some st) (hr : st.m_is_ready = true) (hv : st.res_void = false)
    (hval : st.m_value = some v) :
    (TaskFuture.share ⟨some s⟩).1.m_state_ptr = some s ∧
    (TaskFuture.share ⟨some s⟩).2.m_state_ptr = none ∧
    TaskFuture.shared_get w (TaskFuture.share ⟨some s⟩).1 = some v ∧
    TaskFuture.shared_get w (SharedTaskFuture.copy (TaskFuture.share ⟨some s⟩).1) = some v ∧
    SharedTaskFuture.get_copy w (TaskFuture.share ⟨some s⟩).1 = some v ∧
    (∀ n : Nat, (List.replicate n (TaskFuture.share ⟨some s⟩).1).map (TaskFuture.shared_get w) =
      List.replicate n (some v)) ∧
    (∃ w1 : World, TaskFuture.get w ⟨some s⟩ = some (v, w1) ∧
      w1.states[s]? = some { st with m_is_retrieved := true, m_value := some v.moved_from } ∧
      (∀ st1 : shared_state, w1.states[s]? = some st1 →
        shared_state.already_retrieved st1 = true) ∧
      TaskFuture.shared_get w1 (TaskFuture.share ⟨some s⟩).1 = some v.moved_from ∧
      w1.executors = w.executors ∧
      (∀ t : Nat, t ≠ s → w1.states[t]? = w.states[t]?)) := by
  have hlt := getElem?_lt _ _ _ hst
  have hsg : TaskFuture.shared_get w (TaskFuture.share ⟨some s⟩).1 = some v := by
    simp [TaskFuture.shared_get, TaskFuture.share, shared_state.get_const_ref_value_or_void,
      hst, shared_state_base.wait, shared_state_base.is_ready, hr, hv, hval]
  refine ⟨rfl, rfl, hsg, hsg, ?_, ?_, ?_⟩
  · simp [SharedTaskFuture.get_copy, TaskFuture.share, shared_state.get_copy_value, hst,
      shared_state_base.wait, shared_state_base.is_ready, hr, hval]
  · intro n
    simp [hsg]
  · refine ⟨_, get_eq w s st v hst hr hv hval, ?_, ?_, ?_, rfl, ?_⟩
    · simp [List.getElem?_set, hlt]
    · intro st1 h1
      simp [List.getElem?_set, hlt] at h1
      rw [← h1]
      rfl
    · simp [TaskFuture.shared_get, TaskFuture.share, shared_state.get_const_ref_value_or_void,
        List.getElem?_set, hlt, shared_state_base.wait, shared_state_base.is_ready, hr, hv]
    · intro t ht
      simp [List.getElem?_set, Ne.symm ht]

/-! ### The worker loop -/

theorem qs_of_executors_eq (w w1 : World) (h : w1.executors = w.executors)
    (hq : QueuesSorted w) : QueuesSorted w1 := by
  intro E ex hex
  rw [h] at hex
  exact hq E ex hex

theorem qs_set_executor (w : World) (E : Nat) (ex1 : Executor_base) (hq : QueuesSorted w)
    (hs : ex1.m_queue.m_queue.Pairwise (fun a b => b.m_priority ≤ a.m_priority)) :
    QueuesSorted (w.set_executor E ex1) := by
  intro E1 ex hex
  simp only [World.set_executor_executors, List.getElem?_set] at hex
  by_cases hE : E = E1
  · simp only [hE, if_true] at hex
    split at hex
    · cases hex
      exact hs
    · cases hex
  · simp only [hE, if_false] at hex
    exact hq E1 ex hex

theorem qs_new_executor (w : World) (hq : QueuesSorted w) : QueuesSorted w.new_executor.2 := by
  intro E ex hex
  simp only [World.new_executor] at hex
  by_cases hlt : E < w.executors.length
  · rw [List.getElem?_append_left hlt] at hex
    exact hq E ex hex
  · rw [List.getElem?_append_right (Nat.le_of_not_lt hlt)] at hex
    cases hk : E - w.executors.length with
    | zero =>
      rw [hk] at hex
      have := Option.some.inj hex
      rw [← this]
      exact List.Pairwise.nil
    | succ k =>
      rw [hk] at hex
      cases hex

theorem qs_set_ready (w w1 : World) (s : Nat) (hq : QueuesSorted w)
    (h : shared_state_base.set_ready w s = some w1) : QueuesSorted w1 := by
  obtain ⟨st, hst, hcase⟩ := set_ready_cases w w1 s h
  rcases hcase with ⟨_, hw⟩ | ⟨c, e, ex, _, _, _, hw⟩
  · rw [hw]
    exact qs_of_executors_eq w _ rfl hq
  · rw [hw]
    exact qs_set_executor _ e _ (qs_of_executors_eq w _ rfl hq) (enqueue_spec ex.m_queue c).1

theorem qs_set_value (w w1 : World) (s : Nat) (v : Value) (hq : QueuesSorted w)
    (h : shared_state.set_value w s v = some w1) : QueuesSorted w1 := by
  rcases Option.eq_none_or_eq_some w.states[s]? with hst | ⟨st, hst⟩
  · simp [shared_state.set_value, hst] at h
  · by_cases hr : st.m_is_ready = true
    · rw [set_value_of_ready w s v st hst hr] at h
      cases h
      exact hq
    · rw [set_value_of_pending w s v st hst (by simpa using hr)] at h
      refine qs_set_ready _ _ s ?_ h
      exact qs_of_executors_eq w _ rfl hq

theorem get_executors (w w1 : World) (f : TaskFuture) (v : Value)
    (h : TaskFuture.get w f = some (v, w1)) : w1.executors = w.executors := by
  unfold TaskFuture.get at h
  split at h
  · cases h
  · simp only [shared_state.get_move_value_or_void] at h
    split at h
    · cases h
    · split at h
      · cases h
      · split at h
        · cases h
          rfl
        · split at h
          · cases h
          · cases h
            rfl

theorem qs_execute (w w1 : World) (x : Executable) (hq : QueuesSorted w)
    (h : Executable.execute w x = some w1) : QueuesSorted w1 := by
  unfold Executable.execute at h
  cases hm : move_apply w x.m_task_data_ptr.task x.m_task_data_ptr.arguments with
  | none => simp [hm] at h
  | some r =>
    simp only [hm] at h
    have hq2 : QueuesSorted r.2 := by
      unfold move_apply at hm
      split at hm
      · cases hm
        exact hq
      · split at hm
        · cases hm
        · rename_i r1 hg
          cases hm
          exact qs_of_executors_eq w _ (get_executors w r1.2 _ r1.1 hg) hq
      · cases hm
    by_cases hv : x.m_task_data_ptr.res_void = true
    · simp only [hv, if_true] at h
      exact qs_set_ready _ _ _ hq2 h
    · simp only [hv] at h
      exact qs_set_value _ _ _ _ hq2 h

theorem qs_schedule (w : World) (E : Nat) (task : Task_data_impl) (p : Priority)
    (r : TaskFuture × Task_data_impl × World) (hq : QueuesSorted w)
    (h : Executor_base.schedule w E task p = some r) : QueuesSorted r.2.2 := by
  simp only [Executor_base.schedule, Task_data_impl.get_data_handle] at h
  split at h
  · cases h
  · rename_i td htd
    split at h
    · cases h
    · rename_i ex hex
      split at h
      · cases h
      · rename_i w2 hw2
        cases h
        refine qs_of_executors_eq _ _ (set_executor_base_spec _ _ _ _ hw2).1 ?_
        exact qs_set_executor w E _ hq (enqueue_spec ex.m_queue ⟨p, td⟩).1

theorem qs_run_pass (w w1 : World) (E : Nat) (a1 a2 : Bool) (hq : QueuesSorted w)
    (h : Executor_base.run_pass w E a1 a2 = some (RunStep.executed w1)) : QueuesSorted w1 := by
  unfold Executor_base.run_pass at h
  split at h
  · cases h
  · rename_i ex hex
    split at h
    · cases h
    · split at h
      · cases h
      · split at h
        · cases h
        · rename_i r hd
          split at h
          · cases h
          · rename_i w2 he
            have := Option.some.inj h
            cases this
            refine qs_execute _ _ r.1 ?_ he
            apply qs_set_executor w E _ hq
            have hsorted := hq E ex hex
            rw [(dequeue_eq_some ex.m_queue r.2 r.1).1 hd] at hsorted
            exact (List.pairwise_cons.1 hsorted).2

theorem run_step_eq_run_pass (w : World) (owner : Nat) (alive : Bool) :
    Executor_base.run_step w owner alive = Executor_base.run_pass w owner alive alive := rfl

theorem qs_step (w w1 : World) (op : Op) (hq : QueuesSorted w) (h : step w op = some w1) :
    QueuesSorted w1 := by
  cases op with
  | new_executor =>
    simp only [step] at h
    cases h
    exact qs_new_executor w hq
  | new_promise rv =>
    simp only [step] at h
    cases h
    exact qs_of_executors_eq w _ rfl hq
  | set_value p v =>
    simp only [step] at h
    split at h
    · cases h
    · split at h
      · cases h
      · exact qs_set_value _ _ _ _ hq h
  | set_value_void p =>
    simp only [step] at h
    split at h
    · cases h
    · split at h
      · exact qs_set_ready _ _ _ hq h
      · cases h
  | schedule E rv fn args p =>
    simp only [step] at h
    split at h
    · cases h
    · rename_i r hr
      cases h
      refine qs_schedule _ E _ p r ?_ hr
      exact qs_of_executors_eq w _ rfl hq
  | schedule_fn E rv fn p =>
    simp only [step, Executor_base.schedule_fn] at h
    split at h
    · cases h
    · rename_i r hr
      split at hr
      · cases hr
      · rename_i r1 hr1
        cases hr
        cases h
        refine qs_schedule _ E _ MEDIUM r1 ?_ hr1
        exact qs_of_executors_eq w _ rfl hq
  | schedule_continuation E task rv fn p =>
    simp only [step, Executor_base.schedule_continuation_fn] at h
    split at h
    · cases h
    · rename_i r hr
      split at hr
      · cases hr
      · rename_i r1 hr1
        cases hr
        cases h
        exact qs_of_executors_eq w _ (schedule_continuation_spec _ _ _ _ _ _ hr1).1 hq
  | then_ task rv fn p =>
    simp only [step] at h
    split at h
    · cases h
    · rename_i r hr
      cases h
      exact qs_of_executors_eq w _ (then_spec w task rv fn p r hr).1 hq
  | get f =>
    simp only [step] at h
    split at h
    · cases h
    · rename_i r hr
      cases h
      exact qs_of_executors_eq w _ (get_executors w r.2 f r.1 hr) hq
  | run E =>
    simp only [step] at h
    split at h
    · rename_i w2 hr
      cases h
      rw [run_step_eq_run_pass] at hr
      exact qs_run_pass _ _ _ _ _ hq hr
    · cases h

theorem reachable_queues_sorted (w : World) (hw : Reachable w) : QueuesSorted w := by
  induction hw with
  | init =>
    intro E ex hex
    simp [World.init] at hex
  | step w w1 op _ hs ih => exact qs_step w w1 op ih hs

/-- C14: one pass of the worker loop on an executor. If the alive flag is false the pass
leaves the loop without touching the world, whatever the queue holds. If the flag is true
and the queue is `x :: rest`, the pass takes `x` from the front, leaving `rest`, and executes
`x` once; in a reachable world `x` has the greatest priority in the queue. Whatever the two
reads of the flag give (the flag never goes back to true), the pass waits, or leaves the
loop, or calls `dequeue` on a non-empty queue; on an empty queue it never calls it. -/
theorem C14_worker_loop_pass (w : World) (owner : Nat) (ex : Executor_base)
    (hex : w.executors[owner]? = some ex) :
    (Executor_base.run_pass w owner false false = some RunStep.exited ∧
      Executor_base.run_step w owner false = some RunStep.exited) ∧
    (∀ (x : Executable) (rest : List Executable), ex.m_queue.m_queue = x :: rest →
      ex.m_queue.dequeue = some (x, ⟨rest⟩) ∧
      Executor_base.run_pass w owner true true =
        (match Executable.execute (w.set_executor owner ⟨⟨rest⟩⟩) x with
          | none => none
          | some w1 => some (RunStep.executed w1)) ∧
      Executor_base.run_step w owner true = Executor_base.run_pass w owner true true ∧
      Executor_base.run_pass w owner true false = some RunStep.exited ∧
      (Reachable w → ∀ y ∈ rest, y.m_priority ≤ x.m_priority)) ∧
    (∀ a1 a2 : Bool, (a1 = false → a2 = false) →
      (ex.m_queue.m_queue = [] →
        Executor_base.run_pass w owner a1 a2 = some RunStep.waiting ∨
        Executor_base.run_pass w owner a1 a2 = some RunStep.exited) ∧
      (Executor_base.run_pass w owner a1 a2 = some RunStep.waiting ∨
        Executor_base.run_pass w owner a1 a2 = some RunStep.exited ∨
        ∃ (x : Executable) (rest : concurrent_priority_queue Executable),
          ex.m_queue.dequeue = some (x, rest) ∧
          Executor_base.run_pass w owner a1 a2 =
            (match Executable.execute (w.set_executor owner ⟨rest⟩) x with
              | none => none
              | some w1 => some (RunStep.executed w1)))) := by
  refine ⟨⟨?_, ?_⟩, ?_, ?_⟩
  · simp [Executor_base.run_pass, hex]
  · simp [Executor_base.run_step, hex]
  · intro x rest hq
    have hd : ex.m_queue.dequeue = some (x, ⟨rest⟩) := (dequeue_eq_some _ _ _).2 hq
    refine ⟨hd, ?_, rfl, ?_, ?_⟩
    · simp [Executor_base.run_pass, hex, concurrent_priority_queue.empty,
        concurrent_priority_queue.size, hq, hd]
    · simp [Executor_base.run_pass, hex, concurrent_priority_queue.empty,
        concurrent_priority_queue.size, hq]
    · intro hw y hy
      have hs := reachable_queues_sorted w hw owner ex hex
      rw [hq] at hs
      exact (List.pairwise_cons.1 hs).1 y hy
  · intro a1 a2 hmono
    constructor
    · intro hq
      cases a1 with
      | true =>
        left
        simp [Executor_base.run_pass, hex, concurrent_priority_queue.empty,
          concurrent_priority_queue.size, hq]
      | false =>
        right
        simp [Executor_base.run_pass, hex, hmono rfl]
    · cases hq : ex.m_queue.m_queue with
      | nil =>
        cases a1 with
        | true =>
          left
          simp [Executor_base.run_pass, hex, concurrent_priority_queue.empty,
            concurrent_priority_queue.size, hq]
        | false =>
          right
          left
          simp [Executor_base.run_pass, hex, hmono rfl]
      | cons x rest =>
        have hd : ex.m_queue.dequeue = some (x, ⟨rest⟩) := (dequeue_eq_some _ _ _).2 hq
        cases a2 with
        | false =>
          right
          left
          simp [Executor_base.run_pass, hex, concurrent_priority_queue.empty,
            concurrent_priority_queue.size, hq]
        | true =>
          right
          right
          refine ⟨x, ⟨rest⟩, hd, ?_⟩
          simp [Executor_base.run_pass, hex, concurrent_priority_queue.empty,
            concurrent_priority_queue.size, hq, hd]

/-! ### Operations on one shared state -/

theorem flatMap_set_perm {α β : Type} (f : α → List β) (c : List β) :
    ∀ (l : List α) (i : Nat) (a b : α), l[i]? = some a → (f b).Perm (c ++ f a) →
      ((l.set i b).flatMap f).Perm (c ++ l.flatMap f) := by
  intro l
  induction l with
  | nil =>
    intro i a b h
    simp at h
  | cons x xs ih =>
    intro i a b h hp
    cases i with
    | zero =>
      simp only [List.getElem?_cons_zero] at h
      cases h
      simp only [List.set_cons_zero, List.flatMap_cons]
      rw [← List.append_assoc]
      exact List.Perm.append_right _ hp
    | succ i =>
      simp only [List.getElem?_cons_succ] at h
      simp only [List.set_cons_succ, List.flatMap_cons]
      have h1 := ih i a b h hp
      refine (List.Perm.append_left (f x) h1).trans ?_
      rw [← List.append_assoc, ← List.append_assoc]
      exact List.Perm.append_right _ List.perm_append_comm

theorem ready_mono_set_state (w : World) (s : Nat) (st st1 : shared_state)
    (hst : w.states[s]? = some st) (hr : st.m_is_ready = true → st1.m_is_ready = true)
    (t : Nat) (h : w.is_ready t = true) : (w.set_state s st1).is_ready t = true := by
  have hlt := getElem?_lt _ _ _ hst
  unfold World.is_ready at h ⊢
  by_cases hts : s = t
  · subst hts
    simp only [World.set_state_states, List.getElem?_set, hlt, if_true]
    rw [hst] at h
    exact hr h
  · simp only [World.set_state_states, List.getElem?_set, hts, if_false]
    exact h

theorem slot_set_state (w : World) (s : Nat) (st st1 : shared_state)
    (hst : w.states[s]? = some st) :
    (w.set_state s st1).slot s = st1.m_continuation.toList := by
  have hlt := getElem?_lt _ _ _ hst
  simp [World.slot, List.getElem?_set, hlt]

theorem slot_eq (w : World) (s : Nat) (st : shared_state) (hst : w.states[s]? = some st) :
    w.slot s = st.m_continuation.toList := by
  simp [World.slot, hst]

/-- What one step that goes through `set_ready` does to readiness, queues and slot. -/
theorem set_ready_accounting (w w1 : World) (s : Nat)
    (h : shared_state_base.set_ready w s = some w1) :
    (∀ t : Nat, w.is_ready t = true → w1.is_ready t = true) ∧
    ∃ log : List Executable, w1.all_queued.Perm (log ++ w.all_queued) ∧
      log ++ w1.slot s = w.slot s := by
  obtain ⟨st, hst, hcase⟩ := set_ready_cases w w1 s h
  rcases hcase with ⟨hc, hw⟩ | ⟨c, e, ex, hc, he, hex, hw⟩
  · subst hw
    refine ⟨fun t ht => ready_mono_set_state w s st _ hst (fun _ => rfl) t ht, [], ?_, ?_⟩
    · exact List.Perm.refl _
    · rw [slot_set_state w s st _ hst, slot_eq w s st hst]
      rfl
  · subst hw
    refine ⟨fun t ht => ?_, [c], ?_, ?_⟩
    · exact ready_mono_set_state w s st _ hst (fun _ => rfl) t ht
    · unfold World.all_queued
      simp only [World.set_executor_executors, World.set_state_executors]
      exact flatMap_set_perm (fun ex : Executor_base => ex.m_queue.m_queue) [c] w.executors e ex
        ⟨ex.m_queue.enqueue greater c⟩ hex (enqueue_perm greater ex.m_queue c)
    · have h1 : ((w.set_state s
          { st with m_is_ready := true, m_continuation := none }).set_executor e
            ⟨ex.m_queue.enqueue greater c⟩).slot s = [] := by
        have hlt := getElem?_lt _ _ _ hst
        simp [World.slot, List.getElem?_set, hlt]
      rw [h1, slot_eq w s st hst, hc]
      rfl

theorem get_cases (w w1 : World) (s : Nat) (v : Value)
    (h : TaskFuture.get w ⟨some s⟩ = some (v, w1)) :
    w1 = w ∨ ∃ (st : shared_state) (v1 : Value), w.states[s]? = some st ∧
      w1 = w.set_state s { st with m_is_retrieved := true, m_value := some v1.moved_from } := by
  simp only [TaskFuture.get, shared_state.get_move_value_or_void] at h
  rcases Option.eq_none_or_eq_some w.states[s]? with hst | ⟨st, hst⟩
  · simp [hst] at h
  · simp only [hst] at h
    split at h
    · cases h
    · split at h
      · cases h
        exact Or.inl rfl
      · split at h
        · cases h
        · rename_i v1 hv1
          cases h
          exact Or.inr ⟨st, v, hst, rfl⟩

theorem ready_mono_set_continuation (w w1 : World) (s : Nat) (exe : Option Executable)
    (h : shared_state_base.set_continuation w s exe = some w1) (t : Nat)
    (ht : w.is_ready t = true) : w1.is_ready t = true := by
  rcases Option.eq_none_or_eq_some w.states[s]? with hst | ⟨st, hst⟩
  · simp [shared_state_base.set_continuation, hst] at h
  · simp only [shared_state_base.set_continuation, hst] at h
    cases h
    exact ready_mono_set_state w s st _ hst (by intro h0; exact h0) t ht

theorem ready_mono_set_executor_base (w w1 : World) (s : Nat) (e : Option Nat)
    (h : shared_state_base.set_executor_base w s e = some w1) (t : Nat)
    (ht : w.is_ready t = true) : w1.is_ready t = true := by
  rcases Option.eq_none_or_eq_some w.states[s]? with hst | ⟨st, hst⟩
  · simp [shared_state_base.set_executor_base, hst] at h
  · simp only [shared_state_base.set_executor_base, hst] at h
    cases h
    exact ready_mono_set_state w s st _ hst (by intro h0; exact h0) t ht

theorem ready_mono_then (w : World) (f : TaskFuture) (rv : Bool) (fn : Callable)
    (p : Priority) (r : TaskFuture × World) (h : TaskFuture.then_ w f rv fn p = some r)
    (t : Nat) (ht : w.is_ready t = true) : r.2.is_ready t = true := by
  unfold TaskFuture.then_ at h
  split at h
  · cases h
  · split at h
    · cases h
    · split at h
      · cases h
      · simp only [Executor_base.schedule_continuation_fn, make_task] at h
        split at h
        · cases h
        · rename_i r1 hr1
          cases h
          simp only [Executor_base.schedule_continuation, Task_data_impl.get_data_handle] at hr1
          split at hr1
          · cases hr1
          · split at hr1
            · cases hr1
            · rename_i w1 hw1
              split at hr1
              · cases hr1
              · rename_i w2 hw2
                cases hr1
                have h0 : (TaskPromise.new w rv).2.is_ready t = true :=
                  (ext_alloc_state w { res_void := rv } rfl).ready_mono t ht
                have h1 := ready_mono_set_continuation _ _ _ _ hw1 t h0
                unfold TaskFuture.set_executor_base at hw2
                split at hw2
                · cases hw2
                · exact ready_mono_set_executor_base _ _ _ _ hw2 t h1

theorem state_step_accounting (w w1 : World) (s : Nat) (op : StateOp)
    (h : state_step w s op = some w1) :
    (∀ t : Nat, w.is_ready t = true → w1.is_ready t = true) ∧
    ∃ log : List Executable, w1.all_queued.Perm (log ++ w.all_queued) ∧
      (log ++ w1.slot s).Sublist (w.slot s ++ attached_by w1 s op) := by
  have hsame : ∀ l : List Executable,
      (∀ t : Nat, w.is_ready t = true → w.is_ready t = true) ∧
      ∃ log : List Executable, w.all_queued.Perm (log ++ w.all_queued) ∧
        (log ++ w.slot s).Sublist (w.slot s ++ l) :=
    fun l => ⟨fun _ ht => ht, [], List.Perm.refl _, List.sublist_append_left _ _⟩
  cases op with
  | set_value v =>
    simp only [state_step] at h
    split at h
    · cases h
    · rename_i st hst
      split at h
      · cases h
      · by_cases hr : st.m_is_ready = true
        · rw [TaskPromise.set_value, set_value_of_ready w s v st hst hr] at h
          cases h
          exact hsame _
        · rw [TaskPromise.set_value, set_value_of_pending w s v st hst (by simpa using hr)] at h
          obtain ⟨hm, log, hp, hl⟩ := set_ready_accounting _ _ s h
          refine ⟨fun t ht => hm t (ready_mono_set_state w s st _ hst (by intro h0; exact h0) t ht),
            log, hp, ?_⟩
          rw [hl, slot_set_state w s st _ hst, slot_eq w s st hst]
          exact List.sublist_append_left _ _
  | set_value_void =>
    simp only [state_step] at h
    split at h
    · cases h
    · split at h
      · obtain ⟨hm, log, hp, hl⟩ := set_ready_accounting _ _ s h
        refine ⟨hm, log, hp, ?_⟩
        rw [hl]
        exact List.sublist_append_left _ _
      · cases h
  | set_continuation exe =>
    simp only [state_step] at h
    refine ⟨ready_mono_set_continuation w w1 s exe h, [], ?_, ?_⟩
    · rcases Option.eq_none_or_eq_some w.states[s]? with hst | ⟨st, hst⟩
      · simp [shared_state_base.set_continuation, hst] at h
      · simp only [shared_state_base.set_continuation, hst] at h
        cases h
        exact List.Perm.refl _
    · rcases Option.eq_none_or_eq_some w.states[s]? with hst | ⟨st, hst⟩
      · simp [shared_state_base.set_continuation, hst] at h
      · simp only [shared_state_base.set_continuation, hst] at h
        cases h
        rw [slot_set_state w s st _ hst]
        exact List.sublist_append_right _ _
  | set_executor_base e =>
    simp only [state_step] at h
    refine ⟨ready_mono_set_executor_base w w1 s e h, [], ?_, ?_⟩
    · rcases Option.eq_none_or_eq_some w.states[s]? with hst | ⟨st, hst⟩
      · simp [shared_state_base.set_executor_base, hst] at h
      · simp only [shared_state_base.set_executor_base, hst] at h
        cases h
        exact List.Perm.refl _
    · rcases Option.eq_none_or_eq_some w.states[s]? with hst | ⟨st, hst⟩
      · simp [shared_state_base.set_executor_base, hst] at h
      · simp only [shared_state_base.set_executor_base, hst] at h
        cases h
        rw [slot_set_state w s st _ hst, slot_eq w s st hst]
        exact List.sublist_append_left _ _
  | is_ready =>
    simp only [state_step] at h
    split at h
    · cases h
    · cases h
      exact hsame _
  | wait =>
    simp only [state_step] at h
    split at h
    · cases h
    · split at h
      · cases h
      · cases h
        exact hsame _
  | wait_for =>
    simp only [state_step] at h
    split at h
    · cases h
    · split at h <;> cases h <;> exact hsame _
  | wait_until =>
    simp only [state_step] at h
    split at h
    · cases h
    · split at h <;> cases h <;> exact hsame _
  | get =>
    simp only [state_step] at h
    split at h
    · cases h
    · rename_i r hr
      cases h
      rcases get_cases w r.2 s r.1 hr with hw | ⟨st, v1, hst, hw⟩
      · rw [hw]
        exact hsame _
      · rw [hw]
        refine ⟨fun t ht => ready_mono_set_state w s st _ hst (by intro h0; exact h0) t ht, [],
          List.Perm.refl _, ?_⟩
        rw [slot_set_state w s st _ hst, slot_eq w s st hst]
        exact List.sublist_append_left _ _
  | shared_get =>
    simp only [state_step] at h
    split at h
    · cases h
    · cases h
      exact hsame _
  | get_copy =>
    simp only [state_step] at h
    split at h
    · cases h
    · cases h
      exact hsame _
  | share =>
    simp only [state_step] at h
    cases h
    exact hsame _
  | then_ rv task p =>
    simp only [state_step] at h
    split at h
    · cases h
    · rename_i r hr
      cases h
      refine ⟨ready_mono_then w _ rv task p r hr, [], ?_, ?_⟩
      · unfold World.all_queued
        rw [(then_spec w _ rv task p r hr).1]
        exact List.Perm.refl _
      · exact List.sublist_append_right _ _

/-- C13: over every sequence of operations on a shared state (the two forms of
`set_value`, `set_continuation`, `set_executor_base`, the waits, the gets, `share`, `then`):
a state that is Ready before the sequence is Ready after it; and the work items that the
sequence has put into the executor queues form a list `log` whose items, followed by what
is left in the slot, are taken one for one, in order, from what the slot held at the start
and what the operations attached: each attachment is handed over at most once. -/
theorem C13_ready_terminal_single_handover (ops : List StateOp) :
    ∀ (w w1 : World) (s : Nat), run_state_ops w s ops = some w1 →
      (∀ t : Nat, w.is_ready t = true → w1.is_ready t = true) ∧
      ∃ log : List Executable, w1.all_queued.Perm (log ++ w.all_queued) ∧
        (log ++ w1.slot s).Sublist (w.slot s ++ attached_all w s ops) := by
  induction ops with
  | nil =>
    intro w w1 s h
    simp only [run_state_ops] at h
    cases h
    exact ⟨fun _ ht => ht, [], List.Perm.refl _, List.sublist_append_left _ _⟩
  | cons op ops ih =>
    intro w w1 s h
    simp only [run_state_ops] at h
    split at h
    · cases h
    · rename_i w2 hw2
      obtain ⟨hm1, log1, hp1, hl1⟩ := state_step_accounting w w2 s op hw2
      obtain ⟨hm2, log2, hp2, hl2⟩ := ih w2 w1 s h
      refine ⟨fun t ht => hm2 t (hm1 t ht), log1 ++ log2, ?_, ?_⟩
      · refine hp2.trans ?_
        refine (List.Perm.append_left log2 hp1).trans ?_
        rw [← List.append_assoc]
        exact List.Perm.append_right _ List.perm_append_comm
      · simp only [attached_all, hw2]
        have h3 : (log1 ++ (log2 ++ w1.slot s)).Sublist
            (log1 ++ (w2.slot s ++ attached_all w2 s ops)) :=
          List.Sublist.append_left hl2 log1
        have h4 : (log1 ++ w2.slot s ++ attached_all w2 s ops).Sublist
            (w.slot s ++ attached_by w2 s op ++ attached_all w2 s ops) :=
          List.Sublist.append_right hl1 _
        rw [List.append_assoc log1 log2, ← List.append_assoc (w.slot s)]
        rw [List.append_assoc log1] at h4
        exact h3.trans h4

/-! ### A continuation attached to a state that is already Ready -/

theorem items_alloc (P : Executable → Prop) (A : Nat → Executable → Prop) (w : World)
    (st0 : shared_state) (h0 : st0.m_continuation = none) (hi : Items P A w) :
    Items P A (w.alloc_state st0).2 := by
  constructor
  · intro E ex x hex hx
    exact hi.queued E ex x hex hx
  · intro t st c hst hc
    simp only [World.alloc_state] at hst
    by_cases hlt : t < w.states.length
    · rw [List.getElem?_append_left hlt] at hst
      exact hi.attached t st c hst hc
    · rw [List.getElem?_append_right (Nat.le_of_not_lt hlt)] at hst
      exfalso
      cases hk : t - w.states.length with
      | zero =>
        rw [hk] at hst
        have : st = st0 := (Option.some.inj hst).symm
        rw [this, h0] at hc
        cases hc
      | succ k =>
        rw [hk] at hst
        cases hst

theorem items_new_executor (P : Executable → Prop) (A : Nat → Executable → Prop) (w : World)
    (hi : Items P A w) : Items P A w.new_executor.2 := by
  constructor
  · intro E ex x hex hx
    simp only [World.new_executor] at hex
    by_cases hlt : E < w.executors.length
    · rw [List.getElem?_append_left hlt] at hex
      exact hi.queued E ex x hex hx
    · rw [List.getElem?_append_right (Nat.le_of_not_lt hlt)] at hex
      exfalso
      cases hk : E - w.executors.length with
      | zero =>
        rw [hk] at hex
        have := Option.some.inj hex
        rw [← this] at hx
        simp [concurrent_priority_queue.new] at hx
      | succ k =>
        rw [hk] at hex
        cases hex
  · intro t st c hst hc
    exact hi.attached t st c hst hc

theorem items_set_state (P : Executable → Prop) (A : Nat → Executable → Prop) (w : World)
    (t : Nat) (st st1 : shared_state) (hst : w.states[t]? = some st)
    (hc : ∀ c : Executable, st1.m_continuation = some c → st.m_continuation = some c ∨ A t c)
    (hi : Items P A w) : Items P A (w.set_state t st1) := by
  have hlt := getElem?_lt _ _ _ hst
  constructor
  · intro E ex x hex hx
    exact hi.queued E ex x hex hx
  · intro u st2 c h1 h2
    by_cases htu : t = u
    · subst htu
      simp only [World.set_state_states, List.getElem?_set, hlt, if_true] at h1
      have := Option.some.inj h1
      subst this
      rcases hc c h2 with h | h
      · exact hi.attached t st c hst h
      · exact h
    · simp only [World.set_state_states, List.getElem?_set, htu, if_false] at h1
      exact hi.attached u st2 c h1 h2

theorem items_set_executor (P : Executable → Prop) (A : Nat → Executable → Prop) (w : World)
    (E : Nat) (ex ex1 : Executor_base) (hex : w.executors[E]? = some ex)
    (hq : ∀ x ∈ ex1.m_queue.m_queue, x ∈ ex.m_queue.m_queue ∨ P x)
    (hi : Items P A w) : Items P A (w.set_executor E ex1) := by
  have hlt := getElem?_lt _ _ _ hex
  constructor
  · intro E1 ex2 x h1 h2
    by_cases hE : E = E1
    · subst hE
      simp only [World.set_executor_executors, List.getElem?_set, hlt, if_true] at h1
      have := Option.some.inj h1
      subst this
      rcases hq x h2 with h | h
      · exact hi.queued E ex x hex h
      · exact h
    · simp only [World.set_executor_executors, List.getElem?_set, hE, if_false] at h1
      exact hi.queued E1 ex2 x h1 h2
  · intro t st c hst hc
    exact hi.attached t st c hst hc

theorem late_set_state (s n : Nat) (w : World) (t : Nat) (st st1 : shared_state)
    (hst : w.states[t]? = some st) (hv : st1.res_void = st.res_void)
    (hs : t = s → st1.m_is_ready = true) (hn : t = n → st1.m_is_ready = false)
    (hc : ∀ c : Executable, st1.m_continuation = some c →
      st.m_continuation = some c ∨ only_at s n t c)
    (hl : Late s n w) : Late s n (w.set_state t st1) := by
  have hlt := getElem?_lt _ _ _ hst
  constructor
  · obtain ⟨st0, h0, h1, h2⟩ := hl.trigger
    by_cases hts : t = s
    · subst hts
      rw [hst] at h0
      cases h0
      exact ⟨st1, by simp [List.getElem?_set, hlt], hs rfl, by rw [hv]; exact h2⟩
    · exact ⟨st0, by simp [List.getElem?_set, hts, h0], h1, h2⟩
  · obtain ⟨st0, h0, h1⟩ := hl.pending
    by_cases htn : t = n
    · subst htn
      exact ⟨st1, by simp [List.getElem?_set, hlt], hn rfl⟩
    · exact ⟨st0, by simp [List.getElem?_set, htn, h0], h1⟩
  · exact items_set_state _ _ w t st st1 hst hc hl.items

theorem late_set_executor (s n : Nat) (w : World) (E : Nat) (ex ex1 : Executor_base)
    (hex : w.executors[E]? = some ex)
    (hq : ∀ x ∈ ex1.m_queue.m_queue, x ∈ ex.m_queue.m_queue ∨ not_for s n x)
    (hl : Late s n w) : Late s n (w.set_executor E ex1) :=
  ⟨hl.trigger, hl.pending, items_set_executor _ _ w E ex ex1 hex hq hl.items⟩

theorem late_alloc (s n : Nat) (w : World) (st0 : shared_state)
    (h0 : st0.m_continuation = none) (hl : Late s n w) : Late s n (w.alloc_state st0).2 := by
  constructor
  · obtain ⟨st, h1, h2, h3⟩ := hl.trigger
    refine ⟨st, ?_, h2, h3⟩
    simp only [World.alloc_state]
    rw [List.getElem?_append_left (getElem?_lt _ _ _ h1)]
    exact h1
  · obtain ⟨st, h1, h2⟩ := hl.pending
    refine ⟨st, ?_, h2⟩
    simp only [World.alloc_state]
    rw [List.getElem?_append_left (getElem?_lt _ _ _ h1)]
    exact h1
  · exact items_alloc _ _ w st0 h0 hl.items

theorem late_new_executor (s n : Nat) (w : World) (hl : Late s n w) :
    Late s n w.new_executor.2 :=
  ⟨hl.trigger, hl.pending, items_new_executor _ _ w hl.items⟩

theorem late_set_ready (s n : Nat) (w w1 : World) (t : Nat) (hts : t ≠ s) (htn : t ≠ n)
    (hl : Late s n w) (h : shared_state_base.set_ready w t = some w1) : Late s n w1 := by
  obtain ⟨st, hst, hcase⟩ := set_ready_cases w w1 t h
  rcases hcase with ⟨hc, hw⟩ | ⟨c, e, ex, hc, he, hex, hw⟩
  · subst hw
    apply late_set_state s n w t st _ hst (by rfl) (fun h0 => absurd h0 hts)
      (fun h0 => absurd h0 htn) _ hl
    intro c h2
    exact Or.inl h2
  · subst hw
    have hc1 := hl.items.attached t st c hst hc
    have h1 : Late s n (w.set_state t { st with m_is_ready := true, m_continuation := none }) := by
      apply late_set_state s n w t st _ hst (by rfl) (fun h0 => absurd h0 hts)
        (fun h0 => absurd h0 htn) _ hl
      intro c1 h2
      cases h2
    apply late_set_executor s n _ e ex _ (by simpa using hex) _ h1
    intro x hx
    rcases (enqueue_mem ex.m_queue c x).1 hx with hx | hx
    · exact Or.inl hx
    · right
      rw [hx]
      exact ⟨fun hn => hts (hc1.1 hn), hc1.2⟩

theorem late_set_value (s n : Nat) (w w1 : World) (t : Nat) (v : Value) (htn : t ≠ n)
    (hl : Late s n w) (h : shared_state.set_value w t v = some w1) : Late s n w1 := by
  rcases Option.eq_none_or_eq_some w.states[t]? with hst | ⟨st, hst⟩
  · simp [shared_state.set_value, hst] at h
  · by_cases hr : st.m_is_ready = true
    · rw [set_value_of_ready w t v st hst hr] at h
      cases h
      exact hl
    · have hts : t ≠ s := by
        intro hts
        subst hts
        obtain ⟨st0, h0, h1, _⟩ := hl.trigger
        rw [hst] at h0
        cases h0
        exact hr h1
      rw [set_value_of_pending w t v st hst (by simpa using hr)] at h
      refine late_set_ready s n _ w1 t hts htn ?_ h
      apply late_set_state s n w t st _ hst (by rfl) (fun h0 => absurd h0 hts)
        (fun h0 => absurd h0 htn) _ hl
      intro c h2
      exact Or.inl h2

theorem late_update (s n : Nat) (w : World) (t : Nat) (st st1 : shared_state)
    (hst : w.states[t]? = some st) (hv : st1.res_void = st.res_void)
    (hr : st1.m_is_ready = st.m_is_ready)
    (hc : ∀ c : Executable, st1.m_continuation = some c →
      st.m_continuation = some c ∨ only_at s n t c)
    (hl : Late s n w) : Late s n (w.set_state t st1) := by
  refine late_set_state s n w t st st1 hst hv ?_ ?_ hc hl
  · intro hts
    subst hts
    obtain ⟨st0, h0, h1, _⟩ := hl.trigger
    rw [hst] at h0
    cases h0
    rw [hr]
    exact h1
  · intro htn
    subst htn
    obtain ⟨st0, h0, h1⟩ := hl.pending
    rw [hst] at h0
    cases h0
    rw [hr]
    exact h1

theorem late_get (s n : Nat) (w w1 : World) (f : TaskFuture) (v : Value) (hl : Late s n w)
    (h : TaskFuture.get w f = some (v, w1)) : Late s n w1 := by
  cases f with
  | mk ptr =>
    cases ptr with
    | none => simp [TaskFuture.get] at h
    | some t =>
      rcases get_cases w w1 t v h with hw | ⟨st, v1, hst, hw⟩
      · rw [hw]
        exact hl
      · rw [hw]
        refine late_update s n w t st _ hst (by rfl) (by rfl) ?_ hl
        intro c h2
        exact Or.inl h2

theorem late_move_apply (s n : Nat) (w : World) (task : Callable) (args : List Value)
    (r : Value × World) (hl : Late s n w) (hm : move_apply w task args = some r) :
    Late s n r.2 := by
  unfold move_apply at hm
  split at hm
  · cases hm
    exact hl
  · split at hm
    · cases hm
    · rename_i r1 hg
      cases hm
      exact late_get s n w r1.2 _ r1.1 hl hg
  · cases hm

theorem late_execute (s n : Nat) (w w1 : World) (x : Executable) (hx : not_for s n x)
    (hl : Late s n w) (h : Executable.execute w x = some w1) : Late s n w1 := by
  unfold Executable.execute at h
  split at h
  · cases h
  · rename_i r hm
    have hl2 := late_move_apply s n w _ _ r hl hm
    by_cases hv : x.m_task_data_ptr.res_void = true
    · simp only [hv, if_true] at h
      refine late_set_ready s n _ w1 _ ?_ hx.1 hl2 h
      intro hs
      have := hx.2 hs
      rw [hv] at this
      cases this
    · simp only [hv] at h
      exact late_set_value s n _ w1 _ _ hx.1 hl2 h

theorem late_set_executor_base (s n : Nat) (w w1 : World) (f : TaskFuture) (e : Option Nat)
    (hl : Late s n w) (h : TaskFuture.set_executor_base w f e = some w1) : Late s n w1 := by
  unfold TaskFuture.set_executor_base at h
  split at h
  · cases h
  · rename_i t ht
    rcases Option.eq_none_or_eq_some w.states[t]? with hst | ⟨st, hst⟩
    · simp [shared_state_base.set_executor_base, hst] at h
    · simp only [shared_state_base.set_executor_base, hst] at h
      cases h
      refine late_update s n w t st _ hst (by rfl) (by rfl) ?_ hl
      intro c h2
      exact Or.inl h2

theorem late_set_continuation (s n : Nat) (w w1 : World) (t : Nat) (c : Executable)
    (hc : only_at s n t c) (hl : Late s n w)
    (h : shared_state_base.set_continuation w t (some c) = some w1) : Late s n w1 := by
  rcases Option.eq_none_or_eq_some w.states[t]? with hst | ⟨st, hst⟩
  · simp [shared_state_base.set_continuation, hst] at h
  · simp only [shared_state_base.set_continuation, hst] at h
    cases h
    refine late_update s n w t st _ hst (by rfl) (by rfl) ?_ hl
    intro c1 h2
    right
    have := Option.some.inj h2
    rw [← this]
    exact hc

theorem late_schedule (s n : Nat) (w : World) (E : Nat) (td : task_data) (moved : Bool)
    (p : Priority) (r : TaskFuture × Task_data_impl × World)
    (hx : not_for s n ⟨p, td⟩) (hl : Late s n w)
    (h : Executor_base.schedule w E ⟨some td, moved⟩ p = some r) : Late s n r.2.2 := by
  simp only [Executor_base.schedule, Task_data_impl.get_data_handle] at h
  split at h
  · cases h
  · rename_i ex hex
    split at h
    · cases h
    · rename_i w2 hw2
      cases h
      refine late_set_executor_base s n _ w2 _ _ ?_ hw2
      apply late_set_executor s n w E ex _ hex _ hl
      intro x hx1
      rcases (enqueue_mem ex.m_queue ⟨p, td⟩ x).1 hx1 with h1 | h1
      · exact Or.inl h1
      · right
        rw [h1]
        exact hx

theorem late_schedule_continuation (s n : Nat) (w : World) (E : Nat) (task : TaskFuture)
    (td : task_data) (moved : Bool) (p : Priority)
    (r : TaskFuture × Task_data_impl × World)
    (hn : td.promise.m_state ≠ n) (hs : td.promise.m_state ≠ s) (hl : Late s n w)
    (h : Executor_base.schedule_continuation w E task ⟨some td, moved⟩ p = some r) :
    Late s n r.2.2 := by
  simp only [Executor_base.schedule_continuation, Task_data_impl.get_data_handle] at h
  split at h
  · cases h
  · rename_i t ht
    split at h
    · cases h
    · rename_i w1 hw1
      split at h
      · cases h
      · rename_i w2 hw2
        cases h
        refine late_set_executor_base s n _ w2 _ _ ?_ hw2
        refine late_set_continuation s n w w1 t _ ?_ hl hw1
        exact ⟨fun h0 => absurd h0 hn, fun h0 => absurd h0 hs⟩

theorem late_fresh (s n : Nat) (w : World) (hl : Late s n w) :
    w.states.length ≠ n ∧ w.states.length ≠ s := by
  obtain ⟨_, h1, _⟩ := hl.trigger
  obtain ⟨_, h2, _⟩ := hl.pending
  have hs := getElem?_lt _ _ _ h1
  have hn := getElem?_lt _ _ _ h2
  exact ⟨Nat.ne_of_gt hn, Nat.ne_of_gt hs⟩

theorem late_schedule_continuation_fn (s n : Nat) (w : World) (E : Nat) (task : TaskFuture)
    (rv : Bool) (fn : Callable) (p : Priority) (r : TaskFuture × World) (hl : Late s n w)
    (h : Executor_base.schedule_continuation_fn w E task rv fn p = some r) : Late s n r.2 := by
  simp only [Executor_base.schedule_continuation_fn, make_task] at h
  split at h
  · cases h
  · rename_i r1 hr1
    cases h
    have hf := late_fresh s n w hl
    exact late_schedule_continuation s n _ E task _ false p r1 hf.1 hf.2
      (late_alloc s n w { res_void := rv } rfl hl) hr1

theorem late_then (s n : Nat) (w : World) (f : TaskFuture) (rv : Bool) (fn : Callable)
    (p : Priority) (r : TaskFuture × World) (hl : Late s n w)
    (h : TaskFuture.then_ w f rv fn p = some r) : Late s n r.2 := by
  unfold TaskFuture.then_ at h
  split at h
  · cases h
  · split at h
    · cases h
    · split at h
      · cases h
      · exact late_schedule_continuation_fn s n w _ f rv fn p r hl h

theorem late_run_step (s n : Nat) (w w1 : World) (E : Nat) (alive : Bool) (hl : Late s n w)
    (h : Executor_base.run_step w E alive = some (RunStep.executed w1)) : Late s n w1 := by
  unfold Executor_base.run_step at h
  split at h
  · cases h
  · rename_i ex hex
    split at h
    · cases h
    · split at h
      · cases h
      · split at h
        · cases h
        · rename_i r hd
          split at h
          · cases h
          · rename_i w2 he
            have := Option.some.inj h
            cases this
            have hq := (dequeue_eq_some ex.m_queue r.2 r.1).1 hd
            have hx : not_for s n r.1 :=
              hl.items.queued E ex r.1 hex (by rw [hq]; exact List.mem_cons_self _ _)
            refine late_execute s n _ w1 r.1 hx ?_ he
            apply late_set_executor s n w E ex _ hex _ hl
            intro x hx1
            left
            rw [hq]
            exact List.mem_cons_of_mem _ hx1

theorem late_step (s n : Nat) (w w1 : World) (op : Op) (hop : ¬ op.writes n)
    (hl : Late s n w) (h : step w op = some w1) : Late s n w1 := by
  have hf := late_fresh s n w hl
  cases op with
  | new_executor =>
    simp only [step] at h
    cases h
    exact late_new_executor s n w hl
  | new_promise rv =>
    simp only [step] at h
    cases h
    exact late_alloc s n w { res_void := rv } rfl hl
  | set_value p v =>
    simp only [step] at h
    split at h
    · cases h
    · split at h
      · cases h
      · exact late_set_value s n w w1 p.m_state v hop hl h
  | set_value_void p =>
    simp only [step] at h
    split at h
    · cases h
    · rename_i st hst
      split at h
      · rename_i hv
        refine late_set_ready s n w w1 p.m_state ?_ hop hl h
        intro hps
        obtain ⟨st0, h0, _, h2⟩ := hl.trigger
        rw [hps] at hst
        rw [hst] at h0
        cases h0
        rw [hv] at h2
        cases h2
      · cases h
  | schedule E rv fn args p =>
    simp only [step, make_packaged_task] at h
    split at h
    · cases h
    · rename_i r hr
      cases h
      refine late_schedule s n _ E _ false p r ?_ (late_alloc s n w { res_void := rv } rfl hl) hr
      exact ⟨hf.1, fun h0 => absurd h0 hf.2⟩
  | schedule_fn E rv fn p =>
    simp only [step, Executor_base.schedule_fn, make_packaged_task] at h
    split at h
    · cases h
    · rename_i r hr
      split at hr
      · cases hr
      · rename_i r1 hr1
        cases hr
        cases h
        refine late_schedule s n _ E _ false MEDIUM r1 ?_
          (late_alloc s n w { res_void := rv } rfl hl) hr1
        exact ⟨hf.1, fun h0 => absurd h0 hf.2⟩
  | schedule_continuation E task rv fn p =>
    simp only [step] at h
    split at h
    · cases h
    · rename_i r hr
      cases h
      exact late_schedule_continuation_fn s n w E task rv fn p r hl hr
  | then_ task rv fn p =>
    simp only [step] at h
    split at h
    · cases h
    · rename_i r hr
      cases h
      exact late_then s n w task rv fn p r hl hr
  | get f =>
    simp only [step] at h
    split at h
    · cases h
    · rename_i r hr
      cases h
      exact late_get s n w r.2 f r.1 hl hr
  | run E =>
    simp only [step] at h
    split at h
    · rename_i w2 hr
      cases h
      exact late_run_step s n w _ E true hl hr
    · cases h

theorem late_run_ops (s n : Nat) (ops : List Op) :
    ∀ w w1 : World, (∀ op ∈ ops, ¬ op.writes n) → Late s n w → run_ops w ops = some w1 →
      Late s n w1 := by
  induction ops with
  | nil =>
    intro w w1 _ hl h
    simp only [run_ops] at h
    cases h
    exact hl
  | cons op ops ih =>
    intro w w1 hops hl h
    simp only [run_ops] at h
    split at h
    · cases h
    · rename_i w2 hw2
      exact ih w2 w1 (fun o ho => hops o (List.mem_cons_of_mem _ ho))
        (late_step s n w w2 op (hops op (List.mem_cons_self _ _)) hl hw2) h

theorem items_mono (P P1 : Executable → Prop) (A A1 : Nat → Executable → Prop) (w : World)
    (hp : ∀ x : Executable, P x → P1 x) (ha : ∀ (t : Nat) (c : Executable), A t c → A1 t c)
    (hi : Items P A w) : Items P1 A1 w :=
  ⟨fun E ex x hex hx => hp x (hi.queued E ex x hex hx),
    fun t st c hst hc => ha t c (hi.attached t st c hst hc)⟩

theorem schedule_continuation_unfold (w : World) (E s : Nat) (rv : Bool) (fn : Callable)
    (p : Priority) (r : TaskFuture × World)
    (h : Executor_base.schedule_continuation_fn w E ⟨some s⟩ rv fn p = some r) :
    ∃ (c : Executable) (w1 : World),
      c.m_task_data_ptr.promise = ⟨w.states.length⟩ ∧ c.m_task_data_ptr.res_void = rv ∧
      shared_state_base.set_continuation (TaskPromise.new w rv).2 s (some c) = some w1 ∧
      TaskFuture.set_executor_base w1 ⟨some w.states.length⟩ (some E) = some r.2 ∧
      r.1 = ⟨some w.states.length⟩ := by
  simp only [Executor_base.schedule_continuation_fn, make_task] at h
  split at h
  · cases h
  · rename_i r1 hr1
    cases h
    simp only [Executor_base.schedule_continuation, Task_data_impl.get_data_handle] at hr1
    split at hr1
    · cases hr1
    · rename_i w1 hw1
      split at hr1
      · cases hr1
      · rename_i w2 hw2
        cases hr1
        refine ⟨_, w1, ?_, ?_, hw1, hw2, rfl⟩ <;> rfl

theorem then_eq_schedule_continuation (w : World) (s : Nat) (rv : Bool) (fn : Callable)
    (p : Priority) (r : TaskFuture × World)
    (h : TaskFuture.then_ w ⟨some s⟩ rv fn p = some r) :
    ∃ e : Nat, Executor_base.schedule_continuation_fn w e ⟨some s⟩ rv fn p = some r := by
  unfold TaskFuture.then_ at h
  simp only at h
  split at h
  · cases h
  · split at h
    · cases h
    · rename_i e he
      exact ⟨e, h⟩

theorem then_unfold (w : World) (s : Nat) (rv : Bool) (fn : Callable) (p : Priority)
    (r : TaskFuture × World) (h : TaskFuture.then_ w ⟨some s⟩ rv fn p = some r) :
    ∃ (e : Nat) (c : Executable) (w1 : World),
      c.m_task_data_ptr.promise = ⟨w.states.length⟩ ∧ c.m_task_data_ptr.res_void = rv ∧
      shared_state_base.set_continuation (TaskPromise.new w rv).2 s (some c) = some w1 ∧
      TaskFuture.set_executor_base w1 ⟨some w.states.length⟩ (some e) = some r.2 ∧
      r.1 = ⟨some w.states.length⟩ := by
  obtain ⟨e, he⟩ := then_eq_schedule_continuation w s rv fn p r h
  exact ⟨e, schedule_continuation_unfold w e s rv fn p r he⟩

theorem late_after_attach (w : World) (E s : Nat) (rv : Bool) (fn : Callable) (p : Priority)
    (r : TaskFuture × World) (hrv : ReadyValue s w)
    (hwf : Items (promise_in w.states.length s) (fun _ => promise_in w.states.length s) w)
    (h : Executor_base.schedule_continuation_fn w E ⟨some s⟩ rv fn p = some r) :
    r.1 = ⟨some w.states.length⟩ ∧ r.2.executors = w.executors ∧
    Late s w.states.length r.2 ∧
    ∃ c : Executable, r.2.slot s = [c] ∧
      c.m_task_data_ptr.promise.m_state = w.states.length := by
  obtain ⟨c, w1, hp, hv, hw1, hw2, hfut⟩ := schedule_continuation_unfold w E s rv fn p r h
  obtain ⟨st, hst, hr, hnv⟩ := hrv
  have hlt := getElem?_lt _ _ _ hst
  have hne : w.states.length ≠ s := Nat.ne_of_gt hlt
  have hpm : c.m_task_data_ptr.promise.m_state = w.states.length := by rw [hp]
  have hl0 : Late s w.states.length (TaskPromise.new w rv).2 := by
    constructor
    · refine ⟨st, ?_, hr, hnv⟩
      simp only [TaskPromise.new, World.alloc_state]
      rw [List.getElem?_append_left hlt]
      exact hst
    · refine ⟨{ res_void := rv }, ?_, rfl⟩
      simp only [TaskPromise.new, World.alloc_state]
      rw [list_getElem?_append_length]
      rfl
    · apply items_alloc _ _ w { res_void := rv } rfl
      apply items_mono _ _ _ _ w _ _ hwf
      · intro x hx
        exact ⟨Nat.ne_of_lt hx.1, hx.2⟩
      · intro t c hc
        exact ⟨fun h0 => absurd h0 (Nat.ne_of_lt hc.1), hc.2⟩
  have hl1 : Late s w.states.length w1 := by
    refine late_set_continuation s w.states.length _ w1 s _ ?_ hl0 hw1
    exact ⟨fun _ => rfl, fun h0 => absurd (hpm.symm.trans h0) hne⟩
  have hl2 := late_set_executor_base s w.states.length w1 r.2 _ _ hl1 hw2
  obtain ⟨he1, st0, h0, hc0⟩ := set_continuation_spec _ _ _ _ hw1
  obtain ⟨he2, hstates⟩ := set_executor_base_spec _ _ _ _ hw2
  obtain ⟨st1, h1, h2⟩ := hstates s st0 h0
  refine ⟨hfut, ?_, hl2, c, ?_, hpm⟩
  · rw [he2, he1]
    rfl
  · rw [slot_eq r.2 s st1 h1, h2, hc0]
    rfl

theorem ready_value_update (s : Nat) (w : World) (t : Nat) (st st1 : shared_state)
    (hst : w.states[t]? = some st) (hv : st1.res_void = st.res_void)
    (hr : st1.m_is_ready = st.m_is_ready) (h : ReadyValue s w) :
    ReadyValue s (w.set_state t st1) := by
  obtain ⟨st0, h0, h1, h2⟩ := h
  have hlt := getElem?_lt _ _ _ hst
  by_cases hts : t = s
  · subst hts
    rw [hst] at h0
    cases h0
    exact ⟨st1, by simp [List.getElem?_set, hlt], by rw [hr]; exact h1, by rw [hv]; exact h2⟩
  · exact ⟨st0, by simp [List.getElem?_set, hts, h0], h1, h2⟩

theorem state_step_ready_value (w w1 : World) (s : Nat) (op : StateOp) (hrv : ReadyValue s w)
    (h : state_step w s op = some w1) : w1.executors = w.executors ∧ ReadyValue s w1 := by
  obtain ⟨st, hst, hr, hnv⟩ := hrv
  have hrv : ReadyValue s w := ⟨st, hst, hr, hnv⟩
  cases op with
  | set_value v =>
    simp only [state_step, hst, hnv] at h
    rw [TaskPromise.set_value, set_value_of_ready w s v st hst hr] at h
    simp only [Bool.false_eq_true, if_false] at h
    cases h
    exact ⟨rfl, hrv⟩
  | set_value_void =>
    simp [state_step, hst, hnv] at h
  | set_continuation exe =>
    simp only [state_step, shared_state_base.set_continuation, hst] at h
    cases h
    exact ⟨rfl, ready_value_update s w s st _ hst (by rfl) (by rfl) hrv⟩
  | set_executor_base e =>
    simp only [state_step, shared_state_base.set_executor_base, hst] at h
    cases h
    exact ⟨rfl, ready_value_update s w s st _ hst (by rfl) (by rfl) hrv⟩
  | is_ready =>
    simp only [state_step] at h
    split at h
    · cases h
    · cases h
      exact ⟨rfl, hrv⟩
  | wait =>
    simp only [state_step] at h
    split at h
    · cases h
    · split at h
      · cases h
      · cases h
        exact ⟨rfl, hrv⟩
  | wait_for =>
    simp only [state_step] at h
    split at h
    · cases h
    · split at h <;> cases h <;> exact ⟨rfl, hrv⟩
  | wait_until =>
    simp only [state_step] at h
    split at h
    · cases h
    · split at h <;> cases h <;> exact ⟨rfl, hrv⟩
  | get =>
    simp only [state_step] at h
    split at h
    · cases h
    · rename_i r hg
      cases h
      rcases get_cases w r.2 s r.1 hg with hw | ⟨st2, v1, hst2, hw⟩
      · rw [hw]
        exact ⟨rfl, hrv⟩
      · rw [hw]
        exact ⟨rfl, ready_value_update s w s st2 _ hst2 (by rfl) (by rfl) hrv⟩
  | shared_get =>
    simp only [state_step] at h
    split at h
    · cases h
    · cases h
      exact ⟨rfl, hrv⟩
  | get_copy =>
    simp only [state_step] at h
    split at h
    · cases h
    · cases h
      exact ⟨rfl, hrv⟩
  | share =>
    simp only [state_step] at h
    cases h
    exact ⟨rfl, hrv⟩
  | then_ rv task p =>
    simp only [state_step] at h
    split at h
    · cases h
    · rename_i r hr1
      cases h
      refine ⟨(then_spec w _ rv task p r hr1).1, ?_⟩
      obtain ⟨e, td, w2, _, _, hw2, hw3, _⟩ := then_unfold w s rv task p r hr1
      have hlt := getElem?_lt _ _ _ hst
      have h0 : ReadyValue s (TaskPromise.new w rv).2 := by
        refine ⟨st, ?_, hr, hnv⟩
        simp only [TaskPromise.new, World.alloc_state]
        rw [List.getElem?_append_left hlt]
        exact hst
      have h1 : ReadyValue s w2 := by
        rcases Option.eq_none_or_eq_some (TaskPromise.new w rv).2.states[s]? with hs | ⟨sa, hs⟩
        · simp [shared_state_base.set_continuation, hs] at hw2
        · simp only [shared_state_base.set_continuation, hs] at hw2
          cases hw2
          exact ready_value_update s _ s sa _ hs (by rfl) (by rfl) h0
      simp only [TaskFuture.set_executor_base, shared_state_base.set_executor_base] at hw3
      split at hw3
      · cases hw3
      · rename_i sb hsb
        rw [← Option.some.inj hw3]
        exact ready_value_update s _ _ sb _ hsb (by rfl) (by rfl) h1

theorem run_state_ops_ready_value (ops : List StateOp) :
    ∀ (w w1 : World) (s : Nat), ReadyValue s w → run_state_ops w s ops = some w1 →
      w1.executors = w.executors ∧ ReadyValue s w1 := by
  induction ops with
  | nil =>
    intro w w1 s hrv h
    simp only [run_state_ops] at h
    cases h
    exact ⟨rfl, hrv⟩
  | cons op ops ih =>
    intro w w1 s hrv h
    simp only [run_state_ops] at h
    split at h
    · cases h
    · rename_i w2 hw2
      obtain ⟨h1, h2⟩ := state_step_ready_value w w2 s op hrv hw2
      obtain ⟨h3, h4⟩ := ih w2 w1 s h2 h
      exact ⟨h3.trans h1, h4⟩

theorem tagged_mono (w w1 : World) (x : Executable)
    (ht : ∀ (t : Nat) (st : shared_state), w.states[t]? = some st →
      ∃ st1 : shared_state, w1.states[t]? = some st1 ∧ st1.res_void = st.res_void)
    (hx : tagged w x) : tagged w1 x := by
  obtain ⟨st, hst, hv⟩ := hx
  obtain ⟨st1, h1, h2⟩ := ht _ st hst
  exact ⟨st1, h1, h2.trans hv⟩

theorem well_tagged_of (w w1 : World)
    (ht : ∀ (t : Nat) (st : shared_state), w.states[t]? = some st →
      ∃ st1 : shared_state, w1.states[t]? = some st1 ∧ st1.res_void = st.res_void)
    (hi : Items (tagged w) (fun _ => tagged w) w1) : WellTagged w1 :=
  items_mono _ _ _ _ w1 (fun x hx => tagged_mono w w1 x ht hx)
    (fun _ c hc => tagged_mono w w1 c ht hc) hi

theorem tags_alloc (w : World) (st0 : shared_state) (t : Nat) (st : shared_state)
    (hst : w.states[t]? = some st) :
    ∃ st1 : shared_state, (w.alloc_state st0).2.states[t]? = some st1 ∧
      st1.res_void = st.res_void := by
  refine ⟨st, ?_, rfl⟩
  simp only [World.alloc_state]
  rw [List.getElem?_append_left (getElem?_lt _ _ _ hst)]
  exact hst

theorem tags_set_state (w : World) (u : Nat) (su su1 : shared_state)
    (hsu : w.states[u]? = some su) (hv : su1.res_void = su.res_void) (t : Nat)
    (st : shared_state) (hst : w.states[t]? = some st) :
    ∃ st1 : shared_state, (w.set_state u su1).states[t]? = some st1 ∧
      st1.res_void = st.res_void := by
  have hlt := getElem?_lt _ _ _ hsu
  by_cases hut : u = t
  · subst hut
    rw [hsu] at hst
    cases hst
    exact ⟨su1, by simp [List.getElem?_set, hlt], hv⟩
  · exact ⟨st, by simp [List.getElem?_set, hut, hst], rfl⟩

theorem wt_alloc (w : World) (st0 : shared_state) (h0 : st0.m_continuation = none)
    (hi : WellTagged w) : WellTagged (w.alloc_state st0).2 :=
  well_tagged_of w _ (tags_alloc w st0) (items_alloc _ _ w st0 h0 hi)

theorem wt_new_executor (w : World) (hi : WellTagged w) : WellTagged w.new_executor.2 :=
  well_tagged_of w _ (fun _ st hst => ⟨st, hst, rfl⟩) (items_new_executor _ _ w hi)

theorem wt_set_state (w : World) (t : Nat) (st st1 : shared_state)
    (hst : w.states[t]? = some st) (hv : st1.res_void = st.res_void)
    (hc : ∀ c : Executable, st1.m_continuation = some c →
      st.m_continuation = some c ∨ tagged w c)
    (hi : WellTagged w) : WellTagged (w.set_state t st1) :=
  well_tagged_of w _ (tags_set_state w t st st1 hst hv)
    (items_set_state _ _ w t st st1 hst hc hi)

theorem wt_set_executor (w : World) (E : Nat) (ex ex1 : Executor_base)
    (hex : w.executors[E]? = some ex)
    (hq : ∀ x ∈ ex1.m_queue.m_queue, x ∈ ex.m_queue.m_queue ∨ tagged w x)
    (hi : WellTagged w) : WellTagged (w.set_executor E ex1) :=
  well_tagged_of w _ (fun _ st hst => ⟨st, hst, rfl⟩)
    (items_set_executor _ _ w E ex ex1 hex hq hi)

theorem wt_set_ready (w w1 : World) (t : Nat) (hi : WellTagged w)
    (h : shared_state_base.set_ready w t = some w1) : WellTagged w1 := by
  obtain ⟨st, hst, hcase⟩ := set_ready_cases w w1 t h
  rcases hcase with ⟨hc, hw⟩ | ⟨c, e, ex, hc, he, hex, hw⟩
  · subst hw
    apply wt_set_state w t st _ hst (by rfl) _ hi
    intro c h2
    exact Or.inl h2
  · subst hw
    have hc1 : tagged w c := hi.attached t st c hst hc
    have h1 : WellTagged (w.set_state t { st with m_is_ready := true, m_continuation := none }) := by
      apply wt_set_state w t st _ hst (by rfl) _ hi
      intro c1 h2
      cases h2
    apply wt_set_executor _ e ex _ (by simpa using hex) _ h1
    intro x hx
    rcases (enqueue_mem ex.m_queue c x).1 hx with hx | hx
    · exact Or.inl hx
    · right
      rw [hx]
      exact tagged_mono w _ c (tags_set_state w t st _ hst (by rfl)) hc1

theorem wt_set_value (w w1 : World) (t : Nat) (v : Value) (hi : WellTagged w)
    (h : shared_state.set_value w t v = some w1) : WellTagged w1 := by
  rcases Option.eq_none_or_eq_some w.states[t]? with hst | ⟨st, hst⟩
  · simp [shared_state.set_value, hst] at h
  · by_cases hr : st.m_is_ready = true
    · rw [set_value_of_ready w t v st hst hr] at h
      cases h
      exact hi
    · rw [set_value_of_pending w t v st hst (by simpa using hr)] at h
      refine wt_set_ready _ w1 t ?_ h
      apply wt_set_state w t st _ hst (by rfl) _ hi
      intro c h2
      exact Or.inl h2

theorem wt_get (w w1 : World) (f : TaskFuture) (v : Value) (hi : WellTagged w)
    (h : TaskFuture.get w f = some (v, w1)) : WellTagged w1 := by
  cases f with
  | mk ptr =>
    cases ptr with
    | none => simp [TaskFuture.get] at h
    | some t =>
      rcases get_cases w w1 t v h with hw | ⟨st, v1, hst, hw⟩
      · rw [hw]
        exact hi
      · rw [hw]
        refine wt_set_state w t st _ hst (by rfl) ?_ hi
        intro c h2
        exact Or.inl h2

theorem wt_move_apply (w : World) (task : Callable) (args : List Value)
    (r : Value × World) (hi : WellTagged w) (hm : move_apply w task args = some r) :
    WellTagged r.2 := by
  unfold move_apply at hm
  split at hm
  · cases hm
    exact hi
  · split at hm
    · cases hm
    · rename_i r1 hg
      cases hm
      exact wt_get w r1.2 _ r1.1 hi hg
  · cases hm

theorem wt_execute (w w1 : World) (x : Executable) (hi : WellTagged w)
    (h : Executable.execute w x = some w1) : WellTagged w1 := by
  unfold Executable.execute at h
  split at h
  · cases h
  · rename_i r hm
    have hl2 := wt_move_apply w _ _ r hi hm
    by_cases hv : x.m_task_data_ptr.res_void = true
    · simp only [hv, if_true] at h
      exact wt_set_ready _ w1 _ hl2 h
    · simp only [hv] at h
      exact wt_set_value _ w1 _ _ hl2 h

theorem wt_set_executor_base (w w1 : World) (f : TaskFuture) (e : Option Nat)
    (hi : WellTagged w) (h : TaskFuture.set_executor_base w f e = some w1) :
    WellTagged w1 := by
  unfold TaskFuture.set_executor_base at h
  split at h
  · cases h
  · rename_i t ht
    rcases Option.eq_none_or_eq_some w.states[t]? with hst | ⟨st, hst⟩
    · simp [shared_state_base.set_executor_base, hst] at h
    · simp only [shared_state_base.set_executor_base, hst] at h
      cases h
      refine wt_set_state w t st _ hst (by rfl) ?_ hi
      intro c h2
      exact Or.inl h2

theorem wt_set_continuation (w w1 : World) (t : Nat) (c : Executable)
    (hc : tagged w c) (hi : WellTagged w)
    (h : shared_state_base.set_continuation w t (some c) = some w1) : WellTagged w1 := by
  rcases Option.eq_none_or_eq_some w.states[t]? with hst | ⟨st, hst⟩
  · simp [shared_state_base.set_continuation, hst] at h
  · simp only [shared_state_base.set_continuation, hst] at h
    cases h
    refine wt_set_state w t st _ hst (by rfl) ?_ hi
    intro c1 h2
    right
    have := Option.some.inj h2
    rw [← this]
    exact hc

theorem wt_schedule (w : World) (E : Nat) (td : task_data) (moved : Bool)
    (p : Priority) (r : TaskFuture × Task_data_impl × World)
    (hx : tagged w ⟨p, td⟩) (hi : WellTagged w)
    (h : Executor_base.schedule w E ⟨some td, moved⟩ p = some r) : WellTagged r.2.2 := by
  simp only [Executor_base.schedule, Task_data_impl.get_data_handle] at h
  split at h
  · cases h
  · rename_i ex hex
    split at h
    · cases h
    · rename_i w2 hw2
      cases h
      refine wt_set_executor_base _ w2 _ _ ?_ hw2
      apply wt_set_executor w E ex _ hex _ hi
      intro x hx1
      rcases (enqueue_mem ex.m_queue ⟨p, td⟩ x).1 hx1 with h1 | h1
      · exact Or.inl h1
      · right
        rw [h1]
        exact hx

theorem tagged_fresh (w : World) (rv : Bool) (x : Executable)
    (hp : x.m_task_data_ptr.promise = ⟨w.states.length⟩)
    (hv : x.m_task_data_ptr.res_void = rv) : tagged (TaskPromise.new w rv).2 x := by
  refine ⟨{ res_void := rv }, ?_, hv.symm⟩
  rw [hp]
  simp only [TaskPromise.new, World.alloc_state]
  rw [list_getElem?_append_length]
  rfl

theorem wt_schedule_continuation_fn (w : World) (E : Nat) (task : TaskFuture)
    (rv : Bool) (fn : Callable) (p : Priority) (r : TaskFuture × World) (hi : WellTagged w)
    (h : Executor_base.schedule_continuation_fn w E task rv fn p = some r) :
    WellTagged r.2 := by
  simp only [Executor_base.schedule_continuation_fn, make_task] at h
  split at h
  · cases h
  · rename_i r1 hr1
    cases h
    simp only [Executor_base.schedule_continuation, Task_data_impl.get_data_handle] at hr1
    split at hr1
    · cases hr1
    · rename_i t ht
      split at hr1
      · cases hr1
      · rename_i w1 hw1
        split at hr1
        · cases hr1
        · rename_i w2 hw2
          cases hr1
          refine wt_set_executor_base _ w2 _ _ ?_ hw2
          refine wt_set_continuation _ w1 t _ ?_ (wt_alloc w { res_void := rv } rfl hi) hw1
          exact tagged_fresh w rv _ rfl rfl

theorem wt_then (w : World) (f : TaskFuture) (rv : Bool) (fn : Callable)
    (p : Priority) (r : TaskFuture × World) (hi : WellTagged w)
    (h : TaskFuture.then_ w f rv fn p = some r) : WellTagged r.2 := by
  unfold TaskFuture.then_ at h
  split at h
  · cases h
  · split at h
    · cases h
    · split at h
      · cases h
      · exact wt_schedule_continuation_fn w _ f rv fn p r hi h

theorem wt_run_step (w w1 : World) (E : Nat) (alive : Bool) (hi : WellTagged w)
    (h : Executor_base.run_step w E alive = some (RunStep.executed w1)) : WellTagged w1 := by
  unfold Executor_base.run_step at h
  split at h
  · cases h
  · rename_i ex hex
    split at h
    · cases h
    · split at h
      · cases h
      · split at h
        · cases h
        · rename_i r hd
          split at h
          · cases h
          · rename_i w2 he
            have := Option.some.inj h
            cases this
            have hq := (dequeue_eq_some ex.m_queue r.2 r.1).1 hd
            refine wt_execute _ w1 r.1 ?_ he
            apply wt_set_executor w E ex _ hex _ hi
            intro x hx1
            left
            rw [hq]
            exact List.mem_cons_of_mem _ hx1

theorem wt_step (w w1 : World) (op : Op) (hi : WellTagged w) (h : step w op = some w1) :
    WellTagged w1 := by
  cases op with
  | new_executor =>
    simp only [step] at h
    cases h
    exact wt_new_executor w hi
  | new_promise rv =>
    simp only [step] at h
    cases h
    exact wt_alloc w { res_void := rv } rfl hi
  | set_value p v =>
    simp only [step] at h
    split at h
    · cases h
    · split at h
      · cases h
      · exact wt_set_value w w1 p.m_state v hi h
  | set_value_void p =>
    simp only [step] at h
    split at h
    · cases h
    · split at h
      · exact wt_set_ready w w1 p.m_state hi h
      · cases h
  | schedule E rv fn args p =>
    simp only [step, make_packaged_task] at h
    split at h
    · cases h
    · rename_i r hr
      cases h
      refine wt_schedule _ E _ false p r ?_ (wt_alloc w { res_void := rv } rfl hi) hr
      exact tagged_fresh w rv _ rfl rfl
  | schedule_fn E rv fn p =>
    simp only [step, Executor_base.schedule_fn, make_packaged_task] at h
    split at h
    · cases h
    · rename_i r hr
      split at hr
      · cases hr
      · rename_i r1 hr1
        cases hr
        cases h
        refine wt_schedule _ E _ false MEDIUM r1 ?_ (wt_alloc w { res_void := rv } rfl hi) hr1
        exact tagged_fresh w rv _ rfl rfl
  | schedule_continuation E task rv fn p =>
    simp only [step] at h
    split at h
    · cases h
    · rename_i r hr
      cases h
      exact wt_schedule_continuation_fn w E task rv fn p r hi hr
  | then_ task rv fn p =>
    simp only [step] at h
    split at h
    · cases h
    · rename_i r hr
      cases h
      exact wt_then w task rv fn p r hi hr
  | get f =>
    simp only [step] at h
    split at h
    · cases h
    · rename_i r hr
      cases h
      exact wt_get w r.2 f r.1 hi hr
  | run E =>
    simp only [step] at h
    split at h
    · rename_i w2 hr
      cases h
      exact wt_run_step w _ E true hi hr
    · cases h

theorem reachable_well_tagged (w : World) (h : Reachable w) : WellTagged w := by
  induction h with
  | init =>
    constructor
    · intro E ex x hex _
      simp [World.init] at hex
    · intro t st c hst _
      simp [World.init] at hst
  | step w0 w1 op _ hs ih => exact wt_step w0 w1 op ih hs

theorem promise_in_of_well_tagged (w : World) (s : Nat) (hi : WellTagged w)
    (hrv : ReadyValue s w) :
    Items (promise_in w.states.length s) (fun _ => promise_in w.states.length s) w := by
  obtain ⟨st, hst, _, hnv⟩ := hrv
  have key : ∀ x : Executable, tagged w x → promise_in w.states.length s x := by
    intro x hx
    obtain ⟨sx, h1, h2⟩ := hx
    refine ⟨getElem?_lt _ _ _ h1, fun hs => ?_⟩
    rw [hs, hst] at h1
    cases h1
    rw [← h2]
    exact hnv
  exact items_mono _ _ _ _ w key (fun _ c hc => key c hc) hi

/-- C15: in a reachable world let a continuation be attached, by `schedule_continuation`
or by `then`, to a value-carrying state `s` that is already Ready. The returned future is
over a fresh state, no queue has changed and the work item sits in the continuation slot of
`s`. No sequence of later operations on `s` changes any queue (a further `set_value` does
nothing). After any later operations of the program, other than a promise write aimed at
the fresh state (its promise is held by the work item alone), the returned future is
Pending and no queue holds a work item with that promise: the work item is never queued,
hence never executed. -/
theorem C15_late_continuation_never_runs (w : World) (E s : Nat) (rv : Bool) (fn : Callable)
    (p : Priority) (fut : TaskFuture) (w1 : World) (hreach : Reachable w)
    (hrv : ReadyValue s w)
    (hatt : Executor_base.schedule_continuation_fn w E ⟨some s⟩ rv fn p = some (fut, w1) ∨
      TaskFuture.then_ w ⟨some s⟩ rv fn p = some (fut, w1)) :
    fut = ⟨some w.states.length⟩ ∧ w1.executors = w.executors ∧
    (∃ c : Executable, w1.slot s = [c] ∧
      c.m_task_data_ptr.promise.m_state = w.states.length) ∧
    (∀ (sops : List StateOp) (w2 : World), run_state_ops w1 s sops = some w2 →
      w2.executors = w1.executors) ∧
    (∀ (ops : List Op) (w2 : World), (∀ op ∈ ops, ¬ op.writes w.states.length) →
      run_ops w1 ops = some w2 →
      TaskFuture.is_ready w2 fut = some false ∧
      ∀ (E1 : Nat) (ex : Executor_base) (x : Executable), w2.executors[E1]? = some ex →
        x ∈ ex.m_queue.m_queue → x.m_task_data_ptr.promise.m_state ≠ w.states.length) := by
  have hwf := promise_in_of_well_tagged w s (reachable_well_tagged w hreach) hrv
  have hsc : ∃ e : Nat,
      Executor_base.schedule_continuation_fn w e ⟨some s⟩ rv fn p = some (fut, w1) := by
    rcases hatt with h | h
    · exact ⟨E, h⟩
    · exact then_eq_schedule_continuation w s rv fn p _ h
  obtain ⟨e, he⟩ := hsc
  obtain ⟨hfut, hex, hlate, hslot⟩ := late_after_attach w e s rv fn p _ hrv hwf he
  simp only at hfut hex hlate hslot
  refine ⟨hfut, hex, hslot, ?_, ?_⟩
  · intro sops w2 h2
    exact (run_state_ops_ready_value sops w1 w2 s hlate.trigger h2).1
  · intro ops w2 hops h2
    have hl := late_run_ops s w.states.length ops w1 w2 hops hlate h2
    obtain ⟨st, hst, hr⟩ := hl.pending
    refine ⟨?_, fun E1 ex x hE hx => (hl.items.queued E1 ex x hE hx).1⟩
    rw [hfut]
    simp [TaskFuture.is_ready, shared_state_base.is_ready, hst, hr]

/-! ### Further instances -/

/-- Instance of C12: state 0 of `hello_world` is Ready with the value hello; the shared future reads hello, and after the exclusive `get()` the state is marked as retrieved. -/
theorem C12_witness :
    hello_world.states[0]? =
      some ⟨false, true, none, some 0, some (Value.str "hello"), false⟩ ∧
    TaskFuture.shared_get hello_world (TaskFuture.share ⟨some 0⟩).1 =
      some (Value.str "hello") ∧
    ∃ w1 : World, TaskFuture.get hello_world ⟨some 0⟩ = some (Value.str "hello", w1) ∧
      ∀ st1 : shared_state, w1.states[0]? = some st1 →
        shared_state.already_retrieved st1 = true := by
  have h := C12_shared_get_keeps_value hello_world 0 _ (Value.str "hello") rfl rfl rfl rfl
  obtain ⟨_, _, h3, _, _, _, w1, h7, _, h9, _⟩ := h
  exact ⟨rfl, h3, w1, h7, h9⟩

/-- Instance of C13: on the Pending state 0 of `attached_world`, with a continuation attached, two writes and a query hand the continuation over once. -/
theorem C13_witness :
    ∃ w1 : World, run_state_ops attached_world 0 handover_ops = some w1 ∧
      (∀ t : Nat, attached_world.is_ready t = true → w1.is_ready t = true) ∧
      ∃ log : List Executable, w1.all_queued.Perm (log ++ attached_world.all_queued) ∧
        (log ++ w1.slot 0).Sublist
          (attached_world.slot 0 ++ attached_all attached_world 0 handover_ops) :=
  ⟨_, rfl, C13_ready_terminal_single_handover handover_ops attached_world _ 0 rfl⟩

/-- Instance of C14: on `attached_world`, whose executor 0 holds one item, a pass with the alive flag false leaves the loop, and a pass with the flag true takes the item from the queue. -/
theorem C14_witness :
    attached_world.executors[0]? = some ⟨⟨[high_item]⟩⟩ ∧
    Executor_base.run_pass attached_world 0 false false = some RunStep.exited ∧
    concurrent_priority_queue.dequeue ⟨[high_item]⟩ = some (high_item, ⟨[]⟩) :=
  ⟨rfl, (C14_worker_loop_pass attached_world 0 ⟨⟨[high_item]⟩⟩ rfl).1.1,
    ((C14_worker_loop_pass attached_world 0 ⟨⟨[high_item]⟩⟩ rfl).2.1 high_item [] rfl).1⟩

/-- Instance of C15: in `hello_world` state 0 is Ready with a value; a continuation attached to it with `then` gets the fresh state 2, no queue changes, and the returned future stays Pending. -/
theorem C15_witness :
    Reachable hello_world ∧ ReadyValue 0 hello_world ∧
    ∃ (fut : TaskFuture) (w1 : World),
      TaskFuture.then_ hello_world ⟨some 0⟩ false (Callable.fn string_length) LOW =
        some (fut, w1) ∧
      fut = ⟨some 2⟩ ∧ w1.executors = hello_world.executors ∧
      ∀ (ops : List Op) (w2 : World), (∀ op ∈ ops, ¬ op.writes 2) →
        run_ops w1 ops = some w2 → TaskFuture.is_ready w2 fut = some false := by
  have hreach := reachable_run_ops hello_ops World.init hello_world Reachable.init rfl
  have hrv : ReadyValue 0 hello_world := ⟨_, rfl, rfl, rfl⟩
  refine ⟨hreach, hrv, _, _, rfl, ?_⟩
  have h := C15_late_continuation_never_runs hello_world 0 0 false
    (Callable.fn string_length) LOW _ _ hreach hrv (Or.inr rfl)
  exact ⟨h.1, h.2.1, fun ops w2 hops h2 => (h.2.2.2.2 ops w2 hops h2).1⟩

/-! ### What makes a state Ready -/

end Tasks
